import Mathlib

/-!
# Thanos rule UI (`pkg/ui/rule.go`): alert sorter and duration humanizer

A shallow embedding of `byAlertStateAndNameSorter` (Len / Less / Swap), of the
call `sort.Sort(alertsSorter)` in `Rule.alerts`, and of the template helpers
`humanizeDuration`, `since`, `alertStateToClass` and `ruleHealthToClass`, followed
by the properties proved about them.

Conventions.
* A Go `panic` (index out of range) is the result `none`.
* `sort.Sort` belongs to the Go standard library. A library routine is a program
  over the three methods of `sort.Interface`; such programs are the terms of
  `SortM`. The routine of the call in `Rule.alerts` is the library's `quickSort`
  (`quickSortImpl`: `doPivot`, `heapSort`, the gap-6 pass and `insertionSort`), the
  `sort.Sort` of the Go releases before 1.19, with which the rule UI was built. It is
  shown to return on every slice and to leave it ordered by `Less` (`SortContract`).
  The `pdqsort` that replaced it in Go 1.19 (`pdqsortImpl`) is embedded and shown to
  meet the same contract, for the one claim whose truth depends on the release.
* A finite `float64` is a sign and a whole multiple of `2^-1074` (`Float64`);
  `fmt.Sprintf` and the float64 product are modelled on the Go library and the
  IEEE-754 standard.
-/

set_option exponentiation.threshold 10000

namespace ThanosUI

/-! ## Data model -/

/-- Modelled from the spec: `rules.AlertState` of the Prometheus rule manager is
not declared in `rule.go`. The spec gives an enumerated value ordered
`Inactive < Pending < Firing` and speaks of unrecognized state values, so the
type is the underlying Go `int`. -/
abbrev AlertState := Int

/-- Modelled from the spec: the least severe state. -/
def StateInactive : AlertState := 0

/-- Modelled from the spec: the middle state. -/
def StatePending : AlertState := 1

/-- Modelled from the spec: the most severe state. -/
def StateFiring : AlertState := 2

/-- Modelled from the spec: `rules.RuleHealth` is not declared in `rule.go`; the
spec lists the values Unknown, Good and Bad(other). The Go type is a string. -/
abbrev RuleHealth := String

/-- Modelled from the spec: health of a rule that has not been evaluated. -/
def HealthUnknown : RuleHealth := "unknown"

/-- Modelled from the spec: health of a rule whose evaluation succeeded. -/
def HealthGood : RuleHealth := "ok"

/-- Modelled from the spec: health of a rule whose evaluation failed. -/
def HealthBad : RuleHealth := "err"

/-- Modelled from the spec: `thanosrule.AlertingRule` is not declared in `rule.go`.
The spec's AlertingRuleSummary has a name, a state and a health. -/
structure AlertingRule where
  name : String
  state : AlertState
  health : RuleHealth
  deriving DecidableEq, Repr

/-- The method `Name()`. -/
def AlertingRule.Name (r : AlertingRule) : String := r.name

/-- The method `State()`. -/
def AlertingRule.State (r : AlertingRule) : AlertState := r.state

/-- The method `Health()`. -/
def AlertingRule.Health (r : AlertingRule) : RuleHealth := r.health

/-- Lexicographic comparison of two character sequences by code point. -/
def ltChars : List Char → List Char → Bool
  | _, [] => false
  | [], _ :: _ => true
  | a :: as, b :: bs =>
    if a.toNat < b.toNat then true
    else if b.toNat < a.toNat then false
    else ltChars as bs

/-- Go's `<` on strings. Go compares the UTF-8 bytes; on well-formed strings that is
the lexicographic order of the code points. -/
def stringLess (a b : String) : Bool := ltChars a.data b.data

/-! ## The sorter -/

/-- The type `byAlertStateAndNameSorter`: a slice of alerting rules. -/
structure byAlertStateAndNameSorter where
  alerts : List AlertingRule
  deriving DecidableEq, Repr

namespace byAlertStateAndNameSorter

/-- `Len()`: the number of rules. -/
def Len (s : byAlertStateAndNameSorter) : Nat := s.alerts.length

/-- `Less(i, j)`: the state of rule `i` is greater, or the states are equal and the
name of rule `i` is smaller. An index out of range panics. -/
def Less (s : byAlertStateAndNameSorter) (i j : Nat) : Option Bool :=
  match s.alerts[i]?, s.alerts[j]? with
  | some a, some b =>
    some (decide (a.State > b.State) ||
      (decide (a.State = b.State) && stringLess a.Name b.Name))
  | _, _ => none

/-- `Swap(i, j)`: exchange the rules at `i` and `j`. An index out of range panics. -/
def Swap (s : byAlertStateAndNameSorter) (i j : Nat) : Option byAlertStateAndNameSorter :=
  match s.alerts[i]?, s.alerts[j]? with
  | some a, some b => some ⟨(s.alerts.set i b).set j a⟩
  | _, _ => none

end byAlertStateAndNameSorter

/-- An in-place routine over `sort.Interface`: it returns, or asks `Less(i, j)` and
goes on with the answer, or performs `Swap(i, j)` and goes on; `fail` is a routine
that does not return (a loop that exhausted its bound). -/
inductive SortM (α : Type) : Type where
  | fail : SortM α
  | ret : α → SortM α
  | less : Nat → Nat → (Bool → SortM α) → SortM α
  | swap : Nat → Nat → SortM α → SortM α

namespace SortM

/-- Sequencing of two routines. -/
def bind {α β : Type} : SortM α → (α → SortM β) → SortM β
  | fail, _ => fail
  | ret a, f => f a
  | less i j k, f => less i j (fun b => bind (k b) f)
  | swap i j k, f => swap i j (bind k f)

instance : Monad SortM where
  pure := ret
  bind := bind

/-- Run a routine on a sorter; `none` when a method panics. -/
def exec {α : Type} : SortM α → byAlertStateAndNameSorter → Option (α × byAlertStateAndNameSorter)
  | fail, _ => none
  | ret a, s => some (a, s)
  | less i j k, s =>
    match s.Less i j with
    | none => none
    | some b => exec (k b) s
  | swap i j k, s =>
    match s.Swap i j with
    | none => none
    | some s1 => exec k s1

/-- The call `data.Less(i, j)`. -/
def Less (i j : Nat) : SortM Bool := less i j ret

/-- The call `data.Swap(i, j)`. -/
def Swap (i j : Nat) : SortM Unit := swap i j (ret ())

end SortM

/-- The inner loop of the library's `insertionSort`:
`for j := i; j > a && data.Less(j, j-1); j-- { data.Swap(j, j-1) }`. -/
def insertionInner (a : Nat) : Nat → SortM Unit
  | 0 => SortM.ret ()
  | j + 1 =>
    if a < j + 1 then
      SortM.less (j + 1) j fun lt =>
        if lt then SortM.swap (j + 1) j (insertionInner a j) else SortM.ret ()
    else SortM.ret ()

/-- The outer loop of the library's `insertionSort`, `for i := a + 1; i < b; i++`,
started at `i` with `n` rounds to go. -/
def insertionOuter (a : Nat) (i : Nat) : Nat → SortM Unit
  | 0 => SortM.ret ()
  | n + 1 => SortM.bind (insertionInner a i) fun _ => insertionOuter a (i + 1) n

/-- The library's `insertionSort(data, a, b)`. -/
def insertionSort (a b : Nat) : SortM Unit := insertionOuter a (a + 1) (b - (a + 1))

/-- The call `sort.Sort(alertsSorter)` with the library routine `impl`:
`n := data.Len()` and then the routine for `n` elements. -/
def sortSort (impl : Nat → SortM Unit) (data : byAlertStateAndNameSorter) :
    Option byAlertStateAndNameSorter :=
  match (impl data.Len).exec data with
  | none => none
  | some (_, out) => some out

/-- The sorting part of `Rule.alerts`: wrap the rules in the sorter, sort, and read
`alertsSorter.alerts`. -/
def alerts (impl : Nat → SortM Unit) (rules : List AlertingRule) : Option (List AlertingRule) :=
  match sortSort impl ⟨rules⟩ with
  | none => none
  | some s => some s.alerts

/-- The documented contract of `sort.Sort` on this sorter: the call returns, and
afterwards no later element is `Less` than an earlier one. -/
def SortContract (impl : Nat → SortM Unit) : Prop :=
  ∀ data : byAlertStateAndNameSorter, ∃ out, sortSort impl data = some out ∧
    ∀ i j, i < j → j < out.Len → out.Less j i = some false

/-- The library's `insertionSort` on the whole slice, `insertionSort(data, 0, n)`.
It is all that `quickSort` does on a slice of at most 6 elements; on 7 to 12 elements
`quickSort` runs a gap-6 pass first, and it partitions longer slices
(`quickSortImpl`). -/
def insertionImpl (n : Nat) : SortM Unit := insertionSort 0 n

/-! ### The quicksort of the library before Go 1.19

`sort.Sort` of the releases before Go 1.19 (the rule UI dates from the time of
Go 1.13): `quickSort` with `doPivot`, `medianOfThree`, `heapSort` and a final
insertion sort. Loops whose bound depends on the data carry a step budget. -/

/-- The function `medianOfThree(data, m1, m0, m2)`. -/
def medianOfThree (m1 m0 m2 : Nat) : SortM Unit := do
  if (← SortM.Less m1 m0) then
    SortM.Swap m1 m0
  if (← SortM.Less m2 m1) then
    SortM.Swap m2 m1
    if (← SortM.Less m1 m0) then
      SortM.Swap m1 m0

/-- The loop `for ; a < c && data.Less(a, pivot); a++ {}`; returns `a`. -/
def pivotLoopA (pivot c : Nat) : Nat → Nat → SortM Nat
  | 0, _ => SortM.fail
  | f + 1, a =>
    if a < c then do
      if (← SortM.Less a pivot) then pivotLoopA pivot c f (a + 1) else pure a
    else pure a

/-- The loop `for ; b < c && !data.Less(pivot, b); b++ {}`; returns `b`. -/
def pivotLoopB (pivot c : Nat) : Nat → Nat → SortM Nat
  | 0, _ => SortM.fail
  | f + 1, b =>
    if b < c then do
      if !(← SortM.Less pivot b) then pivotLoopB pivot c f (b + 1) else pure b
    else pure b

/-- The loop `for ; b < c && data.Less(pivot, c-1); c-- {}`; returns `c`. -/
def pivotLoopC (pivot b : Nat) : Nat → Nat → SortM Nat
  | 0, _ => SortM.fail
  | f + 1, c =>
    if b < c then do
      if (← SortM.Less pivot (c - 1)) then pivotLoopC pivot b f (c - 1) else pure c
    else pure c

/-- The partitioning loop of `doPivot`; returns `(b, c)`. -/
def pivotPartition (pivot n : Nat) : Nat → Nat → Nat → SortM (Nat × Nat)
  | 0, _, _ => SortM.fail
  | f + 1, b, c => do
    let b ← pivotLoopB pivot c n b
    let c ← pivotLoopC pivot b n c
    if b ≥ c then pure (b, c)
    else do
      SortM.Swap b (c - 1)
      pivotPartition pivot n f (b + 1) (c - 1)

/-- The loop `for ; a < b && !data.Less(b-1, pivot); b-- {}`; returns `b`. -/
def protectLoopB (pivot a : Nat) : Nat → Nat → SortM Nat
  | 0, _ => SortM.fail
  | f + 1, b =>
    if a < b then do
      if !(← SortM.Less (b - 1) pivot) then protectLoopB pivot a f (b - 1) else pure b
    else pure b

/-- The loop `for ; a < b && data.Less(a, pivot); a++ {}`; returns `a`. -/
def protectLoopA (pivot b : Nat) : Nat → Nat → SortM Nat
  | 0, _ => SortM.fail
  | f + 1, a =>
    if a < b then do
      if (← SortM.Less a pivot) then protectLoopA pivot b f (a + 1) else pure a
    else pure a

/-- The loop of `doPivot` that guards against many duplicates; returns `b`. -/
def protectLoop (pivot n : Nat) : Nat → Nat → Nat → SortM Nat
  | 0, _, _ => SortM.fail
  | f + 1, a, b => do
    let b ← protectLoopB pivot a n b
    let a ← protectLoopA pivot b n a
    if a ≥ b then pure b
    else do
      SortM.Swap a (b - 1)
      protectLoop pivot n f (a + 1) (b - 1)

/-- The function `doPivot(data, lo, hi)`; returns `(midlo, midhi)`. -/
def doPivot (lo hi : Nat) : SortM (Nat × Nat) := do
  let m := (lo + hi) / 2
  if hi - lo > 40 then
    let s := (hi - lo) / 8
    medianOfThree lo (lo + s) (lo + 2 * s)
    medianOfThree m (m - s) (m + s)
    medianOfThree (hi - 1) (hi - 1 - s) (hi - 1 - 2 * s)
  medianOfThree lo m (hi - 1)
  let pivot := lo
  let a ← pivotLoopA pivot (hi - 1) (hi + 1) (lo + 1)
  let (b, c) ← pivotPartition pivot (hi + 1) (hi + 1) a (hi - 1)
  let protect0 := decide (hi - c < 5)
  let (b, c, protect) ←
    if !protect0 && decide (hi - c < (hi - lo) / 4) then do
      let (c, dups) ←
        if !(← SortM.Less pivot (hi - 1)) then do
          SortM.Swap c (hi - 1)
          pure (c + 1, 1)
        else pure (c, 0)
      let (b, dups) ←
        if !(← SortM.Less (b - 1) pivot) then pure (b - 1, dups + 1)
        else pure (b, dups)
      let (b, dups) ←
        if !(← SortM.Less m pivot) then do
          SortM.Swap m (b - 1)
          pure (b - 1, dups + 1)
        else pure (b, dups)
      pure (b, c, decide (dups > 1))
    else pure (b, c, protect0)
  let b ← if protect then protectLoop pivot (hi + 1) (hi + 1) a b else pure b
  SortM.Swap pivot (b - 1)
  pure (b - 1, c)

/-- The loop of `siftDown(data, lo, hi, first)`, at `root`. -/
def siftDown (hi first : Nat) : Nat → Nat → SortM Unit
  | 0, _ => SortM.fail
  | f + 1, root => do
    let child := 2 * root + 1
    if child ≥ hi then pure ()
    else do
      let child ←
        if child + 1 < hi then do
          if (← SortM.Less (first + child) (first + child + 1)) then pure (child + 1)
          else pure child
        else pure child
      if !(← SortM.Less (first + root) (first + child)) then pure ()
      else do
        SortM.Swap (first + root) (first + child)
        siftDown hi first f child

/-- The loop `for i := (hi - 1) / 2; i >= 0; i-- { siftDown(data, i, hi, first) }`,
with `k + 1` rounds to go when at `i = k`. -/
def heapBuild (hi first : Nat) : Nat → SortM Unit
  | 0 => siftDown hi first (hi + 1) 0
  | i + 1 => do
    siftDown hi first (hi + 1) (i + 1)
    heapBuild hi first i

/-- The loop `for i := hi - 1; i >= 0; i-- { data.Swap(first, first+i); siftDown(data, lo, i, first) }`. -/
def heapPop (first : Nat) : Nat → SortM Unit
  | 0 => SortM.Swap first first
  | i + 1 => do
    SortM.Swap first (first + (i + 1))
    siftDown (i + 1) first (i + 2) 0
    heapPop first i

/-- The function `heapSort(data, a, b)`, called with `a < b`. -/
def heapSort (a b : Nat) : SortM Unit := do
  let hi := b - a
  heapBuild hi a ((hi - 1) / 2)
  heapPop a (hi - 1)

/-- The pass `for i := a + 6; i < b; i++ { if data.Less(i, i-6) { data.Swap(i, i-6) } }`,
started at `i` with `n` rounds to go. -/
def shellPass (i : Nat) : Nat → SortM Unit
  | 0 => pure ()
  | n + 1 => do
    if (← SortM.Less i (i - 6)) then
      SortM.Swap i (i - 6)
    shellPass (i + 1) n

/-- The function `quickSort(data, a, b, maxDepth)`. The loop `for b-a > 12` that goes
on with the other half is the call on that half. -/
def quickSort : Nat → Nat → Nat → Nat → SortM Unit
  | 0, _, _, _ => SortM.fail
  | f + 1, a, b, maxDepth =>
    if b - a > 12 then
      if maxDepth = 0 then heapSort a b
      else do
        let (mlo, mhi) ← doPivot a b
        if mlo - a < b - mhi then do
          quickSort f a mlo (maxDepth - 1)
          quickSort f mhi b (maxDepth - 1)
        else do
          quickSort f mhi b (maxDepth - 1)
          quickSort f a mlo (maxDepth - 1)
    else if b - a > 1 then do
      shellPass (a + 6) (b - (a + 6))
      insertionSort a b
    else pure ()

/-- The loop of `maxDepth(n)`: `for i := n; i > 0; i >>= 1 { depth++ }`. -/
def maxDepthLoop : Nat → Nat → Nat
  | 0, _ => 0
  | f + 1, i => if i > 0 then maxDepthLoop f (i / 2) + 1 else 0

/-- The function `maxDepth(n)`: twice the number of binary digits of `n`. -/
def maxDepth (n : Nat) : Nat := maxDepthLoop n n * 2

/-- The body of `sort.Sort` before Go 1.19: `quickSort(data, 0, n, maxDepth(n))`. -/
def quickSortImpl (n : Nat) : SortM Unit := quickSort (n + 1) 0 n (maxDepth n)

/-! ### The pattern-defeating quicksort of the library from Go 1.19 on

`sort.Sort` of Go 1.19 and later: `pdqsort` with `choosePivot`, `partition`,
`partitionEqual`, `partialInsertionSort`, `breakPatterns`, `reverseRange`, and the
`insertionSort` and `heapSort` above. The values of the library's pseudo-random
generator are a parameter: `rnd length i` stands for the value of call `i` of
`random.Next()` after `random := xorshift(length)`. -/

/-- The type `sortedHint`. -/
inductive sortedHint where
  | unknownHint : sortedHint
  | increasingHint : sortedHint
  | decreasingHint : sortedHint
  deriving DecidableEq, Repr

/-- The loop of `bits.Len`: the number of binary digits of `x`. -/
def bitsLenLoop : Nat → Nat → Nat
  | 0, _ => 0
  | f + 1, x => if x = 0 then 0 else bitsLenLoop f (x / 2) + 1

/-- The function `bits.Len(x)`: the least number of bits that represent `x`. -/
def bitsLen (x : Nat) : Nat := bitsLenLoop x x

/-- The function `nextPowerOfTwo(length)`: `1 << bits.Len(length)`. -/
def nextPowerOfTwo (length : Nat) : Nat := 2 ^ bitsLen length

/-- The loop of `breakPatterns`,
`for i := 0; i < 3; i++ { other := ...; data.Swap(idx-1+i, a+other) }`,
started at `i` with `n` rounds to go. -/
def breakLoop (rnd : Nat → Nat → Nat) (a length modulus idx : Nat) : Nat → Nat → SortM Unit
  | 0, _ => pure ()
  | n + 1, i => do
    let other := rnd length i &&& (modulus - 1)
    let other := if other ≥ length then other - length else other
    SortM.Swap (idx - 1 + i) (a + other)
    breakLoop rnd a length modulus idx n (i + 1)

/-- The function `breakPatterns(data, a, b)`. -/
def breakPatterns (rnd : Nat → Nat → Nat) (a b : Nat) : SortM Unit :=
  let length := b - a
  if length ≥ 8 then
    let modulus := nextPowerOfTwo length
    let idx := a + (length / 4) * 2 - 1
    breakLoop rnd a length modulus idx 3 0
  else pure ()

/-- The function `order2(data, a, b, swaps)`; returns the two indices and the counter. -/
def order2 (a b swaps : Nat) : SortM (Nat × Nat × Nat) := do
  if (← SortM.Less b a) then pure (b, a, swaps + 1) else pure (a, b, swaps)

/-- The function `median(data, a, b, c, swaps)`; returns the index and the counter. -/
def median (a b c swaps : Nat) : SortM (Nat × Nat) := do
  let (a, b, swaps) ← order2 a b swaps
  let (b, _, swaps) ← order2 b c swaps
  let (_, b, swaps) ← order2 a b swaps
  pure (b, swaps)

/-- The function `medianAdjacent(data, a, swaps)`. -/
def medianAdjacent (a swaps : Nat) : SortM (Nat × Nat) := median (a - 1) a (a + 1) swaps

/-- The function `choosePivot(data, a, b)`; returns `(pivot, hint)`. -/
def choosePivot (a b : Nat) : SortM (Nat × sortedHint) := do
  let l := b - a
  let i := a + l / 4 * 1
  let j := a + l / 4 * 2
  let k := a + l / 4 * 3
  let (j, swaps) ←
    if l ≥ 8 then do
      let (i, j, k, swaps) ←
        if l ≥ 50 then do
          let (i, swaps) ← medianAdjacent i 0
          let (j, swaps) ← medianAdjacent j swaps
          let (k, swaps) ← medianAdjacent k swaps
          pure (i, j, k, swaps)
        else pure (i, j, k, 0)
      median i j k swaps
    else pure (j, 0)
  if swaps = 0 then pure (j, sortedHint.increasingHint)
  else if swaps = 4 * 3 then pure (j, sortedHint.decreasingHint)
  else pure (j, sortedHint.unknownHint)

/-- The loop of `reverseRange`: `for i < j { data.Swap(i, j); i++; j-- }`. -/
def reverseLoop : Nat → Nat → Nat → SortM Unit
  | 0, _, _ => SortM.fail
  | f + 1, i, j =>
    if i < j then do
      SortM.Swap i j
      reverseLoop f (i + 1) (j - 1)
    else pure ()

/-- The function `reverseRange(data, a, b)`. -/
def reverseRange (a b : Nat) : SortM Unit := reverseLoop (b + 1) a (b - 1)

/-- The loop `for i < b && !data.Less(i, i-1) { i++ }` of `partialInsertionSort`;
returns `i`. -/
def partialScan (b : Nat) : Nat → Nat → SortM Nat
  | 0, _ => SortM.fail
  | f + 1, i =>
    if i < b then do
      if !(← SortM.Less i (i - 1)) then partialScan b f (i + 1) else pure i
    else pure i

/-- The loop `for j := i - 1; j >= 1; j-- { if !data.Less(j, j-1) { break }; data.Swap(j, j-1) }`,
at `j`. -/
def shiftLeft : Nat → SortM Unit
  | 0 => pure ()
  | j + 1 => do
    if !(← SortM.Less (j + 1) j) then pure ()
    else do
      SortM.Swap (j + 1) j
      shiftLeft j

/-- The loop `for j := i + 1; j < b; j++ { if !data.Less(j, j-1) { break }; data.Swap(j, j-1) }`,
at `j` with `n` rounds to go. -/
def shiftRight : Nat → Nat → SortM Unit
  | 0, _ => pure ()
  | n + 1, j => do
    if !(← SortM.Less j (j - 1)) then pure ()
    else do
      SortM.Swap j (j - 1)
      shiftRight n (j + 1)

/-- The loop `for j := 0; j < maxSteps; j++` of `partialInsertionSort`, with `n` steps
to go and the scan at `i`. -/
def partialInsertionLoop (a b : Nat) : Nat → Nat → SortM Bool
  | 0, _ => pure false
  | n + 1, i => do
    let i ← partialScan b (b + 1) i
    if i = b then pure true
    else if b - a < 50 then pure false
    else do
      SortM.Swap i (i - 1)
      if i - a ≥ 2 then
        shiftLeft (i - 1)
      if b - i ≥ 2 then
        shiftRight (b - (i + 1)) (i + 1)
      partialInsertionLoop a b n i

/-- The function `partialInsertionSort(data, a, b)`; `maxSteps` is 5 and
`shortestShifting` is 50. -/
def partialInsertionSort (a b : Nat) : SortM Bool := partialInsertionLoop a b 5 (a + 1)

/-- The loop `for i <= j && data.Less(i, a) { i++ }` of `partition`; returns `i`. -/
def partitionLoopI (a j : Nat) : Nat → Nat → SortM Nat
  | 0, _ => SortM.fail
  | f + 1, i =>
    if i ≤ j then do
      if (← SortM.Less i a) then partitionLoopI a j f (i + 1) else pure i
    else pure i

/-- The loop `for i <= j && !data.Less(j, a) { j-- }` of `partition`; returns `j`. -/
def partitionLoopJ (a i : Nat) : Nat → Nat → SortM Nat
  | 0, _ => SortM.fail
  | f + 1, j =>
    if i ≤ j then do
      if !(← SortM.Less j a) then partitionLoopJ a i f (j - 1) else pure j
    else pure j

/-- The `for` loop of `partition` without condition; returns `j`. -/
def partitionLoop (a n : Nat) : Nat → Nat → Nat → SortM Nat
  | 0, _, _ => SortM.fail
  | f + 1, i, j => do
    let i ← partitionLoopI a j n i
    let j ← partitionLoopJ a i n j
    if i > j then pure j
    else do
      SortM.Swap i j
      partitionLoop a n f (i + 1) (j - 1)

/-- The function `partition(data, a, b, pivot)`; returns `(newpivot, alreadyPartitioned)`. -/
def partition (a b pivot : Nat) : SortM (Nat × Bool) := do
  SortM.Swap a pivot
  let i := a + 1
  let j := b - 1
  let i ← partitionLoopI a j (b + 1) i
  let j ← partitionLoopJ a i (b + 1) j
  if i > j then do
    SortM.Swap j a
    pure (j, true)
  else do
    SortM.Swap i j
    let j ← partitionLoop a (b + 1) (b + 1) (i + 1) (j - 1)
    SortM.Swap j a
    pure (j, false)

/-- The loop `for i <= j && !data.Less(a, i) { i++ }` of `partitionEqual`; returns `i`. -/
def partitionEqualLoopI (a j : Nat) : Nat → Nat → SortM Nat
  | 0, _ => SortM.fail
  | f + 1, i =>
    if i ≤ j then do
      if !(← SortM.Less a i) then partitionEqualLoopI a j f (i + 1) else pure i
    else pure i

/-- The loop `for i <= j && data.Less(a, j) { j-- }` of `partitionEqual`; returns `j`. -/
def partitionEqualLoopJ (a i : Nat) : Nat → Nat → SortM Nat
  | 0, _ => SortM.fail
  | f + 1, j =>
    if i ≤ j then do
      if (← SortM.Less a j) then partitionEqualLoopJ a i f (j - 1) else pure j
    else pure j

/-- The `for` loop of `partitionEqual`; returns `i`. -/
def partitionEqualLoop (a n : Nat) : Nat → Nat → Nat → SortM Nat
  | 0, _, _ => SortM.fail
  | f + 1, i, j => do
    let i ← partitionEqualLoopI a j n i
    let j ← partitionEqualLoopJ a i n j
    if i > j then pure i
    else do
      SortM.Swap i j
      partitionEqualLoop a n f (i + 1) (j - 1)

/-- The function `partitionEqual(data, a, b, pivot)`; returns `newpivot`. -/
def partitionEqual (a b pivot : Nat) : SortM Nat := do
  SortM.Swap a pivot
  partitionEqualLoop a (b + 1) (b + 1) (a + 1) (b - 1)

/-- The function `pdqsort(data, a, b, limit)`; `maxInsertion` is 12. One round of the
`for` loop with the values of `wasBalanced` and `wasPartitioned`; the loop goes on with
the call on the part that is left. -/
def pdqsort (rnd : Nat → Nat → Nat) : Nat → Nat → Nat → Nat → Bool → Bool → SortM Unit
  | 0, _, _, _, _, _ => SortM.fail
  | f + 1, a, b, limit, wasBalanced, wasPartitioned =>
    let length := b - a
    if length ≤ 12 then insertionSort a b
    else if limit = 0 then heapSort a b
    else do
      let limit ←
        if !wasBalanced then do
          breakPatterns rnd a b
          pure (limit - 1)
        else pure limit
      let (pivot, hint) ← choosePivot a b
      let (pivot, hint) ←
        if hint = sortedHint.decreasingHint then do
          reverseRange a b
          pure ((b - 1) - (pivot - a), sortedHint.increasingHint)
        else pure (pivot, hint)
      let sorted ←
        if wasBalanced && wasPartitioned && decide (hint = sortedHint.increasingHint) then
          partialInsertionSort a b
        else pure false
      if sorted then pure ()
      else do
        let equal ←
          if a > 0 then do
            pure (!(← SortM.Less (a - 1) pivot))
          else pure false
        if equal then do
          let mid ← partitionEqual a b pivot
          pdqsort rnd f mid b limit wasBalanced wasPartitioned
        else do
          let (mid, alreadyPartitioned) ← partition a b pivot
          let leftLen := mid - a
          let rightLen := b - mid
          let balanceThreshold := length / 8
          if leftLen < rightLen then do
            pdqsort rnd f a mid limit true true
            pdqsort rnd f (mid + 1) b limit (decide (leftLen ≥ balanceThreshold))
              alreadyPartitioned
          else do
            pdqsort rnd f (mid + 1) b limit true true
            pdqsort rnd f a mid limit (decide (rightLen ≥ balanceThreshold))
              alreadyPartitioned

/-- The body of `sort.Sort` from Go 1.19 on: nothing for `n ≤ 1`, else
`pdqsort(data, 0, n, bits.Len(uint(n)))`. -/
def pdqsortImpl (rnd : Nat → Nat → Nat) (n : Nat) : SortM Unit :=
  if n ≤ 1 then pure ()
  else pdqsort rnd (n + 1) 0 n (bitsLen n) true true

/-! ### The order of the rules -/

/-- The relation that `Less` computes between two rules. -/
def lessRel (a b : AlertingRule) : Prop :=
  byAlertStateAndNameSorter.Less ⟨[a, b]⟩ 0 1 = some true

instance lessRelDecidable (a b : AlertingRule) : Decidable (lessRel a b) := by
  unfold lessRel
  infer_instance

/-- The sort key of a rule. -/
def sortKey (r : AlertingRule) : AlertState × String := (r.State, r.Name)

/-- The sort key as an element of a linear order: states in descending order, then
names in ascending order. -/
def ordKey (r : AlertingRule) : Lex (AlertStateᵒᵈ × String) :=
  toLex (OrderDual.toDual r.state, r.name)

/-- The order of the output: `a` may stand before `b`. -/
def notAfter (a b : AlertingRule) : Prop := ¬ lessRel b a

/-- The list built by repeated insertion from the back, as `insertionSort` builds it. -/
def insertedList (l : List AlertingRule) : List AlertingRule :=
  (l.foldl (fun acc x => List.orderedInsert (fun a b => ¬ lessRel a b) x acc) []).reverse

/-- Thirteen firing rules in sorted order: one named `a`, then twelve named `b`, of
which the first failed its last evaluation. -/
def tiedRules : List AlertingRule :=
  ⟨"a", StateFiring, HealthGood⟩ :: ⟨"b", StateFiring, HealthBad⟩ ::
    List.replicate 11 ⟨"b", StateFiring, HealthGood⟩

/-- The rules of `tiedRules` with the failed rule at position 6. -/
def tiedRulesSorted : List AlertingRule :=
  ⟨"a", StateFiring, HealthGood⟩ :: List.replicate 5 ⟨"b", StateFiring, HealthGood⟩ ++
    ⟨"b", StateFiring, HealthBad⟩ :: List.replicate 6 ⟨"b", StateFiring, HealthGood⟩

/-- Fourteen rules in the order of a rule file: three states, twelve names, and one
rule (`cpu`, firing) listed twice. -/
def sampleRules : List AlertingRule :=
  [⟨"disk", StatePending, HealthGood⟩, ⟨"cpu", StateFiring, HealthBad⟩,
    ⟨"mem", StateInactive, HealthGood⟩, ⟨"net", StateFiring, HealthGood⟩,
    ⟨"api", StatePending, HealthGood⟩, ⟨"db", StateInactive, HealthUnknown⟩,
    ⟨"cpu", StateInactive, HealthGood⟩, ⟨"io", StateFiring, HealthGood⟩,
    ⟨"cache", StatePending, HealthBad⟩, ⟨"queue", StateInactive, HealthGood⟩,
    ⟨"auth", StateFiring, HealthGood⟩, ⟨"dns", StatePending, HealthGood⟩,
    ⟨"tls", StateInactive, HealthGood⟩, ⟨"cpu", StateFiring, HealthBad⟩]

/-- The rules of `sampleRules` ordered by state (firing first) and then by name. -/
def sampleSorted : List AlertingRule :=
  [⟨"auth", StateFiring, HealthGood⟩, ⟨"cpu", StateFiring, HealthBad⟩,
    ⟨"cpu", StateFiring, HealthBad⟩, ⟨"io", StateFiring, HealthGood⟩,
    ⟨"net", StateFiring, HealthGood⟩, ⟨"api", StatePending, HealthGood⟩,
    ⟨"cache", StatePending, HealthBad⟩, ⟨"disk", StatePending, HealthGood⟩,
    ⟨"dns", StatePending, HealthGood⟩, ⟨"cpu", StateInactive, HealthGood⟩,
    ⟨"db", StateInactive, HealthUnknown⟩, ⟨"mem", StateInactive, HealthGood⟩,
    ⟨"queue", StateInactive, HealthGood⟩, ⟨"tls", StateInactive, HealthGood⟩]

/-! ### Vocabulary for the correctness of the library routines -/

/-- The sort key at position `k` of the slice; out of range, the key of an empty rule. -/
def keyAt (s : byAlertStateAndNameSorter) (k : Nat) : Lex (AlertStateᵒᵈ × String) :=
  match s.alerts[k]? with
  | some r => ordKey r
  | none => ordKey ⟨"", 0, ""⟩

/-- The slice after `Swap(i, j)`; the slice itself when the call panics. -/
def swapped (s : byAlertStateAndNameSorter) (i j : Nat) : byAlertStateAndNameSorter :=
  match s.Swap i j with
  | some s1 => s1
  | none => s

/-- The slice `s1` has the length of `s`, the keys of `s` outside the positions
`[lo, hi)`, and at each position of `[lo, hi)` a key that `s` has in `[lo, hi)`. -/
def Within (lo hi : Nat) (s s1 : byAlertStateAndNameSorter) : Prop :=
  s1.Len = s.Len ∧ (∀ k, k < lo ∨ hi ≤ k → keyAt s1 k = keyAt s k) ∧
    ∀ k, lo ≤ k → k < hi → ∃ k', lo ≤ k' ∧ k' < hi ∧ keyAt s1 k = keyAt s k'

/-- The keys at the positions `[lo, hi)` are in ascending order. -/
def SortedOn (lo hi : Nat) (s : byAlertStateAndNameSorter) : Prop :=
  ∀ i j, lo ≤ i → i < j → j < hi → keyAt s i ≤ keyAt s j

/-- The state of `doPivot` after its partitioning loop: the pivot is at `lo`, the keys
at the positions of `(lo, b)` are at most the pivot, those of `[b, c)` equal it and
those of `[c, hi)` are at least the pivot. -/
def PivotInv (lo hi b c : Nat) (s : byAlertStateAndNameSorter) : Prop :=
  lo < b ∧ b ≤ c ∧ c ≤ hi ∧ hi ≤ s.Len ∧
    (∀ k, lo < k → k < b → keyAt s k ≤ keyAt s lo) ∧
    (∀ k, b ≤ k → k < c → keyAt s k = keyAt s lo) ∧
    ∀ k, c ≤ k → k < hi → keyAt s lo ≤ keyAt s k

/-- What `doPivot` returns: the keys of `[lo, mlo)` are at most the pivot, those of
`[mlo, mhi)` equal it, those of `[mhi, hi)` are at least the pivot, and the middle part
is not empty. -/
def Partitioned (lo hi mlo mhi : Nat) (s : byAlertStateAndNameSorter) : Prop :=
  lo ≤ mlo ∧ mlo < mhi ∧ mhi ≤ hi ∧
    (∀ k, lo ≤ k → k < mlo → keyAt s k ≤ keyAt s mlo) ∧
    (∀ k, mlo ≤ k → k < mhi → keyAt s k = keyAt s mlo) ∧
    ∀ k, mhi ≤ k → k < hi → keyAt s mlo ≤ keyAt s k

/-- The heap property of `heapSort` from node `lo` on: in the heap of `hi` elements
that starts at position `first`, every node `i ≥ lo` has a key at least the keys of its
children `2i+1` and `2i+2`. -/
def HeapFrom (first hi lo : Nat) (s : byAlertStateAndNameSorter) : Prop :=
  ∀ i c, lo ≤ i → c < hi → (c = 2 * i + 1 ∨ c = 2 * i + 2) →
    keyAt s (first + c) ≤ keyAt s (first + i)

/-- The slice has no position before `a`, or the key just before `a` is at most every
key of `[a, b)`: what `pdqsort` finds to the left of the range it is called on. -/
def LowerBounded (a b : Nat) (s : byAlertStateAndNameSorter) : Prop :=
  a = 0 ∨ ∀ k, a ≤ k → k < b → keyAt s (a - 1) ≤ keyAt s k

/-! ## float64

Every finite float64 is a whole multiple of `2^-1074`, so a finite value is kept as a
sign and the natural number `mag` with `|v| = mag * 2^-1074`; the float64 values are
those whose `mag` has at most 53 significant bits and is below `2^2098`
(`Float64.Valid`). Arithmetic rounds to nearest, ties to even. -/

/-- The type `float64`: NaN, an infinity, or a signed multiple of `2^-1074`. -/
inductive Float64 where
  | nan : Float64
  | inf (neg : Bool) : Float64
  | fin (neg : Bool) (mag : Nat) : Float64
  deriving DecidableEq, Repr

/-- Binary search for the position of the leading bit, `k` halvings of the range left. -/
def ilog2Aux : Nat → Nat → Nat → Nat
  | 0, _, lo => lo
  | k + 1, n, lo =>
    if 2 ^ (lo + 2 ^ k) ≤ n then ilog2Aux k n (lo + 2 ^ k) else ilog2Aux k n lo

/-- The position of the leading bit of `n` (for `0 < n < 2^8192`). -/
def ilog2 (n : Nat) : Nat := ilog2Aux 13 n 0

/-- Division of `p` by `2^s`, rounded to nearest, ties to even. -/
def roundShift (p s : Nat) : Nat :=
  let q := p / 2 ^ s
  let r := p % 2 ^ s
  if 2 ^ s < 2 * r ∨ (2 * r = 2 ^ s ∧ q % 2 = 1) then q + 1 else q

/-- Rounding of the magnitude `p * 2^-(1074 + drop)` to a float64 magnitude: at most 53
significant bits, and a whole multiple of `2^-1074`. -/
def roundMag (p drop : Nat) : Nat :=
  let s := max (ilog2 p - 52) drop
  roundShift p s * 2 ^ (s - drop)

namespace Float64

/-- The float64 values among the terms of `Float64`. -/
def Valid : Float64 → Prop
  | fin _ mag => mag % 2 ^ (ilog2 mag - 52) = 0 ∧ mag < 2 ^ 2098
  | _ => True

instance (v : Float64) : Decidable v.Valid := by
  cases v <;> unfold Valid <;> infer_instance

/-- The float64 of a small natural number. -/
def ofNat (n : Nat) : Float64 := fin false (n * 2 ^ 1074)

/-- A rounded magnitude as a float64; a magnitude of `2^1024` or more overflows. -/
def ofMag (neg : Bool) (mag : Nat) : Float64 :=
  if mag < 2 ^ 2098 then fin neg mag else inf neg

/-- The product `a * b` of Go. -/
def mul : Float64 → Float64 → Float64
  | nan, _ => nan
  | _, nan => nan
  | inf s, inf t => inf (xor s t)
  | inf s, fin t m => if m = 0 then nan else inf (xor s t)
  | fin s m, inf t => if m = 0 then nan else inf (xor s t)
  | fin s a, fin t b => ofMag (xor s t) (roundMag (a * b) 1074)

/-- The negation `-v` of Go. -/
def neg : Float64 → Float64
  | nan => nan
  | inf s => inf (!s)
  | fin s m => fin (!s) m

/-- The position of a value on the number line, in units of `2^-1074`; NaN has none. -/
def key : Float64 → Option Int
  | nan => none
  | inf s => some (if s then -(2 ^ 2098 : Int) else 2 ^ 2098)
  | fin s m => some (if s then -(m : Int) else m)

/-- The comparison `a < b` of Go. -/
def lt (a b : Float64) : Bool :=
  match a.key, b.key with
  | some x, some y => decide (x < y)
  | _, _ => false

/-- The comparison `a >= b` of Go. -/
def ge (a b : Float64) : Bool :=
  match a.key, b.key with
  | some x, some y => decide (y ≤ x)
  | _, _ => false

/-- The comparison `a == b` of Go. -/
def eq (a b : Float64) : Bool :=
  match a.key, b.key with
  | some x, some y => decide (x = y)
  | _, _ => false

end Float64

/-- The function `math.IsNaN`. -/
def mathIsNaN : Float64 → Bool
  | Float64.nan => true
  | _ => false

/-- The function `math.IsInf(v, 0)`. -/
def mathIsInf : Float64 → Bool
  | Float64.inf _ => true
  | _ => false

/-- The function `math.Abs`. -/
def mathAbs : Float64 → Float64
  | Float64.nan => Float64.nan
  | Float64.inf _ => Float64.inf false
  | Float64.fin _ m => Float64.fin false m

/-- The conversion `int64(v)`: the value truncated toward zero. When the truncated value
does not fit an `int64` (or `v` is not finite) the result is left to the implementation
by the language; it is the parameter `ovf`. -/
def toInt64 (ovf : Int) : Float64 → Int
  | Float64.fin s m =>
    let t : Int := ((m / 2 ^ 1074 : Nat) : Int)
    let x : Int := if s then -t else t
    if -(2 ^ 63 : Int) ≤ x ∧ x < 2 ^ 63 then x else ovf
  | _ => ovf

/-! ### Formatting: `fmt.Sprintf` with the verbs `%d`, `%s` and `%.4g` -/

/-- The verb `%d` on an `int64`. -/
def fmtInt (x : Int) : String := toString x

/-- The digits of a rounded value as `strconv` keeps them: the digits `d` without
trailing zeros and the position `dp` of the decimal point. -/
structure decimalSlice where
  d : List Char
  dp : Int
  deriving DecidableEq, Repr

/-- The number of digits `nd`. -/
def decimalSlice.nd (s : decimalSlice) : Int := (s.d.length : Int)

/-- For `mag * 2^-1074 < 1`: the number of zeros after the decimal point, the least `j`
with `mag * 10^(j+1) ≥ 2^1074`, searched upward from `j`. -/
def leadingZeros (mag : Nat) : Nat → Nat → Nat
  | 0, j => j
  | f + 1, j => if 2 ^ 1074 ≤ mag * 10 ^ (j + 1) then j else leadingZeros mag f (j + 1)

/-- The position of the decimal point of `mag * 2^-1074` (for `mag > 0`): the number of
digits of the integer part, or minus the number of zeros after the point. -/
def decimalPoint (mag : Nat) : Int :=
  if 2 ^ 1074 ≤ mag then ((Nat.toDigits 10 (mag / 2 ^ 1074)).length : Int)
  else -((leadingZeros mag 400 0 : Nat) : Int)

/-- The quotient `num / den` rounded to nearest, ties to even. -/
def roundDiv (num den : Nat) : Nat :=
  let q := num / den
  let r := num % den
  if den < 2 * r ∨ (2 * r = den ∧ q % 2 = 1) then q + 1 else q

/-- Removal of the trailing zeros of a digit string. -/
def trimZeros (ds : List Char) : List Char :=
  (ds.reverse.dropWhile (fun c => c == '0')).reverse

/-- The decimal digits of `mag * 2^-1074` rounded to `prec` significant digits, as
`strconv` computes them for the verbs `%e` and `%g`. -/
def roundedDigits (mag : Nat) (prec : Nat) : decimalSlice :=
  if mag = 0 then ⟨[], 0⟩
  else
    let dp := decimalPoint mag
    let q :=
      if dp ≤ prec then roundDiv (mag * 10 ^ ((prec : Int) - dp).toNat) (2 ^ 1074)
      else roundDiv mag (2 ^ 1074 * 10 ^ (dp - (prec : Int)).toNat)
    if q = 10 ^ prec then ⟨['1'], dp + 1⟩
    else ⟨trimZeros (Nat.toDigits 10 q), dp⟩

/-- The function `fmtE` of `strconv`: `d.ddde±dd` with `prec` digits after the point. -/
def fmtE (neg : Bool) (d : decimalSlice) (prec : Int) : String :=
  let sign := if neg then "-" else ""
  let first := String.singleton (d.d.headD '0')
  let more :=
    if 0 < prec then
      let m := min d.d.length (prec.toNat + 1)
      "." ++ String.mk ((d.d.take m).drop 1) ++
        String.mk (List.replicate (prec.toNat + 1 - max m 1) '0')
    else ""
  let exp : Int := if d.d.length = 0 then 0 else d.dp - 1
  let esign := if exp < 0 then "-" else "+"
  let e := exp.natAbs
  let digits := if e < 10 then "0" ++ toString e else toString e
  sign ++ first ++ more ++ "e" ++ esign ++ digits

/-- The function `fmtF` of `strconv`: `ddd.ddd` with `prec` digits after the point. -/
def fmtF (neg : Bool) (d : decimalSlice) (prec : Int) : String :=
  let sign := if neg then "-" else ""
  let whole :=
    if 0 < d.dp then
      let m := min d.d.length d.dp.toNat
      String.mk (d.d.take m) ++ String.mk (List.replicate (d.dp.toNat - m) '0')
    else "0"
  let frac :=
    if 0 < prec then
      "." ++ String.mk ((List.range prec.toNat).map fun i =>
        let j : Int := d.dp + (i : Int)
        if 0 ≤ j ∧ j < d.nd then d.d.getD j.toNat '0' else '0')
    else ""
  sign ++ whole ++ frac

/-- The verb `g` of `strconv.FormatFloat` with an explicit precision: `fmtE` when the
exponent is below `-4` or not below the precision, `fmtF` otherwise. -/
def formatDigitsG (neg : Bool) (digs : decimalSlice) (prec : Int) : String :=
  let eprec : Int := if digs.nd < prec ∧ digs.dp ≤ digs.nd then digs.nd else prec
  let exp : Int := digs.dp - 1
  if exp < -4 ∨ eprec ≤ exp then
    let prec1 : Int := if digs.nd < prec then digs.nd else prec
    fmtE neg digs (prec1 - 1)
  else
    let prec1 : Int := if digs.dp < prec then digs.nd else prec
    fmtF neg digs (max (prec1 - digs.dp) 0)

/-- The call `fmt.Sprintf("%.4g", v)`. -/
def sprintfG4 : Float64 → String
  | Float64.nan => "NaN"
  | Float64.inf s => if s then "-Inf" else "+Inf"
  | Float64.fin s m => formatDigitsG s (roundedDigits m 4) 4

/-! ### The template function `humanizeDuration` -/

/-- The float64 constant `0`. -/
def f64Zero : Float64 := Float64.ofNat 0

/-- The float64 constant `1`. -/
def f64One : Float64 := Float64.ofNat 1

/-- The float64 constant `1000`. -/
def f64Thousand : Float64 := Float64.ofNat 1000

/-- The slice `[]string{"m", "u", "n", "p", "f", "a", "z", "y"}`. -/
def metricUnits : List String := ["m", "u", "n", "p", "f", "a", "z", "y"]

/-- The loop `for _, p := range ... { if math.Abs(v) >= 1 { break }; prefix = p; v *= 1000 }`
over the rest `ps` of the slice; returns the final `v` and the final prefix. -/
def scaleLoop (v : Float64) (pfx : String) : List String → Float64 × String
  | [] => (v, pfx)
  | p :: ps =>
    if (mathAbs v).ge f64One then (v, pfx)
    else scaleLoop (v.mul f64Thousand) p ps

/-- The four values `days`, `hours`, `minutes`, `seconds` computed from `int64(v)`; `/`
and `%` of Go truncate toward zero. -/
def durationParts (x : Int) : Int × Int × Int × Int :=
  let seconds := Int.tmod x 60
  let minutes := Int.tmod (Int.tdiv x 60) 60
  let hours := Int.tmod (Int.tdiv (Int.tdiv x 60) 60) 24
  let days := Int.tdiv (Int.tdiv (Int.tdiv x 60) 60) 24
  (days, hours, minutes, seconds)

/-- The template function `humanizeDuration`. -/
def humanizeDuration (ovf : Int) (v : Float64) : String :=
  if mathIsNaN v || mathIsInf v then sprintfG4 v
  else if v.eq f64Zero then sprintfG4 v ++ "s"
  else if (mathAbs v).ge f64One then
    let sign := if v.lt f64Zero then "-" else ""
    let v := if v.lt f64Zero then v.neg else v
    let (days, hours, minutes, seconds) := durationParts (toInt64 ovf v)
    if days ≠ 0 then
      sign ++ fmtInt days ++ "d " ++ fmtInt hours ++ "h " ++ fmtInt minutes ++ "m " ++
        fmtInt seconds ++ "s"
    else if hours ≠ 0 then
      sign ++ fmtInt hours ++ "h " ++ fmtInt minutes ++ "m " ++ fmtInt seconds ++ "s"
    else if minutes ≠ 0 then
      sign ++ fmtInt minutes ++ "m " ++ fmtInt seconds ++ "s"
    else sign ++ sprintfG4 v ++ "s"
  else
    let (v, pfx) := scaleLoop v "" metricUnits
    sprintfG4 v ++ pfx ++ "s"

/-- The float64 nearest to a decimal literal `num / den`, as the Go compiler and
`strconv.ParseFloat` read it. -/
def f64OfRatio (neg : Bool) (num den : Nat) : Float64 :=
  let p := num * 2 ^ 2148 / den
  let sticky := if num * 2 ^ 2148 % den = 0 then 0 else 1
  Float64.ofMag neg (roundMag (2 * p + sticky) 1075)

/-- The truncated integer part of `|v|` for a finite `v`. -/
def truncAbs : Float64 → Nat
  | Float64.fin _ m => m / 2 ^ 1074
  | _ => 0

/-- The magnitude of `v * 1000` for a finite `v` of magnitude `m`, before the test for
overflow. -/
def nextMag (m : Nat) : Nat := roundMag (m * (1000 * 2 ^ 1074)) 1074

/-- The value of `v` after `k` executions of `v *= 1000`. -/
def scaled (k : Nat) (v : Float64) : Float64 := (fun x => x.mul f64Thousand)^[k] v

/-- The string the spec gives for `|v| ≥ 60`: the coarsest non-zero unit of the
decomposition of the integer part `n` into days, hours, minutes and seconds, and all
lower units. -/
def durationString (sign : String) (n : Nat) : String :=
  let d := n / 86400
  let h := n / 3600 % 24
  let m := n / 60 % 60
  let s := n % 60
  if d ≠ 0 then
    sign ++ toString d ++ "d " ++ toString h ++ "h " ++ toString m ++ "m " ++
      toString s ++ "s"
  else if h ≠ 0 then
    sign ++ toString h ++ "h " ++ toString m ++ "m " ++ toString s ++ "s"
  else sign ++ toString m ++ "m " ++ toString s ++ "s"

/-- The four values `days`, `hours`, `minutes`, `seconds` that `humanizeDuration`
computes for `v`: the sign is dropped (`if v < 0 { v = -v }`) and `int64(v)` is
decomposed. -/
def durationOf (ovf : Int) (v : Float64) : Int × Int × Int × Int :=
  durationParts (toInt64 ovf (if v.lt f64Zero then v.neg else v))

/-- The largest float64 magnitude below `1`: `1 - 2^-53`. -/
def magBelowOne : Nat := (2 ^ 53 - 1) * 2 ^ 1021

/-- The least magnitude whose product with `1000` rounds to `1` or more. -/
def magToOne : Nat := (2 ^ 1074 - 2 ^ 1020) / 1000 + 1

/-- The least multiple of `2^-1074` that is at least `1000^-8`. -/
def magYocto : Nat := (2 ^ 1074 + 10 ^ 24 - 1) / 10 ^ 24

/-- The magnitude `|v|` of a finite `v` in units of `2^-1074`. -/
def Float64.mag : Float64 → Nat
  | Float64.fin _ m => m
  | _ => 0

/-- The greatest multiple of `2^-1074` below `1000^-8`. -/
def magSubYocto : Nat := (2 ^ 1074 - 1) / 10 ^ 24

/-! ### `humanizeDuration` with its run-time failures and its loop count

The same function with the ways a Go program can stop made explicit: an integer
division or remainder panics when the divisor is zero, and the scaling loop counts
its multiplications. -/

/-- The quotient `a / b` of Go on `int64`: a panic when `b` is zero. -/
def goDiv (a b : Int) : Option Int := if b = 0 then none else some (Int.tdiv a b)

/-- The remainder `a % b` of Go on `int64`: a panic when `b` is zero. -/
def goMod (a b : Int) : Option Int := if b = 0 then none else some (Int.tmod a b)

/-- The scaling loop with the number `n` of multiplications performed so far. -/
def scaleLoopCount (v : Float64) (pfx : String) (n : Nat) :
    List String → Float64 × String × Nat
  | [] => (v, pfx, n)
  | p :: ps =>
    if (mathAbs v).ge f64One then (v, pfx, n)
    else scaleLoopCount (v.mul f64Thousand) p (n + 1) ps

/-- The template function `humanizeDuration` as a run: `none` for a panic, otherwise
the string returned and the number of multiplications by `1000` performed. -/
def humanizeDurationRun (ovf : Int) (v : Float64) : Option (String × Nat) :=
  if mathIsNaN v || mathIsInf v then some (sprintfG4 v, 0)
  else if v.eq f64Zero then some (sprintfG4 v ++ "s", 0)
  else if (mathAbs v).ge f64One then
    let sign := if v.lt f64Zero then "-" else ""
    let v := if v.lt f64Zero then v.neg else v
    let x := toInt64 ovf v
    match goMod x 60, goDiv x 60 with
    | some seconds, some q1 =>
      match goMod q1 60, goDiv q1 60 with
      | some minutes, some q2 =>
        match goMod q2 24, goDiv q2 24 with
        | some hours, some days =>
          if days ≠ 0 then
            some (sign ++ fmtInt days ++ "d " ++ fmtInt hours ++ "h " ++ fmtInt minutes ++
              "m " ++ fmtInt seconds ++ "s", 0)
          else if hours ≠ 0 then
            some (sign ++ fmtInt hours ++ "h " ++ fmtInt minutes ++ "m " ++
              fmtInt seconds ++ "s", 0)
          else if minutes ≠ 0 then
            some (sign ++ fmtInt minutes ++ "m " ++ fmtInt seconds ++ "s", 0)
          else some (sign ++ sprintfG4 v ++ "s", 0)
        | _, _ => none
      | _, _ => none
    | _, _ => none
  else
    let (v, pfx, n) := scaleLoopCount v "" 0 metricUnits
    some (sprintfG4 v ++ pfx ++ "s", n)

/-! ## The other template functions and the alert status -/

/-- The value of an `int64` expression whose exact result is `x`: Go wraps around. -/
def wrapInt64 (x : Int) : Int := (x + 2 ^ 63) % 2 ^ 64 - 2 ^ 63

/-- The constant `time.Millisecond`: a `time.Duration` counts nanoseconds in an `int64`. -/
def Millisecond : Int := 1000000

/-- The template function `since`, with the elapsed time `time.Since(t)` given as the
duration `d`: `d / time.Millisecond * time.Millisecond`, where `/` truncates toward
zero and `*` wraps around in `int64`. -/
def since (d : Int) : Int := wrapInt64 (Int.tdiv d Millisecond * Millisecond)

/-- The template function `alertStateToClass`; the panic of the `default` case is the
error with the panic's message. -/
def alertStateToClass (as : AlertState) : Except String String :=
  if as = StateInactive then Except.ok "success"
  else if as = StatePending then Except.ok "warning"
  else if as = StateFiring then Except.ok "danger"
  else Except.error "unknown alert state"

/-- The template function `ruleHealthToClass`. -/
def ruleHealthToClass (rh : RuleHealth) : String :=
  if rh = HealthUnknown then "warning"
  else if rh = HealthGood then "success"
  else "danger"

/-- The type `AlertStatus`; the Go map is the list of its entries. -/
structure AlertStatus where
  AlertingRules : List AlertingRule
  AlertStateToRowClass : List (AlertState × String)
  deriving DecidableEq, Repr

/-- The map literal of `Rule.alerts`. -/
def alertStateToRowClass : List (AlertState × String) :=
  [(StateInactive, "success"), (StatePending, "warning"), (StateFiring, "danger")]

/-- The value `alertStatus` that `Rule.alerts` passes to the template: the sorted rules
and the map from alert state to row class. -/
def alertStatusOf (impl : Nat → SortM Unit) (rules : List AlertingRule) : Option AlertStatus :=
  match alerts impl rules with
  | none => none
  | some sorted => some ⟨sorted, alertStateToRowClass⟩

/-! ## Properties of the sorter -/

/-! ### The comparison -/

theorem char_eq_of_toNat (a b : Char) (h : a.toNat = b.toNat) : a = b := by
  apply Char.ext
  apply UInt32.ext
  exact h

theorem ltChars_iff : ∀ (a b : List Char), ltChars a b = true ↔ a < b
  | [], [] => by
    simp only [ltChars]
    constructor
    · intro h; cases h
    · intro h; cases h
  | _ :: _, [] => by
    simp only [ltChars]
    constructor
    · intro h; cases h
    · intro h; cases h
  | [], _ :: _ => by
    simp only [ltChars, true_iff]
    exact List.Lex.nil
  | a :: as, b :: bs => by
    have ih := ltChars_iff as bs
    simp only [ltChars]
    by_cases h1 : a.toNat < b.toNat
    · simp only [h1, if_true, true_iff]
      exact List.Lex.rel h1
    · by_cases h2 : b.toNat < a.toNat
      · simp only [h1, h2, if_false, if_true]
        constructor
        · intro h; cases h
        · intro h
          cases h with
          | rel h => exact absurd h h1
          | cons h => exact absurd h2 (lt_irrefl _)
      · simp only [h1, h2, if_false]
        rw [ih]
        have hab : a = b := char_eq_of_toNat a b (by omega)
        subst hab
        constructor
        · intro h
          exact List.Lex.cons h
        · intro h
          cases h with
          | rel h => exact absurd h h1
          | cons h => exact h

theorem stringLess_iff (a b : String) : stringLess a b = true ↔ a < b := by
  unfold stringLess
  rw [ltChars_iff]
  exact String.lt_iff_toList_lt.symm

theorem lessRel_iff (a b : AlertingRule) :
    lessRel a b ↔ b.state < a.state ∨ (a.state = b.state ∧ a.name < b.name) := by
  unfold lessRel byAlertStateAndNameSorter.Less
  simp [AlertingRule.State, AlertingRule.Name, stringLess_iff]

theorem lessRel_iff_ordKey (a b : AlertingRule) : lessRel a b ↔ ordKey a < ordKey b := by
  rw [lessRel_iff, ordKey, ordKey, Prod.Lex.lt_iff]
  simp only [OrderDual.toDual_lt_toDual, OrderDual.toDual_inj]

theorem notAfter_iff_ordKey (a b : AlertingRule) : notAfter a b ↔ ordKey a ≤ ordKey b := by
  rw [notAfter, lessRel_iff_ordKey, not_lt]

theorem ordKey_eq_iff (a b : AlertingRule) :
    ordKey a = ordKey b ↔ a.state = b.state ∧ a.name = b.name := by
  unfold ordKey
  simp [Prod.ext_iff]

theorem sortKey_eq_iff (a b : AlertingRule) : sortKey a = sortKey b ↔ ordKey a = ordKey b := by
  rw [ordKey_eq_iff]
  simp [sortKey, AlertingRule.State, AlertingRule.Name, Prod.ext_iff]

theorem Less_eq (s : byAlertStateAndNameSorter) (i j : Nat) (a b : AlertingRule)
    (ha : s.alerts[i]? = some a) (hb : s.alerts[j]? = some b) :
    s.Less i j = some (decide (lessRel a b)) := by
  have h : lessRel a b ↔ (decide (a.State > b.State) ||
      (decide (a.State = b.State) && stringLess a.Name b.Name)) = true := by
    unfold lessRel byAlertStateAndNameSorter.Less
    simp
  unfold byAlertStateAndNameSorter.Less
  rw [ha, hb]
  simp only [Option.some.injEq]
  by_cases hl : lessRel a b
  · simp only [hl, decide_True]
    exact h.1 hl
  · simp only [hl, decide_False]
    exact Bool.eq_false_iff.2 (fun hc => hl (h.2 hc))

/-! ### Swap and the routines over the interface -/

theorem cons_set_perm (h : AlertingRule) :
    ∀ (t : List AlertingRule) (k : Nat) (b : AlertingRule), t[k]? = some b →
      (b :: t.set k h).Perm (h :: t)
  | [], k, b, hb => by simp at hb
  | c :: t, 0, b, hb => by
    simp only [List.getElem?_cons_zero, Option.some.injEq] at hb
    subst hb
    simp only [List.set_cons_zero]
    exact List.Perm.swap _ _ _
  | c :: t, k + 1, b, hb => by
    simp only [List.getElem?_cons_succ] at hb
    simp only [List.set_cons_succ]
    have ih := cons_set_perm h t k b hb
    exact ((List.Perm.swap c b _).trans (ih.cons c)).trans (List.Perm.swap h c _)

theorem set_set_perm_of_getElem? :
    ∀ (l : List AlertingRule) (i j : Nat) (a b : AlertingRule),
      l[i]? = some a → l[j]? = some b → ((l.set i b).set j a).Perm l
  | [], i, j, a, b, ha, _ => by simp at ha
  | c :: t, 0, 0, a, b, ha, hb => by
    simp only [List.getElem?_cons_zero, Option.some.injEq] at ha hb
    subst ha
    simp
  | c :: t, 0, j + 1, a, b, ha, hb => by
    simp only [List.getElem?_cons_zero, Option.some.injEq] at ha
    simp only [List.getElem?_cons_succ] at hb
    subst ha
    simp only [List.set_cons_zero, List.set_cons_succ]
    exact cons_set_perm c t j b hb
  | c :: t, i + 1, 0, a, b, ha, hb => by
    simp only [List.getElem?_cons_zero, Option.some.injEq] at hb
    simp only [List.getElem?_cons_succ] at ha
    subst hb
    simp only [List.set_cons_zero, List.set_cons_succ]
    exact cons_set_perm c t i a ha
  | c :: t, i + 1, j + 1, a, b, ha, hb => by
    simp only [List.getElem?_cons_succ] at ha hb
    simp only [List.set_cons_succ]
    exact (set_set_perm_of_getElem? t i j a b ha hb).cons c

theorem Swap_perm (s s1 : byAlertStateAndNameSorter) (i j : Nat)
    (h : s.Swap i j = some s1) : s1.alerts.Perm s.alerts := by
  unfold byAlertStateAndNameSorter.Swap at h
  cases ha : s.alerts[i]? with
  | none => simp [ha] at h
  | some a =>
    cases hb : s.alerts[j]? with
    | none => simp [ha, hb] at h
    | some b =>
      simp only [ha, hb, Option.some.injEq] at h
      subst h
      exact set_set_perm_of_getElem? s.alerts i j a b ha hb

theorem exec_perm {α : Type} (p : SortM α) :
    ∀ (s s1 : byAlertStateAndNameSorter) (x : α), p.exec s = some (x, s1) →
      s1.alerts.Perm s.alerts := by
  induction p with
  | fail => intro s s1 x h; simp [SortM.exec] at h
  | ret a =>
    intro s s1 x h
    simp only [SortM.exec, Option.some.injEq, Prod.mk.injEq] at h
    rw [h.2]
  | less i j k ih =>
    intro s s1 x h
    simp only [SortM.exec] at h
    cases hl : s.Less i j with
    | none => simp [hl] at h
    | some b =>
      simp only [hl] at h
      exact ih b s s1 x h
  | swap i j k ih =>
    intro s s1 x h
    simp only [SortM.exec] at h
    cases hs : s.Swap i j with
    | none => simp [hs] at h
    | some s2 =>
      simp only [hs] at h
      exact (ih s2 s1 x h).trans (Swap_perm s s2 i j hs)

theorem exec_bind {α β : Type} (p : SortM α) (f : α → SortM β) :
    ∀ s : byAlertStateAndNameSorter, (SortM.bind p f).exec s =
      match p.exec s with
      | none => none
      | some (a, s1) => (f a).exec s1 := by
  induction p with
  | fail => intro s; simp [SortM.bind, SortM.exec]
  | ret a => intro s; simp [SortM.bind, SortM.exec]
  | less i j k ih =>
    intro s
    simp only [SortM.bind, SortM.exec]
    cases hl : s.Less i j with
    | none => rfl
    | some b => exact ih b s
  | swap i j k ih =>
    intro s
    simp only [SortM.bind, SortM.exec]
    cases hs : s.Swap i j with
    | none => rfl
    | some s2 => exact ih s2

theorem sortSort_perm (impl : Nat → SortM Unit) (data out : byAlertStateAndNameSorter)
    (h : sortSort impl data = some out) : out.alerts.Perm data.alerts := by
  unfold sortSort at h
  cases he : (impl data.Len).exec data with
  | none => simp [he] at h
  | some r =>
    obtain ⟨u, o⟩ := r
    simp only [he, Option.some.injEq] at h
    subst h
    exact exec_perm _ _ _ _ he

/-! ### The library's insertion sort meets the contract -/

theorem notLessRel_total : IsTotal AlertingRule (fun a b => ¬ lessRel a b) :=
  ⟨fun a b => by
    simp only [lessRel_iff_ordKey, not_lt]
    exact le_total _ _⟩

theorem notLessRel_trans : IsTrans AlertingRule (fun a b => ¬ lessRel a b) :=
  ⟨fun a b c => by
    simp only [lessRel_iff_ordKey, not_lt]
    exact fun h1 h2 => le_trans h2 h1⟩

theorem insertionInner_exec (x : AlertingRule) :
    ∀ (R T : List AlertingRule),
      (insertionInner 0 R.length).exec ⟨R.reverse ++ x :: T⟩ =
        some ((), ⟨(List.orderedInsert (fun a b => ¬ lessRel a b) x R).reverse ++ T⟩)
  | [], T => by simp [insertionInner, SortM.exec]
  | y :: R, T => by
    have hx : (R.reverse ++ y :: x :: T)[R.length + 1]? = some x := by
      rw [List.getElem?_append_right (by simp)]
      simp
    have hy : (R.reverse ++ y :: x :: T)[R.length]? = some y := by
      rw [List.getElem?_append_right (by simp)]
      simp
    have hL := Less_eq ⟨R.reverse ++ y :: x :: T⟩ (R.length + 1) R.length x y hx hy
    simp only [List.length_cons, insertionInner, Nat.zero_lt_succ, if_true, SortM.exec,
      List.reverse_cons, List.append_assoc, List.singleton_append, hL]
    by_cases hl : lessRel x y
    · have hS : byAlertStateAndNameSorter.Swap ⟨R.reverse ++ y :: x :: T⟩ (R.length + 1) R.length
          = some ⟨R.reverse ++ x :: y :: T⟩ := by
        unfold byAlertStateAndNameSorter.Swap
        simp only [hx, hy, Option.some.injEq, byAlertStateAndNameSorter.mk.injEq]
        rw [List.set_append_right _ _ (by simp), List.set_append_right _ _ (by simp)]
        simp
      simp only [hl, decide_True, if_true, SortM.exec, hS]
      rw [insertionInner_exec x R (y :: T)]
      simp [List.orderedInsert, hl]
    · simp [hl, SortM.exec, List.orderedInsert]

theorem insertionOuter_exec :
    ∀ (T R : List AlertingRule),
      (insertionOuter 0 R.length T.length).exec ⟨R.reverse ++ T⟩ =
        some ((), ⟨(T.foldl (fun acc x =>
          List.orderedInsert (fun a b => ¬ lessRel a b) x acc) R).reverse⟩)
  | [], R => by simp [insertionOuter, SortM.exec]
  | x :: T, R => by
    simp only [List.length_cons, insertionOuter, exec_bind, insertionInner_exec x R T,
      List.foldl_cons]
    have h := insertionOuter_exec T (List.orderedInsert (fun a b => ¬ lessRel a b) x R)
    rw [List.orderedInsert_length] at h
    exact h

theorem sortSort_insertionImpl (l : List AlertingRule) :
    sortSort insertionImpl ⟨l⟩ = some ⟨insertedList l⟩ := by
  cases l with
  | nil => simp [sortSort, insertionImpl, insertionSort, insertionOuter, SortM.exec,
      byAlertStateAndNameSorter.Len, insertedList]
  | cons x T =>
    have h := insertionOuter_exec T [x]
    simp only [List.length_singleton, List.reverse_singleton, List.singleton_append] at h
    simp only [sortSort, insertionImpl, insertionSort, byAlertStateAndNameSorter.Len,
      List.length_cons, Nat.zero_add, Nat.add_sub_cancel, h, insertedList, List.foldl_cons,
      List.orderedInsert]

theorem foldl_orderedInsert_sorted :
    ∀ (T R : List AlertingRule), List.Sorted (fun a b => ¬ lessRel a b) R →
      List.Sorted (fun a b => ¬ lessRel a b)
        (T.foldl (fun acc x => List.orderedInsert (fun a b => ¬ lessRel a b) x acc) R)
  | [], _, h => h
  | x :: T, R, h => by
    haveI := notLessRel_total
    haveI := notLessRel_trans
    simp only [List.foldl_cons]
    exact foldl_orderedInsert_sorted T _ (h.orderedInsert x R)

theorem insertedList_pairwise (l : List AlertingRule) :
    (insertedList l).Pairwise notAfter := by
  unfold insertedList
  rw [List.pairwise_reverse]
  exact foldl_orderedInsert_sorted l [] List.sorted_nil

theorem Less_false_of_pairwise (out : byAlertStateAndNameSorter)
    (h : out.alerts.Pairwise notAfter) (i j : Nat) (hij : i < j) (hj : j < out.Len) :
    out.Less j i = some false := by
  have hi : i < out.alerts.length := Nat.lt_trans hij hj
  have hj1 : j < out.alerts.length := hj
  rw [Less_eq out j i (out.alerts.get ⟨j, hj1⟩) (out.alerts.get ⟨i, hi⟩)
    (by simp) (by simp)]
  have := List.pairwise_iff_get.1 h ⟨i, hi⟩ ⟨j, hj1⟩ hij
  simp only [notAfter] at this
  simp only [Option.some.injEq, decide_eq_false_iff_not]
  exact this

theorem pairwise_of_Less_false (out : byAlertStateAndNameSorter)
    (h : ∀ i j, i < j → j < out.Len → out.Less j i = some false) :
    out.alerts.Pairwise notAfter := by
  rw [List.pairwise_iff_get]
  intro i j hij
  have h1 := h i.1 j.1 hij j.2
  rw [Less_eq out j.1 i.1 (out.alerts.get j) (out.alerts.get i) (by simp) (by simp)] at h1
  simp only [Option.some.injEq, decide_eq_false_iff_not] at h1
  exact h1

theorem insertionImpl_contract : SortContract insertionImpl := by
  intro data
  refine ⟨⟨insertedList data.alerts⟩, sortSort_insertionImpl data.alerts, ?_⟩
  exact Less_false_of_pairwise _ (insertedList_pairwise data.alerts)

/-- What the contract gives for a list of rules: the call returns a permutation of
the input in which no rule stands after one it is `Less` than. -/
theorem alerts_of_contract (impl : Nat → SortM Unit) (h : SortContract impl)
    (rules : List AlertingRule) :
    ∃ out, alerts impl rules = some out ∧ out.Perm rules ∧ out.Pairwise notAfter := by
  obtain ⟨out, h1, h2⟩ := h ⟨rules⟩
  refine ⟨out.alerts, ?_, sortSort_perm impl ⟨rules⟩ out h1, pairwise_of_Less_false out h2⟩
  simp [alerts, h1]

/-! ### Rules that share name and state -/

theorem Less_map (σ : AlertingRule → AlertingRule)
    (hσ : ∀ r, (σ r).state = r.state ∧ (σ r).name = r.name)
    (s : byAlertStateAndNameSorter) (i j : Nat) :
    byAlertStateAndNameSorter.Less ⟨s.alerts.map σ⟩ i j = s.Less i j := by
  unfold byAlertStateAndNameSorter.Less
  simp only [List.getElem?_map]
  cases s.alerts[i]? with
  | none => simp
  | some a =>
    cases s.alerts[j]? with
    | none => simp
    | some b => simp [AlertingRule.State, AlertingRule.Name, (hσ a).1, (hσ a).2, (hσ b).1, (hσ b).2]

theorem Swap_map (σ : AlertingRule → AlertingRule)
    (s : byAlertStateAndNameSorter) (i j : Nat) :
    byAlertStateAndNameSorter.Swap ⟨s.alerts.map σ⟩ i j =
      (s.Swap i j).map (fun s1 => ⟨s1.alerts.map σ⟩) := by
  unfold byAlertStateAndNameSorter.Swap
  simp only [List.getElem?_map]
  cases s.alerts[i]? with
  | none => simp
  | some a =>
    cases s.alerts[j]? with
    | none => simp
    | some b => simp [List.map_set]

theorem exec_map {α : Type} (σ : AlertingRule → AlertingRule)
    (hσ : ∀ r, (σ r).state = r.state ∧ (σ r).name = r.name) (p : SortM α) :
    ∀ s : byAlertStateAndNameSorter, p.exec ⟨s.alerts.map σ⟩ =
      (p.exec s).map (fun r => (r.1, ⟨r.2.alerts.map σ⟩)) := by
  induction p with
  | fail => intro s; simp [SortM.exec]
  | ret a => intro s; simp [SortM.exec]
  | less i j k ih =>
    intro s
    simp only [SortM.exec, Less_map σ hσ]
    cases s.Less i j with
    | none => simp
    | some b => exact ih b s
  | swap i j k ih =>
    intro s
    simp only [SortM.exec, Swap_map σ]
    cases s.Swap i j with
    | none => simp
    | some s1 => exact ih s1

theorem alerts_map (σ : AlertingRule → AlertingRule)
    (hσ : ∀ r, (σ r).state = r.state ∧ (σ r).name = r.name)
    (impl : Nat → SortM Unit) (l : List AlertingRule) :
    alerts impl (l.map σ) = (alerts impl l).map (List.map σ) := by
  have h := exec_map σ hσ (impl l.length) ⟨l⟩
  simp only [alerts, sortSort, byAlertStateAndNameSorter.Len, List.length_map]
  simp only at h
  rw [h]
  cases (impl l.length).exec ⟨l⟩ with
  | none => simp
  | some r => simp

theorem sorted_perm_unique (l1 l2 : List AlertingRule) (hp : l1.Perm l2)
    (h1 : l1.Pairwise notAfter) (h2 : l2.Pairwise notAfter)
    (ties : ∀ a ∈ l1, ∀ b ∈ l1, a.state = b.state → a.name = b.name → a = b) :
    l1 = l2 := by
  refine List.Perm.eq_of_sorted ?_ h1 h2 hp
  intro a b ha hb hab hba
  have hk : ordKey a = ordKey b :=
    le_antisymm ((notAfter_iff_ordKey a b).1 hab) ((notAfter_iff_ordKey b a).1 hba)
  have := (ordKey_eq_iff a b).1 hk
  exact ties a ha b (hp.mem_iff.2 hb) this.1 this.2

theorem sorted_perm_keys (l1 l2 : List AlertingRule) (hp : l1.Perm l2)
    (h1 : l1.Pairwise notAfter) (h2 : l2.Pairwise notAfter) :
    l1.map sortKey = l2.map sortKey := by
  have s1 : (l1.map ordKey).Sorted (· ≤ ·) :=
    List.pairwise_map.2 (h1.imp (fun {a b} h => (notAfter_iff_ordKey a b).1 h))
  have s2 : (l2.map ordKey).Sorted (· ≤ ·) :=
    List.pairwise_map.2 (h2.imp (fun {a b} h => (notAfter_iff_ordKey a b).1 h))
  have hk : l1.map ordKey = l2.map ordKey := List.eq_of_perm_of_sorted (hp.map ordKey) s1 s2
  have hf : ∀ l : List AlertingRule, l.map sortKey =
      (l.map ordKey).map (fun k => (OrderDual.ofDual (ofLex k).1, (ofLex k).2)) := by
    intro l
    simp [List.map_map, Function.comp_def, sortKey, ordKey, AlertingRule.State, AlertingRule.Name]
  rw [hf l1, hf l2, hk]


/-! ### The library's quicksort meets the contract

The keys of the slice form a linear order, `Less(i, j)` compares the keys at `i` and
`j`, and `Swap` exchanges two positions. Each routine of the library is followed through
its loops: it returns, it moves rules within its range only, and `quickSort` leaves its
range in ascending order of the keys. -/

/-! ### Running the methods -/

theorem exec_bind_eq {α β : Type} (p : SortM α) (f : α → SortM β)
    (s : byAlertStateAndNameSorter) :
    (p >>= f).exec s =
      match p.exec s with
      | none => none
      | some (a, s1) => (f a).exec s1 := exec_bind p f s

theorem exec_pure_eq {α : Type} (a : α) (s : byAlertStateAndNameSorter) :
    (pure a : SortM α).exec s = some (a, s) := rfl

theorem exec_ret_eq {α : Type} (a : α) (s : byAlertStateAndNameSorter) :
    (SortM.ret a : SortM α).exec s = some (a, s) := rfl

theorem keyAt_of_getElem? (s : byAlertStateAndNameSorter) (k : Nat) (r : AlertingRule)
    (h : s.alerts[k]? = some r) : keyAt s k = ordKey r := by
  unfold keyAt
  rw [h]

theorem Less_keyAt (s : byAlertStateAndNameSorter) (i j : Nat) (hi : i < s.Len)
    (hj : j < s.Len) : s.Less i j = some (decide (keyAt s i < keyAt s j)) := by
  have hi1 : i < s.alerts.length := hi
  have hj1 : j < s.alerts.length := hj
  have h1 : s.alerts[i]? = some (s.alerts.get ⟨i, hi1⟩) := List.getElem?_eq_getElem hi1
  have h2 : s.alerts[j]? = some (s.alerts.get ⟨j, hj1⟩) := List.getElem?_eq_getElem hj1
  rw [Less_eq s i j _ _ h1 h2, keyAt_of_getElem? s i _ h1, keyAt_of_getElem? s j _ h2]
  simp only [lessRel_iff_ordKey]

theorem exec_less {α : Type} (s : byAlertStateAndNameSorter) (i j : Nat)
    (k : Bool → SortM α) (hi : i < s.Len) (hj : j < s.Len) :
    (SortM.less i j k).exec s = (k (decide (keyAt s i < keyAt s j))).exec s := by
  simp only [SortM.exec, Less_keyAt s i j hi hj]

theorem exec_Less (s : byAlertStateAndNameSorter) (i j : Nat) (hi : i < s.Len)
    (hj : j < s.Len) :
    (SortM.Less i j).exec s = some (decide (keyAt s i < keyAt s j), s) := by
  unfold SortM.Less
  rw [exec_less s i j _ hi hj]
  rfl

theorem Swap_swapped (s : byAlertStateAndNameSorter) (i j : Nat) (hi : i < s.Len)
    (hj : j < s.Len) : s.Swap i j = some (swapped s i j) := by
  have hi1 : i < s.alerts.length := hi
  have hj1 : j < s.alerts.length := hj
  unfold swapped byAlertStateAndNameSorter.Swap
  rw [List.getElem?_eq_getElem hi1, List.getElem?_eq_getElem hj1]

theorem exec_swap {α : Type} (s : byAlertStateAndNameSorter) (i j : Nat)
    (k : SortM α) (hi : i < s.Len) (hj : j < s.Len) :
    (SortM.swap i j k).exec s = k.exec (swapped s i j) := by
  simp only [SortM.exec, Swap_swapped s i j hi hj]

theorem exec_Swap (s : byAlertStateAndNameSorter) (i j : Nat) (hi : i < s.Len)
    (hj : j < s.Len) : (SortM.Swap i j).exec s = some ((), swapped s i j) := by
  unfold SortM.Swap
  rw [exec_swap s i j _ hi hj]
  rfl

theorem Len_swapped (s : byAlertStateAndNameSorter) (i j : Nat) :
    (swapped s i j).Len = s.Len := by
  unfold swapped byAlertStateAndNameSorter.Swap
  cases s.alerts[i]? with
  | none => rfl
  | some a =>
    cases s.alerts[j]? with
    | none => rfl
    | some b => simp [byAlertStateAndNameSorter.Len]

theorem keyAt_swapped (s : byAlertStateAndNameSorter) (i j : Nat) (hi : i < s.Len)
    (hj : j < s.Len) (k : Nat) :
    keyAt (swapped s i j) k =
      if k = j then keyAt s i else if k = i then keyAt s j else keyAt s k := by
  have hi1 : i < s.alerts.length := hi
  have hj1 : j < s.alerts.length := hj
  have h1 : s.alerts[i]? = some (s.alerts.get ⟨i, hi1⟩) := List.getElem?_eq_getElem hi1
  have h2 : s.alerts[j]? = some (s.alerts.get ⟨j, hj1⟩) := List.getElem?_eq_getElem hj1
  have hs : swapped s i j =
      ⟨(s.alerts.set i (s.alerts.get ⟨j, hj1⟩)).set j (s.alerts.get ⟨i, hi1⟩)⟩ := by
    unfold swapped byAlertStateAndNameSorter.Swap
    rw [h1, h2]
  by_cases hkj : k = j
  · subst hkj
    rw [if_pos rfl, hs, keyAt_of_getElem? s i _ h1]
    apply keyAt_of_getElem?
    rw [List.getElem?_set_self]
    simpa using hj1
  · rw [if_neg hkj]
    by_cases hki : k = i
    · subst hki
      rw [if_pos rfl, hs, keyAt_of_getElem? s j _ h2]
      apply keyAt_of_getElem?
      rw [List.getElem?_set_ne (Ne.symm hkj), List.getElem?_set_self]
      exact hi1
    · rw [if_neg hki, hs]
      unfold keyAt
      simp only
      rw [List.getElem?_set_ne (Ne.symm hkj), List.getElem?_set_ne (Ne.symm hki)]

theorem keyAt_swapped_left (s : byAlertStateAndNameSorter) (i j : Nat) (hi : i < s.Len)
    (hj : j < s.Len) : keyAt (swapped s i j) i = keyAt s j := by
  rw [keyAt_swapped s i j hi hj]
  by_cases h : i = j
  · subst h; simp
  · simp [h]

theorem keyAt_swapped_right (s : byAlertStateAndNameSorter) (i j : Nat) (hi : i < s.Len)
    (hj : j < s.Len) : keyAt (swapped s i j) j = keyAt s i := by
  rw [keyAt_swapped s i j hi hj]
  simp

theorem keyAt_swapped_other (s : byAlertStateAndNameSorter) (i j : Nat) (hi : i < s.Len)
    (hj : j < s.Len) (k : Nat) (hki : k ≠ i) (hkj : k ≠ j) :
    keyAt (swapped s i j) k = keyAt s k := by
  rw [keyAt_swapped s i j hi hj]
  simp [hki, hkj]

/-! ### Moves within a range -/

theorem Within.refl (lo hi : Nat) (s : byAlertStateAndNameSorter) : Within lo hi s s :=
  ⟨rfl, fun _ _ => rfl, fun k h1 h2 => ⟨k, h1, h2, rfl⟩⟩

theorem Within.trans {lo hi : Nat} {s s1 s2 : byAlertStateAndNameSorter}
    (h1 : Within lo hi s s1) (h2 : Within lo hi s1 s2) : Within lo hi s s2 := by
  refine ⟨h2.1.trans h1.1, fun k hk => (h2.2.1 k hk).trans (h1.2.1 k hk), ?_⟩
  intro k hk1 hk2
  obtain ⟨k1, ha, hb, hc⟩ := h2.2.2 k hk1 hk2
  obtain ⟨k2, ha2, hb2, hc2⟩ := h1.2.2 k1 ha hb
  exact ⟨k2, ha2, hb2, hc.trans hc2⟩

theorem Within.mono {lo hi lo1 hi1 : Nat} {s s1 : byAlertStateAndNameSorter}
    (h : Within lo hi s s1) (hlo : lo1 ≤ lo) (hhi : hi ≤ hi1) : Within lo1 hi1 s s1 := by
  refine ⟨h.1, fun k hk => h.2.1 k (by omega), ?_⟩
  intro k hk1 hk2
  by_cases hin : lo ≤ k ∧ k < hi
  · obtain ⟨k1, ha, hb, hc⟩ := h.2.2 k hin.1 hin.2
    exact ⟨k1, by omega, by omega, hc⟩
  · exact ⟨k, hk1, hk2, h.2.1 k (by omega)⟩

theorem Within_swapped (lo hi : Nat) (s : byAlertStateAndNameSorter) (i j : Nat)
    (hi1 : lo ≤ i) (hi2 : i < hi) (hj1 : lo ≤ j) (hj2 : j < hi) (hlen : hi ≤ s.Len) :
    Within lo hi s (swapped s i j) := by
  have hi3 : i < s.Len := by omega
  have hj3 : j < s.Len := by omega
  refine ⟨Len_swapped s i j, ?_, ?_⟩
  · intro k hk
    exact keyAt_swapped_other s i j hi3 hj3 k (by omega) (by omega)
  · intro k hk1 hk2
    rw [keyAt_swapped s i j hi3 hj3]
    by_cases hkj : k = j
    · exact ⟨i, hi1, hi2, by rw [if_pos hkj]⟩
    · by_cases hki : k = i
      · exact ⟨j, hj1, hj2, by rw [if_neg hkj, if_pos hki]⟩
      · exact ⟨k, hk1, hk2, by rw [if_neg hkj, if_neg hki]⟩

/-- A bound on the keys of a range survives moves within the range. -/
theorem Within.upper {lo hi : Nat} {s s1 : byAlertStateAndNameSorter}
    (h : Within lo hi s s1) (p : Lex (AlertStateᵒᵈ × String))
    (hb : ∀ k, lo ≤ k → k < hi → keyAt s k ≤ p) : ∀ k, lo ≤ k → k < hi → keyAt s1 k ≤ p := by
  intro k hk1 hk2
  obtain ⟨k1, ha, hb1, hc⟩ := h.2.2 k hk1 hk2
  rw [hc]
  exact hb k1 ha hb1

theorem Within.lower {lo hi : Nat} {s s1 : byAlertStateAndNameSorter}
    (h : Within lo hi s s1) (p : Lex (AlertStateᵒᵈ × String))
    (hb : ∀ k, lo ≤ k → k < hi → p ≤ keyAt s k) : ∀ k, lo ≤ k → k < hi → p ≤ keyAt s1 k := by
  intro k hk1 hk2
  obtain ⟨k1, ha, hb1, hc⟩ := h.2.2 k hk1 hk2
  rw [hc]
  exact hb k1 ha hb1
/-! ### Insertion sort on a range -/

theorem insertionInner_spec (a i : Nat) :
    ∀ (j : Nat) (s : byAlertStateAndNameSorter), a ≤ j → j ≤ i → i < s.Len →
      (∀ p q, a ≤ p → p < q → q ≤ i → p ≠ j → q ≠ j → keyAt s p ≤ keyAt s q) →
      (∀ q, j < q → q ≤ i → keyAt s j ≤ keyAt s q) →
      ∃ s1, (insertionInner a j).exec s = some ((), s1) ∧ Within a (i + 1) s s1 ∧
        SortedOn a (i + 1) s1
  | 0, s, ha, _, _, hA, hB => by
    refine ⟨s, rfl, Within.refl _ _ _, ?_⟩
    intro p q hp hpq hq
    by_cases hp0 : p = 0
    · subst hp0
      exact hB q hpq (by omega)
    · exact hA p q hp hpq (by omega) hp0 (by omega)
  | j + 1, s, ha, hji, hlen, hA, hB => by
    unfold insertionInner
    by_cases haj : a < j + 1
    · rw [if_pos haj, exec_less s (j + 1) j _ (by omega) (by omega)]
      by_cases hlt : keyAt s (j + 1) < keyAt s j
      · simp only [hlt, decide_True, if_true]
        rw [exec_swap s (j + 1) j _ (by omega) (by omega)]
        have hk := keyAt_swapped s (j + 1) j (by omega) (by omega)
        have hA1 : ∀ p q, a ≤ p → p < q → q ≤ i → p ≠ j → q ≠ j →
            keyAt (swapped s (j + 1) j) p ≤ keyAt (swapped s (j + 1) j) q := by
          intro p q hp hpq hq hpj hqj
          rw [hk p, hk q, if_neg hpj, if_neg hqj]
          by_cases hp1 : p = j + 1
          · rw [if_pos hp1, if_neg (by omega)]
            exact hA j q (by omega) (by omega) hq (by omega) (by omega)
          · rw [if_neg hp1]
            by_cases hq1 : q = j + 1
            · rw [if_pos hq1]
              exact hA p j hp (by omega) (by omega) hp1 (by omega)
            · rw [if_neg hq1]
              exact hA p q hp hpq hq hp1 hq1
        have hB1 : ∀ q, j < q → q ≤ i →
            keyAt (swapped s (j + 1) j) j ≤ keyAt (swapped s (j + 1) j) q := by
          intro q hjq hq
          rw [hk j, hk q, if_pos rfl, if_neg (by omega)]
          by_cases hq1 : q = j + 1
          · rw [if_pos hq1]
            exact le_of_lt hlt
          · rw [if_neg hq1]
            exact hB q (by omega) hq
        obtain ⟨s1, h1, h2, h3⟩ := insertionInner_spec a i j (swapped s (j + 1) j)
          (by omega) (by omega) (by rw [Len_swapped]; exact hlen) hA1 hB1
        refine ⟨s1, h1, ?_, h3⟩
        exact (Within_swapped a (i + 1) s (j + 1) j (by omega) (by omega) (by omega)
          (by omega) (by omega)).trans h2
      · simp only [hlt, decide_False, Bool.false_eq_true, if_false]
        refine ⟨s, rfl, Within.refl _ _ _, ?_⟩
        rw [not_lt] at hlt
        intro p q hp hpq hq
        by_cases hp1 : p = j + 1
        · subst hp1
          exact hB q hpq (by omega)
        · by_cases hq1 : q = j + 1
          · subst hq1
            by_cases hpj : p = j
            · subst hpj
              exact hlt
            · exact le_trans (hA p j hp (by omega) (by omega) hp1 (by omega)) hlt
          · exact hA p q hp hpq (by omega) hp1 hq1
    · rw [if_neg haj]
      refine ⟨s, rfl, Within.refl _ _ _, ?_⟩
      intro p q hp hpq hq
      by_cases hp1 : p = j + 1
      · subst hp1
        exact hB q hpq (by omega)
      · exact hA p q hp hpq (by omega) hp1 (by omega)

theorem insertionOuter_spec (a : Nat) :
    ∀ (n i : Nat) (s : byAlertStateAndNameSorter), a ≤ i → i + n ≤ s.Len →
      SortedOn a i s →
      ∃ s1, (insertionOuter a i n).exec s = some ((), s1) ∧ Within a (i + n) s s1 ∧
        SortedOn a (i + n) s1
  | 0, i, s, _, _, hs => ⟨s, rfl, Within.refl _ _ _, hs⟩
  | n + 1, i, s, hai, hlen, hs => by
    obtain ⟨s1, h1, h2, h3⟩ := insertionInner_spec a i i s hai (le_refl _) (by omega)
      (fun p q hp hpq hq _ hqi => hs p q hp hpq (by omega)) (fun q hq1 hq2 => by omega)
    obtain ⟨s2, h4, h5, h6⟩ := insertionOuter_spec a n (i + 1) s1 (by omega)
      (by rw [h2.1]; omega) h3
    have he : i + 1 + n = i + (n + 1) := by omega
    rw [he] at h5 h6
    refine ⟨s2, ?_, (h2.mono (le_refl _) (by omega)).trans h5, h6⟩
    unfold insertionOuter
    rw [exec_bind, h1]
    exact h4

theorem insertionSort_spec (a b : Nat) (s : byAlertStateAndNameSorter) (hb : b ≤ s.Len) :
    ∃ s1, (insertionSort a b).exec s = some ((), s1) ∧ Within a b s s1 ∧ SortedOn a b s1 := by
  unfold insertionSort
  by_cases hab : a + 1 < b
  · obtain ⟨s1, h1, h2, h3⟩ := insertionOuter_spec a (b - (a + 1)) (a + 1) s (by omega)
      (by omega) (fun i j hi hij hj => by omega)
    have he : a + 1 + (b - (a + 1)) = b := by omega
    rw [he] at h2 h3
    exact ⟨s1, h1, h2, h3⟩
  · have he : b - (a + 1) = 0 := by omega
    rw [he]
    exact ⟨s, rfl, Within.refl _ _ _, fun i j hi hij hj => by omega⟩
/-! ### The gap-6 pass -/

theorem shellPass_spec (a b : Nat) :
    ∀ (n i : Nat) (s : byAlertStateAndNameSorter), a + 6 ≤ i → i + n ≤ b → b ≤ s.Len →
      ∃ s1, (shellPass i n).exec s = some ((), s1) ∧ Within a b s s1
  | 0, i, s, _, _, _ => ⟨s, rfl, Within.refl _ _ _⟩
  | n + 1, i, s, hi, hn, hb => by
    unfold shellPass
    rw [exec_bind_eq, exec_Less s i (i - 6) (by omega) (by omega)]
    by_cases hlt : keyAt s i < keyAt s (i - 6)
    · simp only [hlt, decide_True, if_true, exec_bind_eq]
      rw [exec_Swap s i (i - 6) (by omega) (by omega)]
      obtain ⟨s1, h1, h2⟩ := shellPass_spec a b n (i + 1) (swapped s i (i - 6)) (by omega)
        (by omega) (by rw [Len_swapped]; exact hb)
      refine ⟨s1, h1, ?_⟩
      exact (Within_swapped a b s i (i - 6) (by omega) (by omega) (by omega) (by omega)
        hb).trans h2
    · simp only [hlt, decide_False, Bool.false_eq_true, if_false, exec_bind_eq, exec_pure_eq]
      exact shellPass_spec a b n (i + 1) s (by omega) (by omega) hb
/-! ### Choosing the pivot -/

theorem medianOfThree_spec (lo hi : Nat) (s : byAlertStateAndNameSorter) (m1 m0 m2 : Nat)
    (h0a : lo ≤ m0) (h0b : m0 < hi) (h1a : lo ≤ m1) (h1b : m1 < hi)
    (h2a : lo ≤ m2) (h2b : m2 < hi) (hlen : hi ≤ s.Len)
    (d01 : m0 ≠ m1) (d12 : m1 ≠ m2) (d02 : m0 ≠ m2) :
    ∃ s1, (medianOfThree m1 m0 m2).exec s = some ((), s1) ∧ Within lo hi s s1 ∧
      keyAt s1 m0 ≤ keyAt s1 m1 ∧ keyAt s1 m1 ≤ keyAt s1 m2 := by
  have tail : ∀ sA : byAlertStateAndNameSorter, sA.Len = s.Len →
      keyAt sA m0 ≤ keyAt sA m1 →
      ∃ s1, (SortM.Less m2 m1 >>= fun l =>
          if l = true then
            SortM.Swap m2 m1 >>= fun _ => SortM.Less m1 m0 >>= fun l2 =>
              if l2 = true then SortM.Swap m1 m0 else pure PUnit.unit
          else pure PUnit.unit).exec sA = some ((), s1) ∧ Within lo hi sA s1 ∧
        keyAt s1 m0 ≤ keyAt s1 m1 ∧ keyAt s1 m1 ≤ keyAt s1 m2 := by
    intro sA hA h01
    rw [exec_bind_eq, exec_Less sA m2 m1 (by omega) (by omega)]
    by_cases c1 : keyAt sA m2 < keyAt sA m1
    · simp only [c1, decide_True, if_true]
      rw [exec_bind_eq, exec_Swap sA m2 m1 (by omega) (by omega)]
      have hB : (swapped sA m2 m1).Len = s.Len := by rw [Len_swapped]; exact hA
      have k0 : keyAt (swapped sA m2 m1) m0 = keyAt sA m0 :=
        keyAt_swapped_other sA m2 m1 (by omega) (by omega) m0 d02 d01
      have k1 : keyAt (swapped sA m2 m1) m1 = keyAt sA m2 :=
        keyAt_swapped_right sA m2 m1 (by omega) (by omega)
      have k2 : keyAt (swapped sA m2 m1) m2 = keyAt sA m1 :=
        keyAt_swapped_left sA m2 m1 (by omega) (by omega)
      have w1 : Within lo hi sA (swapped sA m2 m1) :=
        Within_swapped lo hi sA m2 m1 h2a h2b h1a h1b (by omega)
      simp only
      rw [exec_bind_eq, exec_Less _ m1 m0 (by omega) (by omega)]
      by_cases c2 : keyAt (swapped sA m2 m1) m1 < keyAt (swapped sA m2 m1) m0
      · simp only [c2, decide_True, if_true]
        rw [exec_Swap _ m1 m0 (by omega) (by omega)]
        refine ⟨_, rfl, w1.trans (Within_swapped lo hi _ m1 m0 h1a h1b h0a h0b (by omega)), ?_, ?_⟩
        · rw [keyAt_swapped_right _ m1 m0 (by omega) (by omega),
            keyAt_swapped_left _ m1 m0 (by omega) (by omega)]
          exact le_of_lt c2
        · rw [keyAt_swapped_left _ m1 m0 (by omega) (by omega),
            keyAt_swapped_other _ m1 m0 (by omega) (by omega) m2 (Ne.symm d12) (Ne.symm d02),
            k0, k2]
          exact h01
      · simp only [c2, decide_False, Bool.false_eq_true, if_false, exec_pure_eq]
        refine ⟨_, rfl, w1, not_lt.1 c2, ?_⟩
        rw [k1, k2]
        exact le_of_lt c1
    · simp only [c1, decide_False, Bool.false_eq_true, if_false, exec_pure_eq]
      exact ⟨sA, rfl, Within.refl _ _ _, h01, not_lt.1 c1⟩
  unfold medianOfThree
  rw [exec_bind_eq, exec_Less s m1 m0 (by omega) (by omega)]
  by_cases c0 : keyAt s m1 < keyAt s m0
  · simp only [c0, decide_True, if_true]
    rw [exec_bind_eq, exec_Swap s m1 m0 (by omega) (by omega)]
    obtain ⟨s1, e1, w1, r1, r2⟩ := tail (swapped s m1 m0) (Len_swapped _ _ _) (by
      rw [keyAt_swapped_right _ m1 m0 (by omega) (by omega),
        keyAt_swapped_left _ m1 m0 (by omega) (by omega)]
      exact le_of_lt c0)
    exact ⟨s1, e1, (Within_swapped lo hi s m1 m0 h1a h1b h0a h0b hlen).trans w1, r1, r2⟩
  · simp only [c0, decide_False, Bool.false_eq_true, if_false]
    rw [exec_bind_eq, exec_pure_eq]
    exact tail s rfl (not_lt.1 c0)
/-! ### The loops of `doPivot` -/

theorem pivotLoopA_spec (s : byAlertStateAndNameSorter) (pivot c : Nat)
    (hp : pivot < s.Len) (hc : c ≤ s.Len) :
    ∀ (f a : Nat), 0 < f → c < f + a →
      ∃ a1, (pivotLoopA pivot c f a).exec s = some (a1, s) ∧ a ≤ a1 ∧ (a ≤ c → a1 ≤ c) ∧
        (c ≤ a → a1 = a) ∧
        (∀ k, a ≤ k → k < a1 → keyAt s k < keyAt s pivot) ∧
        (a1 < c → ¬ keyAt s a1 < keyAt s pivot)
  | 0, a, h0, _ => absurd h0 (lt_irrefl _)
  | f + 1, a, _, hf => by
    unfold pivotLoopA
    by_cases hac : a < c
    · rw [if_pos hac, exec_bind_eq, exec_Less s a pivot (by omega) hp]
      by_cases hlt : keyAt s a < keyAt s pivot
      · simp only [hlt, decide_True, if_true]
        obtain ⟨a1, h1, h2, h3, _, h4, h5⟩ := pivotLoopA_spec s pivot c hp hc f (a + 1)
          (by omega) (by omega)
        refine ⟨a1, h1, by omega, fun _ => h3 (by omega), fun h => by omega, ?_, h5⟩
        intro k hk1 hk2
        by_cases hka : k = a
        · subst hka
          exact hlt
        · exact h4 k (by omega) hk2
      · simp only [hlt, decide_False, Bool.false_eq_true, if_false, exec_pure_eq]
        exact ⟨a, rfl, le_refl _, fun h => h, fun _ => rfl, fun k h1 h2 => by omega,
          fun _ => hlt⟩
    · rw [if_neg hac, exec_pure_eq]
      exact ⟨a, rfl, le_refl _, fun h => h, fun _ => rfl, fun k h1 h2 => by omega,
        fun h => absurd h hac⟩

theorem protectLoopA_spec (s : byAlertStateAndNameSorter) (pivot b : Nat)
    (hp : pivot < s.Len) (hb : b ≤ s.Len) :
    ∀ (f a : Nat), 0 < f → b < f + a →
      ∃ a1, (protectLoopA pivot b f a).exec s = some (a1, s) ∧ a ≤ a1 ∧ (a ≤ b → a1 ≤ b) ∧
        (b ≤ a → a1 = a) ∧
        (∀ k, a ≤ k → k < a1 → keyAt s k < keyAt s pivot) ∧
        (a1 < b → ¬ keyAt s a1 < keyAt s pivot)
  | 0, a, h0, _ => absurd h0 (lt_irrefl _)
  | f + 1, a, _, hf => by
    unfold protectLoopA
    by_cases hab : a < b
    · rw [if_pos hab, exec_bind_eq, exec_Less s a pivot (by omega) hp]
      by_cases hlt : keyAt s a < keyAt s pivot
      · simp only [hlt, decide_True, if_true]
        obtain ⟨a1, h1, h2, h3, _, h4, h5⟩ := protectLoopA_spec s pivot b hp hb f (a + 1)
          (by omega) (by omega)
        refine ⟨a1, h1, by omega, fun _ => h3 (by omega), fun h => by omega, ?_, h5⟩
        intro k hk1 hk2
        by_cases hka : k = a
        · subst hka
          exact hlt
        · exact h4 k (by omega) hk2
      · simp only [hlt, decide_False, Bool.false_eq_true, if_false, exec_pure_eq]
        exact ⟨a, rfl, le_refl _, fun h => h, fun _ => rfl, fun k h1 h2 => by omega,
          fun _ => hlt⟩
    · rw [if_neg hab, exec_pure_eq]
      exact ⟨a, rfl, le_refl _, fun h => h, fun _ => rfl, fun k h1 h2 => by omega,
        fun h => absurd h hab⟩

theorem pivotLoopB_spec (s : byAlertStateAndNameSorter) (pivot c : Nat)
    (hp : pivot < s.Len) (hc : c ≤ s.Len) :
    ∀ (f b : Nat), 0 < f → c < f + b →
      ∃ b1, (pivotLoopB pivot c f b).exec s = some (b1, s) ∧ b ≤ b1 ∧ (b ≤ c → b1 ≤ c) ∧
        (∀ k, b ≤ k → k < b1 → keyAt s k ≤ keyAt s pivot) ∧
        (b1 < c → keyAt s pivot < keyAt s b1)
  | 0, b, h0, _ => absurd h0 (lt_irrefl _)
  | f + 1, b, _, hf => by
    unfold pivotLoopB
    by_cases hbc : b < c
    · rw [if_pos hbc, exec_bind_eq, exec_Less s pivot b hp (by omega)]
      by_cases hlt : keyAt s pivot < keyAt s b
      · simp only [hlt, decide_True, Bool.not_true, Bool.false_eq_true, if_false, exec_pure_eq]
        exact ⟨b, rfl, le_refl _, fun h => h, fun k h1 h2 => by omega, fun _ => hlt⟩
      · simp only [hlt, decide_False, Bool.not_false, if_true]
        obtain ⟨b1, h1, h2, h3, h4, h5⟩ := pivotLoopB_spec s pivot c hp hc f (b + 1)
          (by omega) (by omega)
        refine ⟨b1, h1, by omega, fun _ => h3 (by omega), ?_, h5⟩
        intro k hk1 hk2
        by_cases hkb : k = b
        · subst hkb
          exact not_lt.1 hlt
        · exact h4 k (by omega) hk2
    · rw [if_neg hbc, exec_pure_eq]
      exact ⟨b, rfl, le_refl _, fun h => h, fun k h1 h2 => by omega,
        fun h => absurd h hbc⟩

theorem pivotLoopC_spec (s : byAlertStateAndNameSorter) (pivot b : Nat)
    (hp : pivot < s.Len) :
    ∀ (f c : Nat), 0 < f → c < f + b → c ≤ s.Len →
      ∃ c1, (pivotLoopC pivot b f c).exec s = some (c1, s) ∧ c1 ≤ c ∧ (b ≤ c → b ≤ c1) ∧
        (∀ k, c1 ≤ k → k < c → keyAt s pivot < keyAt s k) ∧
        (b < c1 → ¬ keyAt s pivot < keyAt s (c1 - 1))
  | 0, c, h0, _, _ => absurd h0 (lt_irrefl _)
  | f + 1, c, _, hf, hc => by
    unfold pivotLoopC
    by_cases hbc : b < c
    · rw [if_pos hbc, exec_bind_eq, exec_Less s pivot (c - 1) hp (by omega)]
      by_cases hlt : keyAt s pivot < keyAt s (c - 1)
      · simp only [hlt, decide_True, if_true]
        obtain ⟨c1, h1, h2, h3, h4, h5⟩ := pivotLoopC_spec s pivot b hp f (c - 1)
          (by omega) (by omega) (by omega)
        refine ⟨c1, h1, by omega, fun _ => h3 (by omega), ?_, h5⟩
        intro k hk1 hk2
        by_cases hkc : k = c - 1
        · subst hkc
          exact hlt
        · exact h4 k hk1 (by omega)
      · simp only [hlt, decide_False, Bool.false_eq_true, if_false, exec_pure_eq]
        exact ⟨c, rfl, le_refl _, fun h => h, fun k h1 h2 => by omega, fun _ => hlt⟩
    · rw [if_neg hbc, exec_pure_eq]
      exact ⟨c, rfl, le_refl _, fun h => h, fun k h1 h2 => by omega,
        fun h => absurd h hbc⟩

theorem protectLoopB_spec (s : byAlertStateAndNameSorter) (pivot a : Nat)
    (hp : pivot < s.Len) :
    ∀ (f b : Nat), 0 < f → b < f + a → b ≤ s.Len →
      ∃ b1, (protectLoopB pivot a f b).exec s = some (b1, s) ∧ b1 ≤ b ∧ (a ≤ b → a ≤ b1) ∧
        (b ≤ a → b1 = b) ∧
        (∀ k, b1 ≤ k → k < b → ¬ keyAt s k < keyAt s pivot) ∧
        (a < b1 → keyAt s (b1 - 1) < keyAt s pivot)
  | 0, b, h0, _, _ => absurd h0 (lt_irrefl _)
  | f + 1, b, _, hf, hb => by
    unfold protectLoopB
    by_cases hab : a < b
    · rw [if_pos hab, exec_bind_eq, exec_Less s (b - 1) pivot (by omega) hp]
      by_cases hlt : keyAt s (b - 1) < keyAt s pivot
      · simp only [hlt, decide_True, Bool.not_true, Bool.false_eq_true, if_false, exec_pure_eq]
        exact ⟨b, rfl, le_refl _, fun h => h, fun _ => rfl, fun k h1 h2 => by omega,
          fun _ => hlt⟩
      · simp only [hlt, decide_False, Bool.not_false, if_true]
        obtain ⟨b1, h1, h2, h3, _, h4, h5⟩ := protectLoopB_spec s pivot a hp f (b - 1)
          (by omega) (by omega) (by omega)
        refine ⟨b1, h1, by omega, fun _ => h3 (by omega), fun h => by omega, ?_, h5⟩
        intro k hk1 hk2
        by_cases hkb : k = b - 1
        · subst hkb
          exact hlt
        · exact h4 k hk1 (by omega)
    · rw [if_neg hab, exec_pure_eq]
      exact ⟨b, rfl, le_refl _, fun h => h, fun _ => rfl, fun k h1 h2 => by omega,
        fun h => absurd h hab⟩
theorem pivotPartition_spec (lo hi1 n : Nat) (hn : hi1 < n) :
    ∀ (f b c : Nat) (s : byAlertStateAndNameSorter), c < f + b → lo < b → b ≤ c →
      c ≤ hi1 → hi1 < s.Len →
      (∀ k, lo < k → k < b → keyAt s k ≤ keyAt s lo) →
      (∀ k, c ≤ k → k < hi1 → keyAt s lo ≤ keyAt s k) →
      ∃ m s1, (pivotPartition lo n f b c).exec s = some ((m, m), s1) ∧ b ≤ m ∧ m ≤ c ∧
        Within (lo + 1) hi1 s s1 ∧
        (∀ k, lo < k → k < m → keyAt s1 k ≤ keyAt s1 lo) ∧
        (∀ k, m ≤ k → k < hi1 → keyAt s1 lo ≤ keyAt s1 k)
  | 0, b, c, s, hf, _, hbc, _, _, _, _ => by omega
  | f + 1, b, c, s, hf, hlo, hbc, hc, hlen, hL, hG => by
    unfold pivotPartition
    obtain ⟨b1, e1, p1, p2, p3, p4⟩ := pivotLoopB_spec s lo c (by omega) (by omega) n b
      (by omega) (by omega)
    obtain ⟨c1, e2, r1, r2, r3, r4⟩ := pivotLoopC_spec s lo b1 (by omega) n c
      (by omega) (by omega) (by omega)
    have hb1c := p2 hbc
    have hb1c1 := r2 hb1c
    rw [exec_bind_eq, e1]
    simp only
    rw [exec_bind_eq, e2]
    simp only
    by_cases hge : b1 ≥ c1
    · rw [if_pos hge, exec_pure_eq]
      have hm : b1 = c1 := by omega
      subst hm
      refine ⟨b1, s, rfl, p1, r1, Within.refl _ _ _, ?_, ?_⟩
      · intro k hk1 hk2
        by_cases hkb : k < b
        · exact hL k hk1 hkb
        · exact p3 k (by omega) hk2
      · intro k hk1 hk2
        by_cases hkc : k < c
        · exact le_of_lt (r3 k hk1 hkc)
        · exact hG k (by omega) hk2
    · rw [if_neg hge, exec_bind_eq, exec_Swap s b1 (c1 - 1) (by omega) (by omega)]
      simp only
      have hlt : b1 < c1 := by omega
      have q1 := p4 (by omega)
      have q2 := r4 hlt
      have hne : b1 ≠ c1 - 1 := by
        intro h
        rw [← h] at q2
        exact q2 q1
      have hk := keyAt_swapped s b1 (c1 - 1) (by omega) (by omega)
      have hklo : keyAt (swapped s b1 (c1 - 1)) lo = keyAt s lo := by
        rw [hk lo, if_neg (by omega), if_neg (by omega)]
      obtain ⟨m, s1, e3, m1, m2, w, l1, g1⟩ := pivotPartition_spec lo hi1 n hn f (b1 + 1)
        (c1 - 1) (swapped s b1 (c1 - 1)) (by omega) (by omega) (by omega) (by omega)
        (by rw [Len_swapped]; exact hlen)
        (by
          intro k hk1 hk2
          rw [hklo, hk k]
          by_cases hkc : k = c1 - 1
          · omega
          · rw [if_neg hkc]
            by_cases hkb : k = b1
            · rw [if_pos hkb]
              exact not_lt.1 q2
            · rw [if_neg hkb]
              by_cases hkb0 : k < b
              · exact hL k hk1 hkb0
              · exact p3 k (by omega) (by omega))
        (by
          intro k hk1 hk2
          rw [hklo, hk k]
          by_cases hkc : k = c1 - 1
          · rw [if_pos hkc]
            exact le_of_lt q1
          · rw [if_neg hkc, if_neg (by omega)]
            by_cases hkc0 : k < c
            · exact le_of_lt (r3 k (by omega) hkc0)
            · exact hG k (by omega) hk2)
      refine ⟨m, s1, e3, by omega, by omega, ?_, l1, g1⟩
      exact (Within_swapped (lo + 1) hi1 s b1 (c1 - 1) (by omega) (by omega) (by omega)
        (by omega) (by omega)).trans w
theorem protectLoop_spec (lo c n : Nat) (hn : c < n) :
    ∀ (f a b : Nat) (s : byAlertStateAndNameSorter), 0 < f → b < f + a → lo < a → lo < b →
      b ≤ c → c ≤ s.Len →
      (∀ k, lo < k → k < b → keyAt s k ≤ keyAt s lo) →
      (∀ k, b ≤ k → k < c → keyAt s k = keyAt s lo) →
      ∃ b1 s1, (protectLoop lo n f a b).exec s = some (b1, s1) ∧ lo < b1 ∧ b1 ≤ b ∧
        Within (lo + 1) c s s1 ∧
        (∀ k, lo < k → k < b1 → keyAt s1 k ≤ keyAt s1 lo) ∧
        (∀ k, b1 ≤ k → k < c → keyAt s1 k = keyAt s1 lo)
  | 0, a, b, s, h0, _, _, _, _, _, _, _ => absurd h0 (lt_irrefl _)
  | f + 1, a, b, s, _, hf, hla, hlb, hbc, hlen, hL, hE => by
    unfold protectLoop
    obtain ⟨b1, e1, p1, p2, p3, p4, p5⟩ := protectLoopB_spec s lo a (by omega) n b
      (by omega) (by omega) (by omega)
    obtain ⟨a1, e2, r1, r2, r3, r4, r5⟩ := protectLoopA_spec s lo b1 (by omega) (by omega) n a
      (by omega) (by omega)
    have hlb1 : lo < b1 := by
      by_cases h : a ≤ b
      · have := p2 h
        omega
      · have := p3 (by omega)
        omega
    have hE1 : ∀ k, b1 ≤ k → k < c → keyAt s k = keyAt s lo := by
      intro k hk1 hk2
      by_cases hkb : k < b
      · exact le_antisymm (hL k (by omega) hkb) (not_lt.1 (p4 k hk1 hkb))
      · exact hE k (by omega) hk2
    rw [exec_bind_eq, e1]
    simp only
    rw [exec_bind_eq, e2]
    simp only
    by_cases hge : a1 ≥ b1
    · rw [if_pos hge, exec_pure_eq]
      exact ⟨b1, s, rfl, hlb1, p1, Within.refl _ _ _, fun k h1 h2 => hL k h1 (by omega), hE1⟩
    · rw [if_neg hge, exec_bind_eq, exec_Swap s a1 (b1 - 1) (by omega) (by omega)]
      simp only
      have hlt : a1 < b1 := by omega
      have q1 := p5 (by omega)
      have q2 : keyAt s a1 = keyAt s lo :=
        le_antisymm (hL a1 (by omega) (by omega)) (not_lt.1 (r5 hlt))
      have hne : a1 ≠ b1 - 1 := by
        intro h
        rw [← h, q2] at q1
        exact lt_irrefl _ q1
      have hk := keyAt_swapped s a1 (b1 - 1) (by omega) (by omega)
      have hklo : keyAt (swapped s a1 (b1 - 1)) lo = keyAt s lo := by
        rw [hk lo, if_neg (by omega), if_neg (by omega)]
      obtain ⟨b2, s1, e3, m1, m2, w, l1, g1⟩ := protectLoop_spec lo c n hn f (a1 + 1)
        (b1 - 1) (swapped s a1 (b1 - 1)) (by omega) (by omega) (by omega) (by omega)
        (by omega) (by rw [Len_swapped]; exact hlen)
        (by
          intro k hk1 hk2
          rw [hklo, hk k, if_neg (by omega)]
          by_cases hka : k = a1
          · rw [if_pos hka]
            exact le_of_lt q1
          · rw [if_neg hka]
            exact hL k hk1 (by omega))
        (by
          intro k hk1 hk2
          rw [hklo, hk k]
          by_cases hkb : k = b1 - 1
          · rw [if_pos hkb]
            exact q2
          · rw [if_neg hkb, if_neg (by omega)]
            exact hE1 k (by omega) hk2)
      refine ⟨b2, s1, e3, m1, by omega, ?_, l1, g1⟩
      exact (Within_swapped (lo + 1) c s a1 (b1 - 1) (by omega) (by omega) (by omega)
        (by omega) (by omega)).trans w
/-! ### `doPivot` -/

theorem pure_bind_eq {α β : Type} (a : α) (f : α → SortM β) : (pure a >>= f) = f a := rfl

theorem PivotInv.swap_pivot {lo hi b c : Nat} {s : byAlertStateAndNameSorter}
    (h : PivotInv lo hi b c s) :
    Within lo hi s (swapped s lo (b - 1)) ∧ Partitioned lo hi (b - 1) c (swapped s lo (b - 1)) := by
  obtain ⟨h1, h2, h3, h4, hL, hE, hG⟩ := h
  have hk := keyAt_swapped s lo (b - 1) (by omega) (by omega)
  have hm : keyAt (swapped s lo (b - 1)) (b - 1) = keyAt s lo := by
    rw [hk, if_pos rfl]
  refine ⟨Within_swapped lo hi s lo (b - 1) (le_refl _) (by omega) (by omega) (by omega) h4,
    by omega, by omega, h3, ?_, ?_, ?_⟩
  · intro k hk1 hk2
    rw [hm, hk k, if_neg (by omega)]
    by_cases hkl : k = lo
    · rw [if_pos hkl]
      by_cases hb : b - 1 = lo
      · rw [hb]
      · exact hL (b - 1) (by omega) (by omega)
    · rw [if_neg hkl]
      exact hL k (by omega) (by omega)
  · intro k hk1 hk2
    rw [hm, hk k]
    by_cases hkb : k = b - 1
    · rw [if_pos hkb]
    · rw [if_neg hkb, if_neg (by omega)]
      exact hE k (by omega) hk2
  · intro k hk1 hk2
    rw [hm, hk k, if_neg (by omega), if_neg (by omega)]
    exact hG k hk1 hk2

theorem doPivot_finish (lo hi a b c : Nat) (protect : Bool) (s : byAlertStateAndNameSorter)
    (hla : lo < a) (inv : PivotInv lo hi b c s) :
    ∃ mlo s1,
      (if protect = true then
          protectLoop lo (hi + 1) (hi + 1) a b >>= fun y =>
            SortM.Swap lo (y - 1) >>= fun _ => pure (y - 1, c)
        else SortM.Swap lo (b - 1) >>= fun _ => pure (b - 1, c)).exec s =
        some ((mlo, c), s1) ∧
      Within lo hi s s1 ∧ Partitioned lo hi mlo c s1 := by
  have fin : ∀ (b1 : Nat) (s1 : byAlertStateAndNameSorter), PivotInv lo hi b1 c s1 →
      ∃ mlo s2, (SortM.Swap lo (b1 - 1) >>= fun _ => pure (b1 - 1, c)).exec s1 =
        some ((mlo, c), s2) ∧ Within lo hi s1 s2 ∧ Partitioned lo hi mlo c s2 := by
    intro b1 s1 inv1
    have hs := inv1.swap_pivot
    obtain ⟨h1, h2, h3, h4, _⟩ := inv1
    rw [exec_bind_eq, exec_Swap s1 lo (b1 - 1) (by omega) (by omega)]
    exact ⟨b1 - 1, _, rfl, hs.1, hs.2⟩
  cases protect with
  | false => exact fin b s inv
  | true =>
    obtain ⟨h1, h2, h3, h4, hL, hE, hG⟩ := inv
    obtain ⟨b1, s1, e1, p1, p2, w, l1, g1⟩ := protectLoop_spec lo c (hi + 1) (by omega)
      (hi + 1) a b s (by omega) (by omega) hla h1 h2 (by omega) hL hE
    have hlo : keyAt s1 lo = keyAt s lo := w.2.1 lo (by omega)
    have inv1 : PivotInv lo hi b1 c s1 := by
      refine ⟨p1, by omega, h3, by rw [w.1]; exact h4, l1, g1, ?_⟩
      intro k hk1 hk2
      rw [hlo, w.2.1 k (by omega)]
      exact hG k hk1 hk2
    obtain ⟨mlo, s2, e2, w2, r2⟩ := fin b1 s1 inv1
    refine ⟨mlo, s2, ?_, (w.mono (by omega) h3).trans w2, r2⟩
    simp only [if_true]
    rw [exec_bind_eq, e1]
    exact e2
theorem doPivot_spec (lo hi : Nat) (s : byAlertStateAndNameSorter) (h12 : 12 < hi - lo)
    (hlen : hi ≤ s.Len) :
    ∃ mlo mhi s1, (doPivot lo hi).exec s = some ((mlo, mhi), s1) ∧ Within lo hi s s1 ∧
      Partitioned lo hi mlo mhi s1 := by
  let FIN : Nat → Nat → Nat → Bool → SortM (Nat × Nat) := fun a b c protect =>
    if protect = true then
      protectLoop lo (hi + 1) (hi + 1) a b >>= fun y =>
        SortM.Swap lo (y - 1) >>= fun _ => pure (y - 1, c)
    else SortM.Swap lo (b - 1) >>= fun _ => pure (b - 1, c)
  let D3 : Nat → Nat → Nat → Nat → SortM (Nat × Nat) := fun a b c dups =>
    SortM.Less ((lo + hi) / 2) lo >>= fun l =>
      if (!l) = true then
        SortM.Swap ((lo + hi) / 2) (b - 1) >>= fun _ => FIN a (b - 1) c (decide (dups + 1 > 1))
      else FIN a b c (decide (dups > 1))
  let D2 : Nat → Nat → Nat → Nat → SortM (Nat × Nat) := fun a b c dups =>
    SortM.Less (b - 1) lo >>= fun l =>
      if (!l) = true then D3 a (b - 1) c (dups + 1) else D3 a b c dups
  let D1 : Nat → Nat → Nat → SortM (Nat × Nat) := fun a b c =>
    SortM.Less lo (hi - 1) >>= fun l =>
      if (!l) = true then SortM.Swap c (hi - 1) >>= fun _ => D2 a b (c + 1) 1
      else D2 a b c 0
  have hFIN : ∀ (a b c : Nat) (p : Bool) (sD : byAlertStateAndNameSorter), lo < a →
      PivotInv lo hi b c sD →
      ∃ mlo mhi s1, (FIN a b c p).exec sD = some ((mlo, mhi), s1) ∧ Within lo hi sD s1 ∧
        Partitioned lo hi mlo mhi s1 := by
    intro a b c p sD hla inv
    obtain ⟨mlo, s1, e, w, r⟩ := doPivot_finish lo hi a b c p sD hla inv
    exact ⟨mlo, c, s1, e, w, r⟩
  have hD3 : ∀ (a b c dups : Nat) (sD : byAlertStateAndNameSorter), lo < a →
      PivotInv lo hi b c sD → lo < (lo + hi) / 2 → (lo + hi) / 2 < b →
      ∃ mlo mhi s1, (D3 a b c dups).exec sD = some ((mlo, mhi), s1) ∧ Within lo hi sD s1 ∧
        Partitioned lo hi mlo mhi s1 := by
    intro a b c dups sD hla inv hm1 hm2
    have inv0 := inv
    obtain ⟨h1, h2, h3, h4, hL, hE, hG⟩ := inv
    show ∃ mlo mhi s1, (SortM.Less ((lo + hi) / 2) lo >>= _).exec sD = _ ∧ _
    rw [exec_bind_eq, exec_Less sD ((lo + hi) / 2) lo (by omega) (by omega)]
    by_cases c3 : keyAt sD ((lo + hi) / 2) < keyAt sD lo
    · simp only [c3, decide_True, Bool.not_true, Bool.false_eq_true, if_false]
      exact hFIN a b c _ sD hla inv0
    · simp only [c3, decide_False, Bool.not_false, if_true]
      rw [exec_bind_eq, exec_Swap sD ((lo + hi) / 2) (b - 1) (by omega) (by omega)]
      simp only
      have hk := keyAt_swapped sD ((lo + hi) / 2) (b - 1) (by omega) (by omega)
      have hklo : keyAt (swapped sD ((lo + hi) / 2) (b - 1)) lo = keyAt sD lo := by
        rw [hk lo, if_neg (by omega), if_neg (by omega)]
      have hmp : keyAt sD ((lo + hi) / 2) = keyAt sD lo :=
        le_antisymm (hL _ hm1 hm2) (not_lt.1 c3)
      have inv1 : PivotInv lo hi (b - 1) c (swapped sD ((lo + hi) / 2) (b - 1)) := by
        refine ⟨by omega, by omega, h3, by rw [Len_swapped]; exact h4, ?_, ?_, ?_⟩
        · intro k hk1 hk2
          rw [hklo, hk k, if_neg (by omega)]
          by_cases hkm : k = (lo + hi) / 2
          · rw [if_pos hkm]
            exact hL (b - 1) (by omega) (by omega)
          · rw [if_neg hkm]
            exact hL k hk1 (by omega)
        · intro k hk1 hk2
          rw [hklo, hk k]
          by_cases hkb : k = b - 1
          · rw [if_pos hkb]
            exact hmp
          · rw [if_neg hkb, if_neg (by omega)]
            exact hE k (by omega) hk2
        · intro k hk1 hk2
          rw [hklo, hk k, if_neg (by omega), if_neg (by omega)]
          exact hG k hk1 hk2
      obtain ⟨mlo, mhi, s1, e, w, r⟩ := hFIN a (b - 1) c (decide (dups + 1 > 1)) _ hla inv1
      refine ⟨mlo, mhi, s1, e, ?_, r⟩
      exact (Within_swapped lo hi sD ((lo + hi) / 2) (b - 1) (by omega) (by omega) (by omega)
        (by omega) h4).trans w
  have hD2 : ∀ (a b c dups : Nat) (sD : byAlertStateAndNameSorter), lo < a →
      PivotInv lo hi b c sD → lo < (lo + hi) / 2 → (lo + hi) / 2 + 1 < b →
      ∃ mlo mhi s1, (D2 a b c dups).exec sD = some ((mlo, mhi), s1) ∧ Within lo hi sD s1 ∧
        Partitioned lo hi mlo mhi s1 := by
    intro a b c dups sD hla inv hm1 hm2
    have inv0 := inv
    obtain ⟨h1, h2, h3, h4, hL, hE, hG⟩ := inv
    show ∃ mlo mhi s1, (SortM.Less (b - 1) lo >>= _).exec sD = _ ∧ _
    rw [exec_bind_eq, exec_Less sD (b - 1) lo (by omega) (by omega)]
    by_cases c2 : keyAt sD (b - 1) < keyAt sD lo
    · simp only [c2, decide_True, Bool.not_true, Bool.false_eq_true, if_false]
      exact hD3 a b c dups sD hla inv0 hm1 (by omega)
    · simp only [c2, decide_False, Bool.not_false, if_true]
      refine hD3 a (b - 1) c (dups + 1) sD hla ?_ hm1 (by omega)
      refine ⟨by omega, by omega, h3, h4, fun k hk1 hk2 => hL k hk1 (by omega), ?_, hG⟩
      intro k hk1 hk2
      by_cases hkb : k = b - 1
      · rw [hkb]
        exact le_antisymm (hL _ (by omega) (by omega)) (not_lt.1 c2)
      · exact hE k (by omega) hk2
  have hD1 : ∀ (a b c : Nat) (sD : byAlertStateAndNameSorter), lo < a →
      PivotInv lo hi b c sD → lo < (lo + hi) / 2 → (lo + hi) / 2 + 1 < b → c < hi →
      ∃ mlo mhi s1, (D1 a b c).exec sD = some ((mlo, mhi), s1) ∧ Within lo hi sD s1 ∧
        Partitioned lo hi mlo mhi s1 := by
    intro a b c sD hla inv hm1 hm2 hc
    have inv0 := inv
    obtain ⟨h1, h2, h3, h4, hL, hE, hG⟩ := inv
    show ∃ mlo mhi s1, (SortM.Less lo (hi - 1) >>= _).exec sD = _ ∧ _
    rw [exec_bind_eq, exec_Less sD lo (hi - 1) (by omega) (by omega)]
    by_cases c1 : keyAt sD lo < keyAt sD (hi - 1)
    · simp only [c1, decide_True, Bool.not_true, Bool.false_eq_true, if_false]
      exact hD2 a b c 0 sD hla inv0 hm1 hm2
    · simp only [c1, decide_False, Bool.not_false, if_true]
      rw [exec_bind_eq, exec_Swap sD c (hi - 1) (by omega) (by omega)]
      simp only
      have hk := keyAt_swapped sD c (hi - 1) (by omega) (by omega)
      have hklo : keyAt (swapped sD c (hi - 1)) lo = keyAt sD lo := by
        rw [hk lo, if_neg (by omega), if_neg (by omega)]
      have hhp : keyAt sD (hi - 1) = keyAt sD lo :=
        le_antisymm (not_lt.1 c1) (hG _ (by omega) (by omega))
      have inv1 : PivotInv lo hi b (c + 1) (swapped sD c (hi - 1)) := by
        refine ⟨h1, by omega, by omega, by rw [Len_swapped]; exact h4, ?_, ?_, ?_⟩
        · intro k hk1 hk2
          rw [hklo, hk k, if_neg (by omega), if_neg (by omega)]
          exact hL k hk1 hk2
        · intro k hk1 hk2
          rw [hklo, hk k]
          by_cases hkh : k = hi - 1
          · rw [if_pos hkh]
            by_cases hcc : c = hi - 1
            · rw [hcc]; exact hhp
            · omega
          · rw [if_neg hkh]
            by_cases hkc : k = c
            · rw [if_pos hkc]
              exact hhp
            · rw [if_neg hkc]
              exact hE k hk1 (by omega)
        · intro k hk1 hk2
          rw [hklo, hk k]
          by_cases hkh : k = hi - 1
          · rw [if_pos hkh]
            exact hG c (le_refl _) hc
          · rw [if_neg hkh, if_neg (by omega)]
            exact hG k (by omega) hk2
      obtain ⟨mlo, mhi, s1, e, w, r⟩ := hD2 a b (c + 1) 1 _ hla inv1 hm1 hm2
      refine ⟨mlo, mhi, s1, e, ?_, r⟩
      exact (Within_swapped lo hi sD c (hi - 1) (by omega) (by omega) (by omega)
        (by omega) h4).trans w
  have rest : ∀ sA : byAlertStateAndNameSorter, sA.Len = s.Len →
      ∃ mlo mhi s1,
        (medianOfThree lo ((lo + hi) / 2) (hi - 1) >>= fun _ =>
          pivotLoopA lo (hi - 1) (hi + 1) (lo + 1) >>= fun a =>
            pivotPartition lo (hi + 1) (hi + 1) a (hi - 1) >>= fun d =>
              if (!decide (hi - d.2 < 5) && decide (hi - d.2 < (hi - lo) / 4)) = true then
                D1 a d.1 d.2
              else FIN a d.1 d.2 (decide (hi - d.2 < 5))).exec sA =
          some ((mlo, mhi), s1) ∧
        Within lo hi sA s1 ∧ Partitioned lo hi mlo mhi s1 := by
    intro sA hA
    obtain ⟨sB, e1, w1, o1, o2⟩ := medianOfThree_spec lo hi sA lo ((lo + hi) / 2) (hi - 1)
      (by omega) (by omega) (le_refl _) (by omega) (by omega) (by omega) (by omega)
      (by omega) (by omega) (by omega)
    obtain ⟨a, e2, a1, a2, _, a3, _⟩ := pivotLoopA_spec sB lo (hi - 1) (by rw [w1.1]; omega)
      (by rw [w1.1]; omega) (hi + 1) (lo + 1) (by omega) (by omega)
    have ha2 := a2 (by omega)
    obtain ⟨m, sC, e3, m1, m2, w3, l3, g3⟩ := pivotPartition_spec lo (hi - 1) (hi + 1)
      (by omega) (hi + 1) a (hi - 1) sB (by omega) (by omega) ha2 (le_refl _)
      (by rw [w1.1]; omega)
      (fun k hk1 hk2 => le_of_lt (a3 k (by omega) hk2)) (fun k hk1 hk2 => by omega)
    have hlo : keyAt sC lo = keyAt sB lo := w3.2.1 lo (by omega)
    have hhi : keyAt sC (hi - 1) = keyAt sB (hi - 1) := w3.2.1 (hi - 1) (by omega)
    have inv : PivotInv lo hi m m sC := by
      refine ⟨by omega, le_refl _, by omega, by rw [w3.1, w1.1]; omega, l3,
        fun k hk1 hk2 => by omega, ?_⟩
      intro k hk1 hk2
      by_cases hkh : k = hi - 1
      · rw [hkh, hhi, hlo]
        exact o2
      · exact g3 k hk1 (by omega)
    have hw : Within lo hi sA sC := w1.trans (w3.mono (by omega) (by omega))
    rw [exec_bind_eq, e1]
    simp only
    rw [exec_bind_eq, e2]
    simp only
    rw [exec_bind_eq, e3]
    simp only
    by_cases hd : (!decide (hi - m < 5) && decide (hi - m < (hi - lo) / 4)) = true
    · rw [if_pos hd]
      simp only [Bool.and_eq_true, Bool.not_eq_true', decide_eq_false_iff_not,
        decide_eq_true_iff] at hd
      obtain ⟨mlo, mhi, s1, e, w, r⟩ := hD1 a m m sC (by omega) inv (by omega) (by omega)
        (by omega)
      exact ⟨mlo, mhi, s1, e, hw.trans w, r⟩
    · rw [if_neg hd]
      obtain ⟨mlo, mhi, s1, e, w, r⟩ := hFIN a m m (decide (hi - m < 5)) sC (by omega) inv
      exact ⟨mlo, mhi, s1, e, hw.trans w, r⟩
  unfold doPivot
  simp only [pure_bind_eq]
  by_cases h40 : hi - lo > 40
  · rw [if_pos h40]
    obtain ⟨s1, e1, w1, _⟩ := medianOfThree_spec lo hi s lo (lo + (hi - lo) / 8)
      (lo + 2 * ((hi - lo) / 8)) (by omega) (by omega) (le_refl _) (by omega) (by omega)
      (by omega) hlen (by omega) (by omega) (by omega)
    obtain ⟨s2, e2, w2, _⟩ := medianOfThree_spec lo hi s1 ((lo + hi) / 2)
      ((lo + hi) / 2 - (hi - lo) / 8) ((lo + hi) / 2 + (hi - lo) / 8)
      (by omega) (by omega) (by omega) (by omega) (by omega)
      (by omega) (by rw [w1.1]; exact hlen) (by omega) (by omega) (by omega)
    obtain ⟨s3, e3, w3, _⟩ := medianOfThree_spec lo hi s2 (hi - 1)
      (hi - 1 - (hi - lo) / 8) (hi - 1 - 2 * ((hi - lo) / 8))
      (by omega) (by omega) (by omega) (by omega) (by omega)
      (by omega) (by rw [w2.1, w1.1]; exact hlen) (by omega) (by omega) (by omega)
    rw [exec_bind_eq, e1]
    simp only
    rw [exec_bind_eq, e2]
    simp only
    rw [exec_bind_eq, e3]
    simp only
    obtain ⟨mlo, mhi, s4, e, w, r⟩ := rest s3 (by rw [w3.1, w2.1, w1.1])
    exact ⟨mlo, mhi, s4, e, ((w1.trans w2).trans w3).trans w, r⟩
  · rw [if_neg h40]
    exact rest s rfl
/-! ### Heap sort -/

theorem siftDown_spec (hi first lo : Nat) :
    ∀ (f root : Nat) (s : byAlertStateAndNameSorter), hi < f + root → root ≤ hi →
      lo ≤ root → first + hi ≤ s.Len →
      (∀ i c, lo ≤ i → i ≠ root → c < hi → (c = 2 * i + 1 ∨ c = 2 * i + 2) →
        keyAt s (first + c) ≤ keyAt s (first + i)) →
      (∀ c p, c < hi → (c = 2 * root + 1 ∨ c = 2 * root + 2) → lo ≤ p →
        (root = 2 * p + 1 ∨ root = 2 * p + 2) → keyAt s (first + c) ≤ keyAt s (first + p)) →
      ∃ s1, (siftDown hi first f root).exec s = some ((), s1) ∧
        Within (first + lo) (first + hi) s s1 ∧ HeapFrom first hi lo s1
  | 0, root, s, hf, hr, _, _, _, _ => by omega
  | f + 1, root, s, hf, hr, hlo, hlen, hA, hB => by
    unfold siftDown
    simp only [pure_bind_eq]
    by_cases hch : 2 * root + 1 ≥ hi
    · rw [if_pos hch, exec_pure_eq]
      refine ⟨s, rfl, Within.refl _ _ _, ?_⟩
      intro i c hi1 hc hci
      by_cases hir : i = root
      · omega
      · exact hA i c hi1 hir hc hci
    · rw [if_neg hch]
      -- the greater child
      have step : ∀ cs : Nat, cs < hi → (cs = 2 * root + 1 ∨ cs = 2 * root + 2) →
          (∀ c, c < hi → (c = 2 * root + 1 ∨ c = 2 * root + 2) →
            keyAt s (first + c) ≤ keyAt s (first + cs)) →
          ∃ s1, (SortM.Less (first + root) (first + cs) >>= fun l =>
              if (!l) = true then pure ()
              else SortM.Swap (first + root) (first + cs) >>= fun _ =>
                siftDown hi first f cs).exec s = some ((), s1) ∧
            Within (first + lo) (first + hi) s s1 ∧ HeapFrom first hi lo s1 := by
        intro cs hcs1 hcs2 hmax
        rw [exec_bind_eq, exec_Less s (first + root) (first + cs) (by omega) (by omega)]
        by_cases hlt : keyAt s (first + root) < keyAt s (first + cs)
        · simp only [hlt, decide_True, Bool.not_true, Bool.false_eq_true, if_false]
          rw [exec_bind_eq, exec_Swap s (first + root) (first + cs) (by omega) (by omega)]
          simp only
          have hkr : keyAt (swapped s (first + root) (first + cs)) (first + root) =
              keyAt s (first + cs) :=
            keyAt_swapped_left s _ _ (by omega) (by omega)
          have hkc : keyAt (swapped s (first + root) (first + cs)) (first + cs) =
              keyAt s (first + root) :=
            keyAt_swapped_right s _ _ (by omega) (by omega)
          have hko : ∀ x, x ≠ root → x ≠ cs →
              keyAt (swapped s (first + root) (first + cs)) (first + x) = keyAt s (first + x) :=
            fun x h1 h2 => keyAt_swapped_other s _ _ (by omega) (by omega) _ (by omega)
              (by omega)
          obtain ⟨s1, e, w, hp⟩ := siftDown_spec hi first lo f cs
            (swapped s (first + root) (first + cs)) (by omega) (by omega) (by omega)
            (by rw [Len_swapped]; exact hlen)
            (by
              intro i c hi1 hics hc hci
              by_cases hir : i = root
              · subst hir
                rw [hkr]
                by_cases hccs : c = cs
                · subst hccs
                  rw [hkc]
                  exact le_of_lt hlt
                · rw [hko c (by omega) hccs]
                  exact hmax c hc hci
              · rw [hko i hir hics]
                by_cases hcr : c = root
                · subst hcr
                  rw [hkr]
                  exact hB cs i hcs1 hcs2 hi1 hci
                · rw [hko c hcr (by omega)]
                  exact hA i c hi1 hir hc hci)
            (by
              intro c p hc hccs hp hcsp
              have hpr : p = root := by omega
              subst hpr
              rw [hkr, hko c (by omega) (by omega)]
              exact hA cs c (by omega) (by omega) hc hccs)
          refine ⟨s1, e, ?_, hp⟩
          exact (Within_swapped (first + lo) (first + hi) s (first + root) (first + cs)
            (by omega) (by omega) (by omega) (by omega) hlen).trans w
        · simp only [hlt, decide_False, Bool.not_false, if_true, exec_pure_eq]
          refine ⟨s, rfl, Within.refl _ _ _, ?_⟩
          intro i c hi1 hc hci
          by_cases hir : i = root
          · subst hir
            exact le_trans (hmax c hc hci) (not_lt.1 hlt)
          · exact hA i c hi1 hir hc hci
      by_cases h2 : 2 * root + 1 + 1 < hi
      · rw [if_pos h2, exec_bind_eq,
          exec_Less s (first + (2 * root + 1)) (first + (2 * root + 1) + 1) (by omega)
            (by omega)]
        by_cases hl : keyAt s (first + (2 * root + 1)) < keyAt s (first + (2 * root + 1) + 1)
        · simp only [hl, decide_True, if_true]
          refine step (2 * root + 1 + 1) h2 (Or.inr rfl) ?_
          intro c hc hcr
          rcases hcr with h | h
          · subst h
            exact le_of_lt hl
          · subst h
            exact le_refl _
        · simp only [hl, decide_False, Bool.false_eq_true, if_false]
          refine step (2 * root + 1) (by omega) (Or.inl rfl) ?_
          intro c hc hcr
          rcases hcr with h | h
          · subst h
            exact le_refl _
          · subst h
            exact not_lt.1 hl
      · rw [if_neg h2]
        refine step (2 * root + 1) (by omega) (Or.inl rfl) ?_
        intro c hc hcr
        rcases hcr with h | h
        · subst h
          exact le_refl _
        · omega
theorem heapBuild_spec (hi first : Nat) :
    ∀ (i : Nat) (s : byAlertStateAndNameSorter), i ≤ hi → first + hi ≤ s.Len →
      HeapFrom first hi (i + 1) s →
      ∃ s1, (heapBuild hi first i).exec s = some ((), s1) ∧
        Within first (first + hi) s s1 ∧ HeapFrom first hi 0 s1
  | 0, s, _, hlen, hp => by
    unfold heapBuild
    exact siftDown_spec hi first 0 (hi + 1) 0 s (by omega) (by omega) (le_refl _) hlen
      (fun i c _ hi0 hc hci => hp i c (by omega) hc hci)
      (fun c p _ _ _ hp0 => by omega)
  | i + 1, s, hi1, hlen, hp => by
    unfold heapBuild
    obtain ⟨s1, e1, w1, p1⟩ := siftDown_spec hi first (i + 1) (hi + 1) (i + 1) s (by omega)
      hi1 (le_refl _) hlen
      (fun j c hj1 hj2 hc hcj => hp j c (by omega) hc hcj)
      (fun c p _ _ hp1 hp2 => by omega)
    obtain ⟨s2, e2, w2, p2⟩ := heapBuild_spec hi first i s1 (by omega)
      (by rw [w1.1]; exact hlen) p1
    rw [exec_bind_eq, e1]
    exact ⟨s2, e2, (w1.mono (by omega) (le_refl _)).trans w2, p2⟩

theorem HeapFrom.root_max {first hi : Nat} {s : byAlertStateAndNameSorter}
    (h : HeapFrom first hi 0 s) : ∀ x, x < hi → keyAt s (first + x) ≤ keyAt s first := by
  intro x
  induction x using Nat.strong_induction_on with
  | _ x ih =>
    intro hx
    by_cases h0 : x = 0
    · subst h0
      exact le_refl _
    · have hp : x = 2 * ((x - 1) / 2) + 1 ∨ x = 2 * ((x - 1) / 2) + 2 := by omega
      exact le_trans (h ((x - 1) / 2) x (Nat.zero_le _) hx hp)
        (ih ((x - 1) / 2) (by omega) (by omega))

theorem heapPop_spec (first hi : Nat) :
    ∀ (i : Nat) (s : byAlertStateAndNameSorter), i < hi → first + hi ≤ s.Len →
      HeapFrom first (i + 1) 0 s → SortedOn (first + (i + 1)) (first + hi) s →
      (∀ k j, k ≤ i → i < j → j < hi → keyAt s (first + k) ≤ keyAt s (first + j)) →
      ∃ s1, (heapPop first i).exec s = some ((), s1) ∧
        Within first (first + hi) s s1 ∧ SortedOn first (first + hi) s1
  | 0, s, h0, hlen, _, hs, hb => by
    unfold heapPop
    rw [exec_Swap s first first (by omega) (by omega)]
    have hk : ∀ k, keyAt (swapped s first first) k = keyAt s k := by
      intro k
      rw [keyAt_swapped s first first (by omega) (by omega)]
      by_cases hkf : k = first
      · rw [if_pos hkf, hkf]
      · rw [if_neg hkf, if_neg hkf]
    refine ⟨_, rfl, Within_swapped first (first + hi) s first first (le_refl _) (by omega)
      (le_refl _) (by omega) hlen, ?_⟩
    intro p q hp hpq hq
    rw [hk p, hk q]
    by_cases hpf : p = first
    · have := hb 0 (q - first) (le_refl _) (by omega) (by omega)
      rw [show first + (q - first) = q by omega, Nat.add_zero] at this
      rw [hpf]
      exact this
    · exact hs p q (by omega) hpq hq
  | i + 1, s, hi1, hlen, hp, hs, hb => by
    unfold heapPop
    rw [exec_bind_eq, exec_Swap s first (first + (i + 1)) (by omega) (by omega)]
    simp only
    have hkf : keyAt (swapped s first (first + (i + 1))) first = keyAt s (first + (i + 1)) :=
      keyAt_swapped_left s _ _ (by omega) (by omega)
    have hki : keyAt (swapped s first (first + (i + 1))) (first + (i + 1)) = keyAt s first :=
      keyAt_swapped_right s _ _ (by omega) (by omega)
    have hko : ∀ x, x ≠ 0 → x ≠ i + 1 →
        keyAt (swapped s first (first + (i + 1))) (first + x) = keyAt s (first + x) :=
      fun x h1 h2 => keyAt_swapped_other s _ _ (by omega) (by omega) _ (by omega) (by omega)
    have w0 : Within first (first + hi) s (swapped s first (first + (i + 1))) :=
      Within_swapped first (first + hi) s first (first + (i + 1)) (le_refl _) (by omega)
        (by omega) (by omega) hlen
    obtain ⟨s1, e1, w1, p1⟩ := siftDown_spec (i + 1) first 0 (i + 2) 0
      (swapped s first (first + (i + 1))) (by omega) (by omega) (le_refl _)
      (by rw [Len_swapped]; omega)
      (by
        intro j c _ hj hc hcj
        rw [hko c (by omega) (by omega), hko j hj (by omega)]
        exact hp j c (Nat.zero_le _) (by omega) hcj)
      (fun c p _ _ _ hp0 => by omega)
    have hmax := hp.root_max
    -- the keys of the new state in terms of the old one
    have hlow : ∀ k, k ≤ i → ∃ k1, k1 ≤ i + 1 ∧ keyAt s1 (first + k) = keyAt s (first + k1) := by
      intro k hk
      obtain ⟨k1, ha, hb1, hc⟩ := w1.2.2 (first + k) (by omega) (by omega)
      rw [hc]
      by_cases hk0 : k1 = first
      · rw [hk0, hkf]
        exact ⟨i + 1, le_refl _, rfl⟩
      · refine ⟨k1 - first, by omega, ?_⟩
        have := hko (k1 - first) (by omega) (by omega)
        rw [show first + (k1 - first) = k1 by omega] at this
        rw [this]
        rw [show first + (k1 - first) = k1 by omega]
    have hhigh : ∀ j, i + 1 < j → keyAt s1 (first + j) = keyAt s (first + j) := by
      intro j hj
      rw [w1.2.1 (first + j) (by omega), hko j (by omega) (by omega)]
    have htop : keyAt s1 (first + (i + 1)) = keyAt s first := by
      rw [w1.2.1 (first + (i + 1)) (by omega), hki]
    obtain ⟨s2, e2, w2, p2⟩ := heapPop_spec first hi i s1 (by omega)
      (by rw [w1.1, Len_swapped]; exact hlen) p1
      (by
        intro p q hp1 hpq hq
        have hq2 := hhigh (q - first) (by omega)
        rw [show first + (q - first) = q by omega] at hq2
        rw [hq2]
        by_cases hpi : p = first + (i + 1)
        · rw [hpi, htop]
          have := hb 0 (q - first) (Nat.zero_le _) (by omega) (by omega)
          rw [show first + (q - first) = q by omega, Nat.add_zero] at this
          exact this
        · have hp2 := hhigh (p - first) (by omega)
          rw [show first + (p - first) = p by omega] at hp2
          rw [hp2]
          exact hs p q (by omega) hpq hq)
      (by
        intro k j hk hij hj
        obtain ⟨k1, hk1, hk2⟩ := hlow k hk
        rw [hk2]
        by_cases hji : j = i + 1
        · rw [hji, htop]
          exact hmax k1 (by omega)
        · rw [hhigh j (by omega)]
          exact hb k1 j hk1 (by omega) hj)
    rw [exec_bind_eq, e1]
    simp only
    refine ⟨s2, e2, ?_, p2⟩
    exact (w0.trans (w1.mono (by omega) (by omega))).trans w2

theorem heapSort_spec (a b : Nat) (s : byAlertStateAndNameSorter) (hab : a < b)
    (hlen : b ≤ s.Len) :
    ∃ s1, (heapSort a b).exec s = some ((), s1) ∧ Within a b s s1 ∧ SortedOn a b s1 := by
  unfold heapSort
  obtain ⟨s1, e1, w1, p1⟩ := heapBuild_spec (b - a) a ((b - a - 1) / 2) s (by omega)
    (by omega) (fun i c hi hc hci => by omega)
  obtain ⟨s2, e2, w2, p2⟩ := heapPop_spec a (b - a) (b - a - 1) s1 (by omega)
    (by rw [w1.1]; omega)
    (by rw [show b - a - 1 + 1 = b - a by omega]; exact p1)
    (fun p q hp hpq hq => by omega) (fun k j hk hj1 hj2 => by omega)
  have he : a + (b - a) = b := by omega
  rw [he] at w1 w2 p2
  simp only
  rw [exec_bind_eq, e1]
  exact ⟨s2, e2, w1.trans w2, p2⟩
/-! ### `quickSort` -/

theorem Partitioned.sorted {lo hi mlo mhi : Nat} {s : byAlertStateAndNameSorter}
    (h : Partitioned lo hi mlo mhi s) (h1 : SortedOn lo mlo s) (h2 : SortedOn mhi hi s) :
    SortedOn lo hi s := by
  obtain ⟨_, _, _, hL, hE, hG⟩ := h
  intro i j hi1 hij hj
  by_cases hi2 : i < mlo
  · by_cases hj2 : j < mlo
    · exact h1 i j hi1 hij hj2
    · by_cases hj3 : j < mhi
      · rw [hE j (by omega) hj3]
        exact hL i hi1 hi2
      · exact le_trans (hL i hi1 hi2) (hG j (by omega) hj)
  · by_cases hi3 : i < mhi
    · rw [hE i (by omega) hi3]
      by_cases hj3 : j < mhi
      · rw [hE j (by omega) hj3]
      · exact hG j (by omega) hj
    · exact h2 i j (by omega) hij hj

theorem Partitioned.within_left {lo hi mlo mhi : Nat} {s s1 : byAlertStateAndNameSorter}
    (h : Partitioned lo hi mlo mhi s) (w : Within lo mlo s s1) :
    Partitioned lo hi mlo mhi s1 := by
  obtain ⟨a1, a2, a3, hL, hE, hG⟩ := h
  have hm : keyAt s1 mlo = keyAt s mlo := w.2.1 mlo (by omega)
  refine ⟨a1, a2, a3, ?_, ?_, ?_⟩
  · rw [hm]
    exact w.upper _ hL
  · intro k hk1 hk2
    rw [hm, w.2.1 k (by omega)]
    exact hE k hk1 hk2
  · intro k hk1 hk2
    rw [hm, w.2.1 k (by omega)]
    exact hG k hk1 hk2

theorem Partitioned.within_right {lo hi mlo mhi : Nat} {s s1 : byAlertStateAndNameSorter}
    (h : Partitioned lo hi mlo mhi s) (w : Within mhi hi s s1) :
    Partitioned lo hi mlo mhi s1 := by
  obtain ⟨a1, a2, a3, hL, hE, hG⟩ := h
  have hm : keyAt s1 mlo = keyAt s mlo := w.2.1 mlo (by omega)
  refine ⟨a1, a2, a3, ?_, ?_, ?_⟩
  · intro k hk1 hk2
    rw [hm, w.2.1 k (by omega)]
    exact hL k hk1 hk2
  · intro k hk1 hk2
    rw [hm, w.2.1 k (by omega)]
    exact hE k hk1 hk2
  · rw [hm]
    exact w.lower _ hG

theorem SortedOn.of_eq {lo hi : Nat} {s s1 : byAlertStateAndNameSorter}
    (h : SortedOn lo hi s) (he : ∀ k, lo ≤ k → k < hi → keyAt s1 k = keyAt s k) :
    SortedOn lo hi s1 := by
  intro i j hi1 hij hj
  rw [he i hi1 (by omega), he j (by omega) hj]
  exact h i j hi1 hij hj

theorem quickSort_spec :
    ∀ (f a b d : Nat) (s : byAlertStateAndNameSorter), b - a < f → b ≤ s.Len →
      ∃ s1, (quickSort f a b d).exec s = some ((), s1) ∧ Within a b s s1 ∧ SortedOn a b s1
  | 0, a, b, d, s, hf, _ => by omega
  | f + 1, a, b, d, s, hf, hlen => by
    unfold quickSort
    by_cases h12 : b - a > 12
    · rw [if_pos h12]
      by_cases hd : d = 0
      · rw [if_pos hd]
        exact heapSort_spec a b s (by omega) hlen
      · rw [if_neg hd]
        obtain ⟨mlo, mhi, s1, e1, w1, p1⟩ := doPivot_spec a b s h12 hlen
        have hp := p1
        obtain ⟨a1, a2, a3, _⟩ := hp
        rw [exec_bind_eq, e1]
        simp only
        by_cases hside : mlo - a < b - mhi
        · rw [if_pos hside]
          obtain ⟨s2, e2, w2, o2⟩ := quickSort_spec f a mlo (d - 1) s1 (by omega)
            (by rw [w1.1]; omega)
          obtain ⟨s3, e3, w3, o3⟩ := quickSort_spec f mhi b (d - 1) s2 (by omega)
            (by rw [w2.1, w1.1]; omega)
          rw [exec_bind_eq, e2]
          refine ⟨s3, e3, (w1.trans (w2.mono (le_refl _) (by omega))).trans
            (w3.mono (by omega) (le_refl _)), ?_⟩
          exact ((p1.within_left w2).within_right w3).sorted
            (o2.of_eq (fun k _ hk2 => w3.2.1 k (by omega))) o3
        · rw [if_neg hside]
          obtain ⟨s2, e2, w2, o2⟩ := quickSort_spec f mhi b (d - 1) s1 (by omega)
            (by rw [w1.1]; omega)
          obtain ⟨s3, e3, w3, o3⟩ := quickSort_spec f a mlo (d - 1) s2 (by omega)
            (by rw [w2.1, w1.1]; omega)
          rw [exec_bind_eq, e2]
          refine ⟨s3, e3, (w1.trans (w2.mono (by omega) (le_refl _))).trans
            (w3.mono (le_refl _) (by omega)), ?_⟩
          exact ((p1.within_right w2).within_left w3).sorted o3
            (o2.of_eq (fun k hk1 _ => w3.2.1 k (by omega)))
    · rw [if_neg h12]
      by_cases h1 : b - a > 1
      · rw [if_pos h1]
        have hsp : ∃ s1, (shellPass (a + 6) (b - (a + 6))).exec s = some ((), s1) ∧
            Within a b s s1 := by
          by_cases h6 : a + 6 ≤ b
          · exact shellPass_spec a b (b - (a + 6)) (a + 6) s (le_refl _) (by omega) hlen
          · rw [show b - (a + 6) = 0 by omega]
            exact ⟨s, rfl, Within.refl _ _ _⟩
        obtain ⟨s1, e1, w1⟩ := hsp
        obtain ⟨s2, e2, w2, o2⟩ := insertionSort_spec a b s1 (by rw [w1.1]; exact hlen)
        rw [exec_bind_eq, e1]
        exact ⟨s2, e2, w1.trans w2, o2⟩
      · rw [if_neg h1, exec_pure_eq]
        exact ⟨s, rfl, Within.refl _ _ _, fun i j hi hij hj => by omega⟩

/-- The quicksort that `sort.Sort` ran before Go 1.19 meets the contract: on every
slice it returns, and it leaves the slice ordered by `Less`. -/
theorem quickSortImpl_contract : SortContract quickSortImpl := by
  intro data
  obtain ⟨s1, e, w, o⟩ := quickSort_spec (data.Len + 1) 0 data.Len (maxDepth data.Len) data
    (by omega) (le_refl _)
  refine ⟨s1, ?_, ?_⟩
  · unfold sortSort quickSortImpl
    rw [e]
  · intro i j hij hj
    rw [Less_keyAt s1 j i hj (by omega)]
    simp only [Option.some.injEq, decide_eq_false_iff_not, not_lt]
    exact o i j (Nat.zero_le _) hij (by rw [← w.1]; exact hj)

/-! ### The pattern-defeating quicksort meets the contract -/

theorem bitsLenLoop_pow_le : ∀ (f x : Nat), x ≤ f → 1 ≤ x → 2 ^ bitsLenLoop f x ≤ 2 * x
  | 0, x, h1, h2 => by omega
  | f + 1, x, h1, h2 => by
    unfold bitsLenLoop
    rw [if_neg (by omega)]
    by_cases hx : x / 2 = 0
    · rw [hx]
      have h0 : bitsLenLoop f 0 = 0 := by
        cases f with
        | zero => rfl
        | succ f => simp [bitsLenLoop]
      rw [h0]
      omega
    · have ih := bitsLenLoop_pow_le f (x / 2) (by omega) (by omega)
      rw [pow_succ]
      omega

theorem bitsLen_ne_zero (n : Nat) (h : 1 ≤ n) : bitsLen n ≠ 0 := by
  unfold bitsLen
  cases n with
  | zero => omega
  | succ n => simp [bitsLenLoop]

theorem breakLoop_spec (rnd : Nat → Nat → Nat) (a b length modulus idx : Nat)
    (hl : 8 ≤ length) (hb : b = a + length) (hm : modulus ≤ 2 * length)
    (hidx : idx = a + (length / 4) * 2 - 1) :
    ∀ (n i : Nat) (s : byAlertStateAndNameSorter), i + n ≤ 3 → b ≤ s.Len →
      ∃ s1, (breakLoop rnd a length modulus idx n i).exec s = some ((), s1) ∧ Within a b s s1
  | 0, i, s, _, _ => ⟨s, rfl, Within.refl _ _ _⟩
  | n + 1, i, s, hi, hlen => by
    unfold breakLoop
    simp only
    have h1 : rnd length i &&& (modulus - 1) ≤ modulus - 1 := Nat.and_le_right
    have h2 : (if rnd length i &&& (modulus - 1) ≥ length then
        (rnd length i &&& (modulus - 1)) - length else rnd length i &&& (modulus - 1)) < length := by
      split
      · omega
      · omega
    generalize (if rnd length i &&& (modulus - 1) ≥ length then
        (rnd length i &&& (modulus - 1)) - length else rnd length i &&& (modulus - 1)) = other
      at h2
    rw [exec_bind_eq, exec_Swap s (idx - 1 + i) (a + other) (by omega) (by omega)]
    simp only
    obtain ⟨s1, e, w⟩ := breakLoop_spec rnd a b length modulus idx hl hb hm hidx n (i + 1)
      (swapped s (idx - 1 + i) (a + other)) (by omega) (by rw [Len_swapped]; exact hlen)
    refine ⟨s1, e, ?_⟩
    exact (Within_swapped a b s (idx - 1 + i) (a + other) (by omega) (by omega) (by omega)
      (by omega) hlen).trans w

theorem breakPatterns_spec (rnd : Nat → Nat → Nat) (a b : Nat)
    (s : byAlertStateAndNameSorter) (hab : a ≤ b) (hlen : b ≤ s.Len) :
    ∃ s1, (breakPatterns rnd a b).exec s = some ((), s1) ∧ Within a b s s1 := by
  unfold breakPatterns
  simp only
  by_cases h8 : b - a ≥ 8
  · rw [if_pos h8]
    refine breakLoop_spec rnd a b (b - a) (nextPowerOfTwo (b - a)) _ h8 (by omega) ?_ rfl 3 0 s
      (by omega) hlen
    unfold nextPowerOfTwo bitsLen
    exact bitsLenLoop_pow_le _ _ (le_refl _) (by omega)
  · rw [if_neg h8]
    exact ⟨s, rfl, Within.refl _ _ _⟩

theorem reverseLoop_spec (a b : Nat) :
    ∀ (f i j : Nat) (s : byAlertStateAndNameSorter), 0 < f → j < f + i → a ≤ i → j < b →
      b ≤ s.Len →
      ∃ s1, (reverseLoop f i j).exec s = some ((), s1) ∧ Within a b s s1
  | 0, i, j, s, h0, _, _, _, _ => absurd h0 (lt_irrefl _)
  | f + 1, i, j, s, _, hf, hi, hj, hlen => by
    unfold reverseLoop
    by_cases hij : i < j
    · rw [if_pos hij, exec_bind_eq, exec_Swap s i j (by omega) (by omega)]
      simp only
      obtain ⟨s1, e, w⟩ := reverseLoop_spec a b f (i + 1) (j - 1) (swapped s i j) (by omega)
        (by omega) (by omega) (by omega) (by rw [Len_swapped]; exact hlen)
      refine ⟨s1, e, ?_⟩
      exact (Within_swapped a b s i j hi (by omega) (by omega) hj hlen).trans w
    · rw [if_neg hij]
      exact ⟨s, rfl, Within.refl _ _ _⟩

theorem reverseRange_spec (a b : Nat) (s : byAlertStateAndNameSorter) (hab : a < b)
    (hlen : b ≤ s.Len) :
    ∃ s1, (reverseRange a b).exec s = some ((), s1) ∧ Within a b s s1 := by
  unfold reverseRange
  exact reverseLoop_spec a b (b + 1) a (b - 1) s (by omega) (by omega) (le_refl _) (by omega)
    hlen

theorem order2_spec (s : byAlertStateAndNameSorter) (a b sw : Nat) (ha : a < s.Len)
    (hb : b < s.Len) :
    (order2 a b sw).exec s =
      some (if keyAt s b < keyAt s a then (b, a, sw + 1) else (a, b, sw), s) := by
  unfold order2
  rw [exec_bind_eq, exec_Less s b a hb ha]
  by_cases h : keyAt s b < keyAt s a
  · simp only [h, decide_True, if_true, exec_pure_eq]
  · simp only [h, decide_False, Bool.false_eq_true, if_false, exec_pure_eq]

theorem median_spec (s : byAlertStateAndNameSorter) (a b c sw : Nat) (ha : a < s.Len)
    (hb : b < s.Len) (hc : c < s.Len) :
    ∃ m sw1, (median a b c sw).exec s = some ((m, sw1), s) ∧ (m = a ∨ m = b ∨ m = c) ∧
      (keyAt s a ≤ keyAt s b → keyAt s b ≤ keyAt s c → m = b ∧ sw1 = sw) := by
  unfold median
  rw [exec_bind_eq, order2_spec s a b sw ha hb]
  by_cases c1 : keyAt s b < keyAt s a
  · simp only [c1, if_true]
    rw [exec_bind_eq, order2_spec s a c (sw + 1) ha hc]
    by_cases c2 : keyAt s c < keyAt s a
    · simp only [c2, if_true]
      rw [exec_bind_eq, order2_spec s b c (sw + 1 + 1) hb hc]
      by_cases c3 : keyAt s c < keyAt s b
      · simp only [c3, if_true, exec_pure_eq]
        exact ⟨_, _, rfl, Or.inr (Or.inl rfl), fun h => absurd c1 (not_lt.2 h)⟩
      · simp only [c3, if_false, exec_pure_eq]
        exact ⟨_, _, rfl, Or.inr (Or.inr rfl), fun h => absurd c1 (not_lt.2 h)⟩
    · simp only [c2, if_false]
      rw [exec_bind_eq, order2_spec s b a (sw + 1) hb ha]
      by_cases c3 : keyAt s a < keyAt s b
      · simp only [c3, if_true, exec_pure_eq]
        exact ⟨_, _, rfl, Or.inr (Or.inl rfl), fun h => absurd c1 (not_lt.2 h)⟩
      · simp only [c3, if_false, exec_pure_eq]
        exact ⟨_, _, rfl, Or.inl rfl, fun h => absurd c1 (not_lt.2 h)⟩
  · simp only [c1, if_false]
    rw [exec_bind_eq, order2_spec s b c sw hb hc]
    by_cases c2 : keyAt s c < keyAt s b
    · simp only [c2, if_true]
      rw [exec_bind_eq, order2_spec s a c (sw + 1) ha hc]
      by_cases c3 : keyAt s c < keyAt s a
      · simp only [c3, if_true, exec_pure_eq]
        exact ⟨_, _, rfl, Or.inl rfl, fun _ h => absurd c2 (not_lt.2 h)⟩
      · simp only [c3, if_false, exec_pure_eq]
        exact ⟨_, _, rfl, Or.inr (Or.inr rfl), fun _ h => absurd c2 (not_lt.2 h)⟩
    · simp only [c2, if_false]
      rw [exec_bind_eq, order2_spec s a b sw ha hb]
      simp only [c1, if_false, exec_pure_eq]
      exact ⟨_, _, rfl, Or.inr (Or.inl rfl), fun _ _ => ⟨rfl, rfl⟩⟩

theorem choosePivot_spec (a b : Nat) (s : byAlertStateAndNameSorter) (h12 : 12 < b - a)
    (hlen : b ≤ s.Len) :
    ∃ pivot hint, (choosePivot a b).exec s = some ((pivot, hint), s) ∧ a ≤ pivot ∧
      pivot < b ∧ (SortedOn a b s → hint = sortedHint.increasingHint) := by
  have fin : ∀ (j sw : Nat), a ≤ j → j < b → (SortedOn a b s → sw = 0) →
      ∃ pivot hint,
        (if sw = 0 then (pure (j, sortedHint.increasingHint) : SortM (Nat × sortedHint))
          else if sw = 4 * 3 then pure (j, sortedHint.decreasingHint)
          else pure (j, sortedHint.unknownHint)).exec s = some ((pivot, hint), s) ∧
        a ≤ pivot ∧ pivot < b ∧ (SortedOn a b s → hint = sortedHint.increasingHint) := by
    intro j sw hj1 hj2 hs
    by_cases h0 : sw = 0
    · rw [if_pos h0]
      exact ⟨j, _, rfl, hj1, hj2, fun _ => rfl⟩
    · rw [if_neg h0]
      by_cases h1 : sw = 4 * 3
      · rw [if_pos h1]
        exact ⟨j, _, rfl, hj1, hj2, fun h => absurd (hs h) h0⟩
      · rw [if_neg h1]
        exact ⟨j, _, rfl, hj1, hj2, fun h => absurd (hs h) h0⟩
  have med : ∀ (i j k sw : Nat), a ≤ i → i < j → j < k → k < b → (SortedOn a b s → sw = 0) →
      ∃ pivot hint,
        (median i j k sw >>= fun r =>
          if r.2 = 0 then (pure (r.1, sortedHint.increasingHint) : SortM (Nat × sortedHint))
          else if r.2 = 4 * 3 then pure (r.1, sortedHint.decreasingHint)
          else pure (r.1, sortedHint.unknownHint)).exec s = some ((pivot, hint), s) ∧
        a ≤ pivot ∧ pivot < b ∧ (SortedOn a b s → hint = sortedHint.increasingHint) := by
    intro i j k sw h1 h2 h3 h4 hs
    obtain ⟨m, sw1, e, hm, hsorted⟩ := median_spec s i j k sw (by omega) (by omega) (by omega)
    rw [exec_bind_eq, e]
    simp only
    refine fin m sw1 (by omega) (by omega) ?_
    intro h
    have := hsorted (h i j h1 h2 (by omega)) (h j k (by omega) h3 h4)
    rw [this.2]
    exact hs h
  unfold choosePivot
  simp only [pure_bind_eq]
  rw [if_pos (by omega)]
  by_cases h50 : b - a ≥ 50
  · rw [if_pos h50]
    unfold medianAdjacent
    have hq1 : 12 ≤ (b - a) / 4 := by omega
    have hq2 : (b - a) / 4 * 4 ≤ b - a := Nat.div_mul_le_self _ _
    generalize (b - a) / 4 = q at hq1 hq2
    obtain ⟨m1, sw1, e1, hm1, hs1⟩ := median_spec s (a + q * 1 - 1)
      (a + q * 1) (a + q * 1 + 1) 0 (by omega) (by omega) (by omega)
    obtain ⟨m2, sw2, e2, hm2, hs2⟩ := median_spec s (a + q * 2 - 1)
      (a + q * 2) (a + q * 2 + 1) sw1 (by omega) (by omega) (by omega)
    obtain ⟨m3, sw3, e3, hm3, hs3⟩ := median_spec s (a + q * 3 - 1)
      (a + q * 3) (a + q * 3 + 1) sw2 (by omega) (by omega) (by omega)
    have b1 : a + q - 1 ≤ m1 ∧ m1 ≤ a + q + 1 := by omega
    have b2 : a + q * 2 - 1 ≤ m2 ∧ m2 ≤ a + q * 2 + 1 := by omega
    have b3 : a + q * 3 - 1 ≤ m3 ∧ m3 ≤ a + q * 3 + 1 := by omega
    clear hm1 hm2 hm3
    rw [exec_bind_eq, e1]
    simp only
    rw [exec_bind_eq, e2]
    simp only
    rw [exec_bind_eq, e3]
    simp only
    refine med m1 m2 m3 sw3 (by omega) (by omega) (by omega) (by omega) ?_
    intro h
    have q1 := hs1 (h _ _ (by omega) (by omega) (by omega)) (h _ _ (by omega) (by omega) (by omega))
    have q2 := hs2 (h _ _ (by omega) (by omega) (by omega)) (h _ _ (by omega) (by omega) (by omega))
    have q3 := hs3 (h _ _ (by omega) (by omega) (by omega)) (h _ _ (by omega) (by omega) (by omega))
    rw [q3.2, q2.2, q1.2]
  · rw [if_neg h50]
    exact med _ _ _ 0 (by omega) (by omega) (by omega) (by omega) (fun _ => rfl)

/-! #### `partialInsertionSort` -/

theorem LowerBounded.within {a b : Nat} {s s1 : byAlertStateAndNameSorter}
    (h : LowerBounded a b s) (w : Within a b s s1) : LowerBounded a b s1 := by
  rcases h with h | h
  · exact Or.inl h
  · by_cases ha : a = 0
    · exact Or.inl ha
    · refine Or.inr ?_
      rw [w.2.1 (a - 1) (by omega)]
      exact w.lower _ h

theorem LowerBounded.narrow {a b b1 : Nat} {s : byAlertStateAndNameSorter}
    (h : LowerBounded a b s) (hb : b1 ≤ b) : LowerBounded a b1 s := by
  rcases h with h | h
  · exact Or.inl h
  · exact Or.inr (fun k h1 h2 => h k h1 (by omega))

theorem SortedOn.extend {a i : Nat} {s : byAlertStateAndNameSorter} (h : SortedOn a i s)
    (hai : a < i) :
    ∀ i1, (∀ k, i ≤ k → k < i1 → keyAt s (k - 1) ≤ keyAt s k) → SortedOn a i1 s
  | 0, _ => fun p q _ _ hq => by omega
  | i1 + 1, hadj => by
    have ih := SortedOn.extend h hai i1 (fun k h1 h2 => hadj k h1 (by omega))
    intro p q hp hpq hq
    by_cases hq1 : q < i1
    · exact ih p q hp hpq hq1
    · have hqe : q = i1 := by omega
      subst hqe
      by_cases hqi : q < i
      · exact h p q hp hpq hqi
      · have h1 := hadj q (by omega) (by omega)
        by_cases hp1 : p = q - 1
        · rw [hp1]
          exact h1
        · exact le_trans (ih p (q - 1) hp (by omega) (by omega)) h1

theorem partialScan_spec (s : byAlertStateAndNameSorter) (b : Nat) (hb : b ≤ s.Len) :
    ∀ (f i : Nat), 0 < f → b < f + i → 1 ≤ i → i ≤ b →
      ∃ i1, (partialScan b f i).exec s = some (i1, s) ∧ i ≤ i1 ∧ i1 ≤ b ∧
        (∀ k, i ≤ k → k < i1 → keyAt s (k - 1) ≤ keyAt s k) ∧
        (i1 < b → keyAt s i1 < keyAt s (i1 - 1))
  | 0, i, h0, _, _, _ => absurd h0 (lt_irrefl _)
  | f + 1, i, _, hf, hi, hib => by
    unfold partialScan
    by_cases hlt : i < b
    · rw [if_pos hlt, exec_bind_eq, exec_Less s i (i - 1) (by omega) (by omega)]
      by_cases hl : keyAt s i < keyAt s (i - 1)
      · simp only [hl, decide_True, Bool.not_true, Bool.false_eq_true, if_false, exec_pure_eq]
        exact ⟨i, rfl, le_refl _, hib, fun k h1 h2 => by omega, fun _ => hl⟩
      · simp only [hl, decide_False, Bool.not_false, if_true]
        obtain ⟨i1, e, h1, h2, h3, h4⟩ := partialScan_spec s b hb f (i + 1) (by omega)
          (by omega) (by omega) (by omega)
        refine ⟨i1, e, by omega, h2, ?_, h4⟩
        intro k hk1 hk2
        by_cases hki : k = i
        · rw [hki]
          exact not_lt.1 hl
        · exact h3 k (by omega) hk2
    · rw [if_neg hlt, exec_pure_eq]
      exact ⟨i, rfl, le_refl _, hib, fun k h1 h2 => by omega, fun h => absurd h hlt⟩

theorem shiftLeft_spec (a top : Nat) :
    ∀ (j : Nat) (s : byAlertStateAndNameSorter), a ≤ j → j ≤ top → top < s.Len →
      LowerBounded a (top + 1) s →
      (∀ p q, a ≤ p → p < q → q ≤ top → p ≠ j → q ≠ j → keyAt s p ≤ keyAt s q) →
      (∀ q, j < q → q ≤ top → keyAt s j ≤ keyAt s q) →
      ∃ s1, (shiftLeft j).exec s = some ((), s1) ∧ Within a (top + 1) s s1 ∧
        SortedOn a (top + 1) s1
  | 0, s, ha, _, _, _, hA, hB => by
    refine ⟨s, rfl, Within.refl _ _ _, ?_⟩
    intro p q hp hpq hq
    by_cases hp0 : p = 0
    · subst hp0
      exact hB q hpq (by omega)
    · exact hA p q hp hpq (by omega) hp0 (by omega)
  | j + 1, s, ha, hjt, hlen, hlow, hA, hB => by
    unfold shiftLeft
    rw [exec_bind_eq, exec_Less s (j + 1) j (by omega) (by omega)]
    by_cases hlt : keyAt s (j + 1) < keyAt s j
    · simp only [hlt, decide_True, Bool.not_true, Bool.false_eq_true, if_false]
      have haj : a ≤ j := by
        by_contra hc
        have ha1 : a = j + 1 := by omega
        rcases hlow with h0 | hl
        · omega
        · have := hl (j + 1) (by omega) (by omega)
          rw [ha1, Nat.add_sub_cancel] at this
          exact absurd hlt (not_lt.2 this)
      rw [exec_bind_eq, exec_Swap s (j + 1) j (by omega) (by omega)]
      simp only
      have hk := keyAt_swapped s (j + 1) j (by omega) (by omega)
      have w0 : Within a (top + 1) s (swapped s (j + 1) j) :=
        Within_swapped a (top + 1) s (j + 1) j (by omega) (by omega) haj (by omega) (by omega)
      have hA1 : ∀ p q, a ≤ p → p < q → q ≤ top → p ≠ j → q ≠ j →
          keyAt (swapped s (j + 1) j) p ≤ keyAt (swapped s (j + 1) j) q := by
        intro p q hp hpq hq hpj hqj
        rw [hk p, hk q, if_neg hpj, if_neg hqj]
        by_cases hp1 : p = j + 1
        · rw [if_pos hp1, if_neg (by omega)]
          exact hA j q (by omega) (by omega) hq (by omega) (by omega)
        · rw [if_neg hp1]
          by_cases hq1 : q = j + 1
          · rw [if_pos hq1]
            exact hA p j hp (by omega) (by omega) hp1 (by omega)
          · rw [if_neg hq1]
            exact hA p q hp hpq hq hp1 hq1
      have hB1 : ∀ q, j < q → q ≤ top →
          keyAt (swapped s (j + 1) j) j ≤ keyAt (swapped s (j + 1) j) q := by
        intro q hjq hq
        rw [hk j, hk q, if_pos rfl, if_neg (by omega)]
        by_cases hq1 : q = j + 1
        · rw [if_pos hq1]
          exact le_of_lt hlt
        · rw [if_neg hq1]
          exact hB q (by omega) hq
      obtain ⟨s1, h1, h2, h3⟩ := shiftLeft_spec a top j (swapped s (j + 1) j)
        haj (by omega) (by rw [Len_swapped]; exact hlen) (hlow.within w0) hA1 hB1
      exact ⟨s1, h1, w0.trans h2, h3⟩
    · simp only [hlt, decide_False, Bool.not_false, if_true, exec_pure_eq]
      refine ⟨s, rfl, Within.refl _ _ _, ?_⟩
      rw [not_lt] at hlt
      intro p q hp hpq hq
      by_cases hp1 : p = j + 1
      · subst hp1
        exact hB q hpq (by omega)
      · by_cases hq1 : q = j + 1
        · subst hq1
          by_cases hpj : p = j
          · subst hpj
            exact hlt
          · exact le_trans (hA p j hp (by omega) (by omega) hp1 (by omega)) hlt
        · exact hA p q hp hpq (by omega) hp1 hq1

theorem shiftRight_spec (lo b : Nat) :
    ∀ (n j : Nat) (s : byAlertStateAndNameSorter), lo + 1 ≤ j → j + n ≤ b → b ≤ s.Len →
      ∃ s1, (shiftRight n j).exec s = some ((), s1) ∧ Within lo b s s1
  | 0, j, s, _, _, _ => ⟨s, rfl, Within.refl _ _ _⟩
  | n + 1, j, s, hj, hn, hb => by
    unfold shiftRight
    rw [exec_bind_eq, exec_Less s j (j - 1) (by omega) (by omega)]
    by_cases hlt : keyAt s j < keyAt s (j - 1)
    · simp only [hlt, decide_True, Bool.not_true, Bool.false_eq_true, if_false]
      rw [exec_bind_eq, exec_Swap s j (j - 1) (by omega) (by omega)]
      simp only
      obtain ⟨s1, e, w⟩ := shiftRight_spec lo b n (j + 1) (swapped s j (j - 1)) (by omega)
        (by omega) (by rw [Len_swapped]; exact hb)
      refine ⟨s1, e, ?_⟩
      exact (Within_swapped lo b s j (j - 1) (by omega) (by omega) (by omega) (by omega)
        hb).trans w
    · simp only [hlt, decide_False, Bool.not_false, if_true, exec_pure_eq]
      exact ⟨s, rfl, Within.refl _ _ _⟩

theorem partialInsertionLoop_spec (a b : Nat) :
    ∀ (n i : Nat) (s : byAlertStateAndNameSorter), a + 1 ≤ i → i ≤ b → b ≤ s.Len →
      LowerBounded a b s → SortedOn a i s →
      ∃ r s1, (partialInsertionLoop a b n i).exec s = some (r, s1) ∧ Within a b s s1 ∧
        (r = true → SortedOn a b s1)
  | 0, i, s, _, _, _, _, _ =>
    ⟨false, s, rfl, Within.refl _ _ _, fun h => absurd h Bool.false_ne_true⟩
  | n + 1, i, s, hai, hib, hlen, hlow, hs => by
    unfold partialInsertionLoop
    simp only [pure_bind_eq]
    obtain ⟨i1, e1, c1, c2, c3, c4⟩ := partialScan_spec s b hlen (b + 1) i (by omega)
      (by omega) (by omega) hib
    have hs1 : SortedOn a i1 s := hs.extend (by omega) i1 c3
    rw [exec_bind_eq, e1]
    simp only
    by_cases hib1 : i1 = b
    · rw [if_pos hib1, exec_pure_eq]
      rw [hib1] at hs1
      exact ⟨true, s, rfl, Within.refl _ _ _, fun _ => hs1⟩
    · rw [if_neg hib1]
      by_cases h50 : b - a < 50
      · rw [if_pos h50, exec_pure_eq]
        exact ⟨false, s, rfl, Within.refl _ _ _, fun h => absurd h Bool.false_ne_true⟩
      · rw [if_neg h50, exec_bind_eq, exec_Swap s i1 (i1 - 1) (by omega) (by omega)]
        simp only
        have w0 : Within a b s (swapped s i1 (i1 - 1)) :=
          Within_swapped a b s i1 (i1 - 1) (by omega) (by omega) (by omega) (by omega) hlen
        have hk := keyAt_swapped s i1 (i1 - 1) (by omega) (by omega)
        -- the rest of the step, from a state whose prefix is ordered
        have right : ∀ s2 : byAlertStateAndNameSorter, Within a b s s2 → SortedOn a i1 s2 →
            ∃ r s3,
              (if b - i1 ≥ 2 then
                  shiftRight (b - (i1 + 1)) (i1 + 1) >>= fun _ => partialInsertionLoop a b n i1
                else partialInsertionLoop a b n i1).exec s2 = some (r, s3) ∧
              Within a b s s3 ∧ (r = true → SortedOn a b s3) := by
          intro s2 w2 o2
          have hlen2 : b ≤ s2.Len := by rw [w2.1]; exact hlen
          by_cases hr : b - i1 ≥ 2
          · rw [if_pos hr]
            obtain ⟨s3, e3, w3⟩ := shiftRight_spec i1 b (b - (i1 + 1)) (i1 + 1) s2 (le_refl _)
              (by omega) hlen2
            have w23 : Within a b s s3 := w2.trans (w3.mono (by omega) (le_refl _))
            obtain ⟨r, s4, e4, w4, o4⟩ := partialInsertionLoop_spec a b n i1 s3 (by omega)
              (by omega) (by rw [w3.1]; exact hlen2) (hlow.within w23)
              (o2.of_eq (fun k _ hk2 => w3.2.1 k (by omega)))
            rw [exec_bind_eq, e3]
            exact ⟨r, s4, e4, w23.trans w4, o4⟩
          · rw [if_neg hr]
            obtain ⟨r, s4, e4, w4, o4⟩ := partialInsertionLoop_spec a b n i1 s2 (by omega)
              (by omega) hlen2 (hlow.within w2) o2
            exact ⟨r, s4, e4, w2.trans w4, o4⟩
        by_cases hl : i1 - a ≥ 2
        · rw [if_pos hl]
          obtain ⟨s2, e2, w2, o2⟩ := shiftLeft_spec a (i1 - 1) (i1 - 1)
            (swapped s i1 (i1 - 1)) (by omega) (le_refl _) (by rw [Len_swapped]; omega)
            (by
              rw [show i1 - 1 + 1 = i1 by omega]
              exact (hlow.within w0).narrow (by omega))
            (by
              intro p q hp hpq hq hp1 hq1
              rw [hk p, hk q, if_neg hp1, if_neg hq1, if_neg (by omega), if_neg (by omega)]
              exact hs1 p q hp hpq (by omega))
            (fun q hq1 hq2 => by omega)
          rw [show i1 - 1 + 1 = i1 by omega] at w2 o2
          rw [exec_bind_eq, e2]
          exact right s2 (w0.trans (w2.mono (le_refl _) (by omega))) o2
        · rw [if_neg hl]
          exact right _ w0 (fun p q hp hpq hq => by omega)

theorem partialInsertionSort_spec (a b : Nat) (s : byAlertStateAndNameSorter)
    (hab : a < b) (hlen : b ≤ s.Len) (hlow : LowerBounded a b s) :
    ∃ r s1, (partialInsertionSort a b).exec s = some (r, s1) ∧ Within a b s s1 ∧
      (r = true → SortedOn a b s1) := by
  unfold partialInsertionSort
  exact partialInsertionLoop_spec a b 5 (a + 1) s (le_refl _) (by omega) hlen hlow
    (fun p q hp hpq hq => by omega)

theorem partialInsertionSort_sorted (a b : Nat) (s : byAlertStateAndNameSorter)
    (hab : a < b) (hlen : b ≤ s.Len) (hs : SortedOn a b s) :
    (partialInsertionSort a b).exec s = some (true, s) := by
  unfold partialInsertionSort partialInsertionLoop
  simp only [pure_bind_eq]
  obtain ⟨i1, e1, c1, c2, _, c4⟩ := partialScan_spec s b hlen (b + 1) (a + 1) (by omega)
    (by omega) (by omega) (by omega)
  have hb : i1 = b := by
    by_contra hne
    have h1 := c4 (by omega)
    exact absurd h1 (not_lt.2 (hs (i1 - 1) i1 (by omega) (by omega) (by omega)))
  rw [exec_bind_eq, e1]
  simp only
  rw [if_pos hb, exec_pure_eq]

/-! #### `partition` and `partitionEqual` -/

theorem partitionLoopI_spec (s : byAlertStateAndNameSorter) (a j : Nat) (ha : a < s.Len)
    (hj : j < s.Len) :
    ∀ (f i : Nat), 0 < f → j + 1 < f + i →
      ∃ i1, (partitionLoopI a j f i).exec s = some (i1, s) ∧ i ≤ i1 ∧
        (i ≤ j + 1 → i1 ≤ j + 1) ∧
        (∀ k, i ≤ k → k < i1 → keyAt s k < keyAt s a) ∧
        (i1 ≤ j → ¬ keyAt s i1 < keyAt s a)
  | 0, i, h0, _ => absurd h0 (lt_irrefl _)
  | f + 1, i, _, hf => by
    unfold partitionLoopI
    by_cases hij : i ≤ j
    · rw [if_pos hij, exec_bind_eq, exec_Less s i a (by omega) ha]
      by_cases hl : keyAt s i < keyAt s a
      · simp only [hl, decide_True, if_true]
        obtain ⟨i1, e, h1, h2, h3, h4⟩ := partitionLoopI_spec s a j ha hj f (i + 1) (by omega)
          (by omega)
        refine ⟨i1, e, by omega, fun _ => h2 (by omega), ?_, h4⟩
        intro k hk1 hk2
        by_cases hki : k = i
        · rw [hki]
          exact hl
        · exact h3 k (by omega) hk2
      · simp only [hl, decide_False, Bool.false_eq_true, if_false, exec_pure_eq]
        exact ⟨i, rfl, le_refl _, fun h => h, fun k h1 h2 => by omega, fun _ => hl⟩
    · rw [if_neg hij, exec_pure_eq]
      exact ⟨i, rfl, le_refl _, fun h => h, fun k h1 h2 => by omega, fun h => absurd h hij⟩

theorem partitionLoopJ_spec (s : byAlertStateAndNameSorter) (a i : Nat) (ha : a < s.Len)
    (hi : 1 ≤ i) :
    ∀ (f j : Nat), 0 < f → j + 1 < f + i → j < s.Len →
      ∃ j1, (partitionLoopJ a i f j).exec s = some (j1, s) ∧ j1 ≤ j ∧
        (i ≤ j + 1 → i ≤ j1 + 1) ∧
        (∀ k, j1 < k → k ≤ j → keyAt s a ≤ keyAt s k) ∧
        (i ≤ j1 → keyAt s j1 < keyAt s a)
  | 0, j, h0, _, _ => absurd h0 (lt_irrefl _)
  | f + 1, j, _, hf, hj => by
    unfold partitionLoopJ
    by_cases hij : i ≤ j
    · rw [if_pos hij, exec_bind_eq, exec_Less s j a hj ha]
      by_cases hl : keyAt s j < keyAt s a
      · simp only [hl, decide_True, Bool.not_true, Bool.false_eq_true, if_false, exec_pure_eq]
        exact ⟨j, rfl, le_refl _, fun h => h, fun k h1 h2 => by omega, fun _ => hl⟩
      · simp only [hl, decide_False, Bool.not_false, if_true]
        obtain ⟨j1, e, h1, h2, h3, h4⟩ := partitionLoopJ_spec s a i ha hi f (j - 1) (by omega)
          (by omega) (by omega)
        refine ⟨j1, e, by omega, fun _ => h2 (by omega), ?_, h4⟩
        intro k hk1 hk2
        by_cases hkj : k = j
        · rw [hkj]
          exact not_lt.1 hl
        · exact h3 k hk1 (by omega)
    · rw [if_neg hij, exec_pure_eq]
      exact ⟨j, rfl, le_refl _, fun h => h, fun k h1 h2 => by omega, fun h => absurd h hij⟩

theorem partitionLoop_spec (a b n : Nat) (hn : b < n) :
    ∀ (f i j : Nat) (s : byAlertStateAndNameSorter), j + 1 < f + i → a + 1 ≤ i →
      i ≤ j + 1 → j < b → b ≤ s.Len →
      (∀ k, a + 1 ≤ k → k < i → keyAt s k ≤ keyAt s a) →
      (∀ k, j < k → k < b → keyAt s a ≤ keyAt s k) →
      ∃ j1 s1, (partitionLoop a n f i j).exec s = some (j1, s1) ∧ Within (a + 1) b s s1 ∧
        a ≤ j1 ∧ j1 < b ∧
        (∀ k, a + 1 ≤ k → k ≤ j1 → keyAt s1 k ≤ keyAt s1 a) ∧
        (∀ k, j1 < k → k < b → keyAt s1 a ≤ keyAt s1 k)
  | 0, i, j, s, hf, _, hij, _, _, _, _ => by omega
  | f + 1, i, j, s, hf, hai, hij, hjb, hlen, hL, hG => by
    unfold partitionLoop
    obtain ⟨i1, e1, p1, p2, p3, p4⟩ := partitionLoopI_spec s a j (by omega) (by omega) n i
      (by omega) (by omega)
    obtain ⟨j1, e2, r1, r2, r3, r4⟩ := partitionLoopJ_spec s a i1 (by omega) (by omega) n j
      (by omega) (by omega) (by omega)
    have hi1 := p2 hij
    have hj1 := r2 hi1
    have hL1 : ∀ k, a + 1 ≤ k → k < i1 → keyAt s k ≤ keyAt s a := by
      intro k hk1 hk2
      by_cases hki : k < i
      · exact hL k hk1 hki
      · exact le_of_lt (p3 k (by omega) hk2)
    have hG1 : ∀ k, j1 < k → k < b → keyAt s a ≤ keyAt s k := by
      intro k hk1 hk2
      by_cases hkj : k ≤ j
      · exact r3 k hk1 hkj
      · exact hG k (by omega) hk2
    rw [exec_bind_eq, e1]
    simp only
    rw [exec_bind_eq, e2]
    simp only
    by_cases hgt : i1 > j1
    · rw [if_pos hgt, exec_pure_eq]
      exact ⟨j1, s, rfl, Within.refl _ _ _, by omega, by omega,
        fun k h1 h2 => hL1 k h1 (by omega), hG1⟩
    · rw [if_neg hgt, exec_bind_eq, exec_Swap s i1 j1 (by omega) (by omega)]
      simp only
      have q1 := p4 (by omega)
      have q2 := r4 (by omega)
      have hne : i1 ≠ j1 := by
        intro h
        rw [h] at q1
        exact q1 q2
      have hk := keyAt_swapped s i1 j1 (by omega) (by omega)
      have hka : keyAt (swapped s i1 j1) a = keyAt s a := by
        rw [hk a, if_neg (by omega), if_neg (by omega)]
      obtain ⟨j2, s1, e3, w, m1, m2, l1, g1⟩ := partitionLoop_spec a b n hn f (i1 + 1) (j1 - 1)
        (swapped s i1 j1) (by omega) (by omega) (by omega) (by omega)
        (by rw [Len_swapped]; exact hlen)
        (by
          intro k hk1 hk2
          rw [hka, hk k, if_neg (by omega)]
          by_cases hki : k = i1
          · rw [if_pos hki]
            exact le_of_lt q2
          · rw [if_neg hki]
            exact hL1 k hk1 (by omega))
        (by
          intro k hk1 hk2
          rw [hka, hk k]
          by_cases hkj : k = j1
          · rw [if_pos hkj]
            exact not_lt.1 q1
          · rw [if_neg hkj, if_neg (by omega)]
            exact hG1 k (by omega) hk2)
      refine ⟨j2, s1, e3, ?_, m1, m2, l1, g1⟩
      exact (Within_swapped (a + 1) b s i1 j1 (by omega) (by omega) (by omega) (by omega)
        hlen).trans w

/-- The last step of `partition`: the pivot goes from `a` to its place `j`. -/
theorem partition_place (a b j : Nat) (s : byAlertStateAndNameSorter) (haj : a ≤ j)
    (hjb : j < b) (hlen : b ≤ s.Len)
    (hL : ∀ k, a + 1 ≤ k → k ≤ j → keyAt s k ≤ keyAt s a)
    (hG : ∀ k, j < k → k < b → keyAt s a ≤ keyAt s k) :
    Within a b s (swapped s j a) ∧ Partitioned a b j (j + 1) (swapped s j a) := by
  have hk := keyAt_swapped s j a (by omega) (by omega)
  have hm : keyAt (swapped s j a) j = keyAt s a := keyAt_swapped_left s j a (by omega) (by omega)
  refine ⟨Within_swapped a b s j a haj hjb (le_refl _) (by omega) hlen, haj, by omega, by omega,
    ?_, ?_, ?_⟩
  · intro k hk1 hk2
    rw [hm, hk k]
    by_cases hka : k = a
    · rw [if_pos hka]
      by_cases hja : j = a
      · rw [hja]
      · exact hL j (by omega) (le_refl _)
    · rw [if_neg hka, if_neg (by omega)]
      exact hL k (by omega) (by omega)
  · intro k hk1 hk2
    have : k = j := by omega
    rw [this]
  · intro k hk1 hk2
    rw [hm, hk k, if_neg (by omega), if_neg (by omega)]
    exact hG k (by omega) hk2

theorem partition_spec (a b pivot : Nat) (s : byAlertStateAndNameSorter) (hap : a ≤ pivot)
    (hpb : pivot < b) (hlen : b ≤ s.Len) :
    ∃ mid ap s1, (partition a b pivot).exec s = some ((mid, ap), s1) ∧ Within a b s s1 ∧
      Partitioned a b mid (mid + 1) s1 := by
  unfold partition
  simp only [pure_bind_eq]
  rw [exec_bind_eq, exec_Swap s a pivot (by omega) (by omega)]
  simp only
  have w0 : Within a b s (swapped s a pivot) :=
    Within_swapped a b s a pivot (le_refl _) (by omega) hap hpb hlen
  have hlen0 : b ≤ (swapped s a pivot).Len := by rw [Len_swapped]; exact hlen
  generalize swapped s a pivot = s0 at w0 hlen0
  obtain ⟨i1, e1, p1, p2, p3, p4⟩ := partitionLoopI_spec s0 a (b - 1) (by omega) (by omega)
    (b + 1) (a + 1) (by omega) (by omega)
  obtain ⟨j1, e2, r1, r2, r3, r4⟩ := partitionLoopJ_spec s0 a i1 (by omega) (by omega) (b + 1)
    (b - 1) (by omega) (by omega) (by omega)
  have hi1 := p2 (by omega)
  have hj1 := r2 hi1
  rw [exec_bind_eq, e1]
  simp only
  rw [exec_bind_eq, e2]
  simp only
  by_cases hgt : i1 > j1
  · rw [if_pos hgt, exec_bind_eq, exec_Swap s0 j1 a (by omega) (by omega)]
    simp only [exec_pure_eq]
    have hp := partition_place a b j1 s0 (by omega) (by omega) hlen0
      (fun k h1 h2 => le_of_lt (p3 k h1 (by omega))) (fun k h1 h2 => r3 k h1 (by omega))
    exact ⟨j1, true, _, rfl, w0.trans hp.1, hp.2⟩
  · rw [if_neg hgt, exec_bind_eq, exec_Swap s0 i1 j1 (by omega) (by omega)]
    simp only
    have q1 := p4 (by omega)
    have q2 := r4 (by omega)
    have hne : i1 ≠ j1 := by
      intro h
      rw [h] at q1
      exact q1 q2
    have hk := keyAt_swapped s0 i1 j1 (by omega) (by omega)
    have hka : keyAt (swapped s0 i1 j1) a = keyAt s0 a := by
      rw [hk a, if_neg (by omega), if_neg (by omega)]
    obtain ⟨j2, s1, e3, w, m1, m2, l1, g1⟩ := partitionLoop_spec a b (b + 1) (by omega) (b + 1)
      (i1 + 1) (j1 - 1) (swapped s0 i1 j1) (by omega) (by omega) (by omega) (by omega)
      (by rw [Len_swapped]; exact hlen0)
      (by
        intro k hk1 hk2
        rw [hka, hk k, if_neg (by omega)]
        by_cases hki : k = i1
        · rw [if_pos hki]
          exact le_of_lt q2
        · rw [if_neg hki]
          exact le_of_lt (p3 k hk1 (by omega)))
      (by
        intro k hk1 hk2
        rw [hka, hk k]
        by_cases hkj : k = j1
        · rw [if_pos hkj]
          exact not_lt.1 q1
        · rw [if_neg hkj, if_neg (by omega)]
          exact r3 k (by omega) (by omega))
    have hlen1 : b ≤ s1.Len := by rw [w.1, Len_swapped]; exact hlen0
    have hp := partition_place a b j2 s1 m1 m2 hlen1 l1 g1
    rw [exec_bind_eq, e3]
    simp only
    rw [exec_bind_eq, exec_Swap s1 j2 a (by omega) (by omega)]
    simp only [exec_pure_eq]
    refine ⟨j2, false, _, rfl, ?_, hp.2⟩
    exact ((w0.trans (Within_swapped a b s0 i1 j1 (by omega) (by omega) (by omega) (by omega)
      hlen0)).trans (w.mono (by omega) (le_refl _))).trans hp.1

theorem partitionEqualLoopI_spec (s : byAlertStateAndNameSorter) (a j : Nat) (ha : a < s.Len)
    (hj : j < s.Len) :
    ∀ (f i : Nat), 0 < f → j + 1 < f + i →
      ∃ i1, (partitionEqualLoopI a j f i).exec s = some (i1, s) ∧ i ≤ i1 ∧
        (i ≤ j + 1 → i1 ≤ j + 1) ∧
        (∀ k, i ≤ k → k < i1 → keyAt s k ≤ keyAt s a) ∧
        (i1 ≤ j → keyAt s a < keyAt s i1)
  | 0, i, h0, _ => absurd h0 (lt_irrefl _)
  | f + 1, i, _, hf => by
    unfold partitionEqualLoopI
    by_cases hij : i ≤ j
    · rw [if_pos hij, exec_bind_eq, exec_Less s a i ha (by omega)]
      by_cases hl : keyAt s a < keyAt s i
      · simp only [hl, decide_True, Bool.not_true, Bool.false_eq_true, if_false, exec_pure_eq]
        exact ⟨i, rfl, le_refl _, fun h => h, fun k h1 h2 => by omega, fun _ => hl⟩
      · simp only [hl, decide_False, Bool.not_false, if_true]
        obtain ⟨i1, e, h1, h2, h3, h4⟩ := partitionEqualLoopI_spec s a j ha hj f (i + 1)
          (by omega) (by omega)
        refine ⟨i1, e, by omega, fun _ => h2 (by omega), ?_, h4⟩
        intro k hk1 hk2
        by_cases hki : k = i
        · rw [hki]
          exact not_lt.1 hl
        · exact h3 k (by omega) hk2
    · rw [if_neg hij, exec_pure_eq]
      exact ⟨i, rfl, le_refl _, fun h => h, fun k h1 h2 => by omega, fun h => absurd h hij⟩

theorem partitionEqualLoopJ_spec (s : byAlertStateAndNameSorter) (a i : Nat) (ha : a < s.Len)
    (hi : 1 ≤ i) :
    ∀ (f j : Nat), 0 < f → j + 1 < f + i → j < s.Len →
      ∃ j1, (partitionEqualLoopJ a i f j).exec s = some (j1, s) ∧ j1 ≤ j ∧
        (i ≤ j + 1 → i ≤ j1 + 1) ∧
        (i ≤ j1 → keyAt s j1 ≤ keyAt s a)
  | 0, j, h0, _, _ => absurd h0 (lt_irrefl _)
  | f + 1, j, _, hf, hj => by
    unfold partitionEqualLoopJ
    by_cases hij : i ≤ j
    · rw [if_pos hij, exec_bind_eq, exec_Less s a j ha hj]
      by_cases hl : keyAt s a < keyAt s j
      · simp only [hl, decide_True, if_true]
        obtain ⟨j1, e, h1, h2, h4⟩ := partitionEqualLoopJ_spec s a i ha hi f (j - 1) (by omega)
          (by omega) (by omega)
        exact ⟨j1, e, by omega, fun _ => h2 (by omega), h4⟩
      · simp only [hl, decide_False, Bool.false_eq_true, if_false, exec_pure_eq]
        exact ⟨j, rfl, le_refl _, fun h => h, fun _ => not_lt.1 hl⟩
    · rw [if_neg hij, exec_pure_eq]
      exact ⟨j, rfl, le_refl _, fun h => h, fun h => absurd h hij⟩

theorem partitionEqualLoop_spec (a b n : Nat) (hn : b < n) :
    ∀ (f i j : Nat) (s : byAlertStateAndNameSorter), j + 1 < f + i → a + 1 ≤ i →
      i ≤ j + 1 → j < b → b ≤ s.Len →
      (∀ k, a + 1 ≤ k → k < i → keyAt s k ≤ keyAt s a) →
      ∃ i1 s1, (partitionEqualLoop a n f i j).exec s = some (i1, s1) ∧
        Within (a + 1) b s s1 ∧ a + 1 ≤ i1 ∧ i1 ≤ b ∧
        (∀ k, a + 1 ≤ k → k < i1 → keyAt s1 k ≤ keyAt s1 a)
  | 0, i, j, s, hf, _, hij, _, _, _ => by omega
  | f + 1, i, j, s, hf, hai, hij, hjb, hlen, hL => by
    unfold partitionEqualLoop
    obtain ⟨i1, e1, p1, p2, p3, p4⟩ := partitionEqualLoopI_spec s a j (by omega) (by omega) n i
      (by omega) (by omega)
    obtain ⟨j1, e2, r1, r2, r4⟩ := partitionEqualLoopJ_spec s a i1 (by omega) (by omega) n j
      (by omega) (by omega) (by omega)
    have hi1 := p2 hij
    have hj1 := r2 hi1
    have hL1 : ∀ k, a + 1 ≤ k → k < i1 → keyAt s k ≤ keyAt s a := by
      intro k hk1 hk2
      by_cases hki : k < i
      · exact hL k hk1 hki
      · exact p3 k (by omega) hk2
    rw [exec_bind_eq, e1]
    simp only
    rw [exec_bind_eq, e2]
    simp only
    by_cases hgt : i1 > j1
    · rw [if_pos hgt, exec_pure_eq]
      exact ⟨i1, s, rfl, Within.refl _ _ _, by omega, by omega, hL1⟩
    · rw [if_neg hgt, exec_bind_eq, exec_Swap s i1 j1 (by omega) (by omega)]
      simp only
      have q1 := p4 (by omega)
      have q2 := r4 (by omega)
      have hne : i1 ≠ j1 := by
        intro h
        rw [h] at q1
        exact absurd q1 (not_lt.2 q2)
      have hk := keyAt_swapped s i1 j1 (by omega) (by omega)
      have hka : keyAt (swapped s i1 j1) a = keyAt s a := by
        rw [hk a, if_neg (by omega), if_neg (by omega)]
      obtain ⟨i2, s1, e3, w, m1, m2, l1⟩ := partitionEqualLoop_spec a b n hn f (i1 + 1)
        (j1 - 1) (swapped s i1 j1) (by omega) (by omega) (by omega) (by omega)
        (by rw [Len_swapped]; exact hlen)
        (by
          intro k hk1 hk2
          rw [hka, hk k, if_neg (by omega)]
          by_cases hki : k = i1
          · rw [if_pos hki]
            exact q2
          · rw [if_neg hki]
            exact hL1 k hk1 (by omega))
      refine ⟨i2, s1, e3, ?_, m1, m2, l1⟩
      exact (Within_swapped (a + 1) b s i1 j1 (by omega) (by omega) (by omega) (by omega)
        hlen).trans w

theorem partitionEqual_spec (a b pivot : Nat) (s : byAlertStateAndNameSorter)
    (hap : a ≤ pivot) (hpb : pivot < b) (hlen : b ≤ s.Len)
    (hmin : ∀ k, a ≤ k → k < b → keyAt s pivot ≤ keyAt s k) :
    ∃ mid s1, (partitionEqual a b pivot).exec s = some (mid, s1) ∧ Within a b s s1 ∧
      Partitioned a b a mid s1 := by
  unfold partitionEqual
  rw [exec_bind_eq, exec_Swap s a pivot (by omega) (by omega)]
  simp only
  have w0 : Within a b s (swapped s a pivot) :=
    Within_swapped a b s a pivot (le_refl _) (by omega) hap hpb hlen
  have hlen0 : b ≤ (swapped s a pivot).Len := by rw [Len_swapped]; exact hlen
  have hp : keyAt (swapped s a pivot) a = keyAt s pivot :=
    keyAt_swapped_left s a pivot (by omega) (by omega)
  have hmin0 := w0.lower _ hmin
  rw [← hp] at hmin0
  generalize swapped s a pivot = s0 at w0 hlen0 hmin0
  obtain ⟨i1, s1, e, w, m1, m2, l1⟩ := partitionEqualLoop_spec a b (b + 1) (by omega) (b + 1)
    (a + 1) (b - 1) s0 (by omega) (le_refl _) (by omega) (by omega) hlen0
    (fun k h1 h2 => by omega)
  have hw : Within a b s0 s1 := w.mono (by omega) (le_refl _)
  have ha1 : keyAt s1 a = keyAt s0 a := w.2.1 a (by omega)
  have hmin1 := hw.lower _ hmin0
  rw [← ha1] at hmin1
  refine ⟨i1, s1, e, w0.trans hw, le_refl _, by omega, m2, fun k h1 h2 => by omega, ?_, ?_⟩
  · intro k hk1 hk2
    by_cases hka : k = a
    · rw [hka]
    · exact le_antisymm (l1 k (by omega) hk2) (hmin1 k hk1 (by omega))
  · intro k hk1 hk2
    exact hmin1 k (by omega) hk2

/-! #### `pdqsort` -/

theorem LowerBounded.of_same {a b : Nat} {s s1 : byAlertStateAndNameSorter}
    (h : LowerBounded a b s) (he : ∀ k, k < b → keyAt s1 k = keyAt s k) :
    LowerBounded a b s1 := by
  rcases h with h | h
  · exact Or.inl h
  · by_cases ha : a = 0
    · exact Or.inl ha
    · refine Or.inr (fun k hk1 hk2 => ?_)
      rw [he k hk2, he (a - 1) (by omega)]
      exact h k hk1 hk2

theorem pdqsort_spec (rnd : Nat → Nat → Nat) :
    ∀ (f a b limit : Nat) (wb wp : Bool) (s : byAlertStateAndNameSorter), b - a < f →
      b ≤ s.Len → LowerBounded a b s →
      ∃ s1, (pdqsort rnd f a b limit wb wp).exec s = some ((), s1) ∧ Within a b s s1 ∧
        SortedOn a b s1
  | 0, a, b, limit, wb, wp, s, hf, _, _ => by omega
  | f + 1, a, b, limit, wb, wp, s, hf, hlen, hlow => by
    have ih := pdqsort_spec rnd f
    let PART : Nat → Nat → SortM Unit := fun lim pivot =>
      partition a b pivot >>= fun d =>
        if d.1 - a < b - d.1 then
          pdqsort rnd f a d.1 lim true true >>= fun _ =>
            pdqsort rnd f (d.1 + 1) b lim (decide (d.1 - a ≥ (b - a) / 8)) d.2
        else
          pdqsort rnd f (d.1 + 1) b lim true true >>= fun _ =>
            pdqsort rnd f a d.1 lim (decide (b - d.1 ≥ (b - a) / 8)) d.2
    let EQ : Nat → Nat → SortM Unit := fun lim pivot =>
      partitionEqual a b pivot >>= fun mid => pdqsort rnd f mid b lim wb wp
    let CHOOSE : Nat → Nat → SortM Unit := fun lim pivot =>
      if a > 0 then
        SortM.Less (a - 1) pivot >>= fun l =>
          if (!l) = true then EQ lim pivot else PART lim pivot
      else if false = true then EQ lim pivot else PART lim pivot
    let SORTED : Nat → Nat → Bool → SortM Unit := fun lim pivot c =>
      if c = true then
        partialInsertionSort a b >>= fun y =>
          if y = true then pure () else CHOOSE lim pivot
      else if false = true then pure () else CHOOSE lim pivot
    let AFTER : Nat → SortM Unit := fun lim =>
      choosePivot a b >>= fun d =>
        if d.2 = sortedHint.decreasingHint then
          reverseRange a b >>= fun _ =>
            SORTED lim (b - 1 - (d.1 - a)) (wb && wp && decide True)
        else SORTED lim d.1 (wb && wp && decide (d.2 = sortedHint.increasingHint))
    have hPART : ∀ (lim pivot : Nat) (sD : byAlertStateAndNameSorter), a ≤ pivot →
        pivot < b → b ≤ sD.Len → LowerBounded a b sD →
        ∃ s1, (PART lim pivot).exec sD = some ((), s1) ∧ Within a b sD s1 ∧
          SortedOn a b s1 := by
      intro lim pivot sD hp1 hp2 hlenD hlowD
      obtain ⟨mid, ap, s1, e1, w1, p1⟩ := partition_spec a b pivot sD hp1 hp2 hlenD
      have hp := p1
      obtain ⟨a1, a2, a3, _, _, hG⟩ := hp
      show ∃ s1, (partition a b pivot >>= _).exec sD = _ ∧ _
      rw [exec_bind_eq, e1]
      simp only
      have hlow1 : LowerBounded a mid s1 := (hlowD.within w1).narrow (by omega)
      by_cases hside : mid - a < b - mid
      · rw [if_pos hside]
        obtain ⟨s2, e2, w2, o2⟩ := ih a mid lim true true s1 (by omega)
          (by rw [w1.1]; omega) hlow1
        have p2 := p1.within_left w2
        obtain ⟨s3, e3, w3, o3⟩ := ih (mid + 1) b lim (decide (mid - a ≥ (b - a) / 8)) ap s2
          (by omega) (by rw [w2.1, w1.1]; omega)
          (Or.inr (fun k hk1 hk2 => by
            rw [Nat.add_sub_cancel]
            exact p2.2.2.2.2.2 k hk1 hk2))
        rw [exec_bind_eq, e2]
        refine ⟨s3, e3, (w1.trans (w2.mono (le_refl _) (by omega))).trans
          (w3.mono (by omega) (le_refl _)), ?_⟩
        exact (p2.within_right w3).sorted (o2.of_eq (fun k _ hk2 => w3.2.1 k (by omega))) o3
      · rw [if_neg hside]
        obtain ⟨s2, e2, w2, o2⟩ := ih (mid + 1) b lim true true s1 (by omega)
          (by rw [w1.1]; omega)
          (Or.inr (fun k hk1 hk2 => by
            rw [Nat.add_sub_cancel]
            exact hG k hk1 hk2))
        have p2 := p1.within_right w2
        obtain ⟨s3, e3, w3, o3⟩ := ih a mid lim (decide (b - mid ≥ (b - a) / 8)) ap s2
          (by omega) (by rw [w2.1, w1.1]; omega)
          (hlow1.of_same (fun k hk => w2.2.1 k (by omega)))
        rw [exec_bind_eq, e2]
        refine ⟨s3, e3, (w1.trans (w2.mono (by omega) (le_refl _))).trans
          (w3.mono (le_refl _) (by omega)), ?_⟩
        exact (p2.within_left w3).sorted o3 (o2.of_eq (fun k hk1 _ => w3.2.1 k (by omega)))
    have hEQ : ∀ (lim pivot : Nat) (sD : byAlertStateAndNameSorter), a ≤ pivot →
        pivot < b → b ≤ sD.Len → LowerBounded a b sD → 0 < a →
        ¬ keyAt sD (a - 1) < keyAt sD pivot →
        ∃ s1, (EQ lim pivot).exec sD = some ((), s1) ∧ Within a b sD s1 ∧
          SortedOn a b s1 := by
      intro lim pivot sD hp1 hp2 hlenD hlowD ha0 hnl
      have hmin : ∀ k, a ≤ k → k < b → keyAt sD pivot ≤ keyAt sD k := by
        intro k hk1 hk2
        rcases hlowD with h0 | hl
        · omega
        · exact le_trans (not_lt.1 hnl) (hl k hk1 hk2)
      obtain ⟨mid, s1, e1, w1, p1⟩ := partitionEqual_spec a b pivot sD hp1 hp2 hlenD hmin
      have hp := p1
      obtain ⟨_, a2, a3, _, hE, hG⟩ := hp
      obtain ⟨s2, e2, w2, o2⟩ := ih mid b lim wb wp s1 (by omega) (by rw [w1.1]; exact hlenD)
        (Or.inr (fun k hk1 hk2 => by
          rw [hE (mid - 1) (by omega) (by omega)]
          exact hG k hk1 hk2))
      show ∃ s1, (partitionEqual a b pivot >>= _).exec sD = _ ∧ _
      rw [exec_bind_eq, e1]
      refine ⟨s2, e2, w1.trans (w2.mono (by omega) (le_refl _)), ?_⟩
      exact (p1.within_right w2).sorted (fun i j h1 h2 h3 => by omega) o2
    have hCHOOSE : ∀ (lim pivot : Nat) (sD : byAlertStateAndNameSorter), a ≤ pivot →
        pivot < b → b ≤ sD.Len → LowerBounded a b sD →
        ∃ s1, (CHOOSE lim pivot).exec sD = some ((), s1) ∧ Within a b sD s1 ∧
          SortedOn a b s1 := by
      intro lim pivot sD hp1 hp2 hlenD hlowD
      by_cases ha0 : a > 0
      · simp only [CHOOSE]
        rw [if_pos ha0, exec_bind_eq, exec_Less sD (a - 1) pivot (by omega) (by omega)]
        by_cases hl : keyAt sD (a - 1) < keyAt sD pivot
        · simp only [hl, decide_True, Bool.not_true, Bool.false_eq_true, if_false]
          exact hPART lim pivot sD hp1 hp2 hlenD hlowD
        · simp only [hl, decide_False, Bool.not_false, if_true]
          exact hEQ lim pivot sD hp1 hp2 hlenD hlowD ha0 hl
      · simp only [CHOOSE, ha0, Bool.false_eq_true, if_false]
        exact hPART lim pivot sD hp1 hp2 hlenD hlowD
    have hSORTED : ∀ (lim pivot : Nat) (c : Bool) (sD : byAlertStateAndNameSorter),
        a ≤ pivot → pivot < b → b ≤ sD.Len → LowerBounded a b sD →
        ∃ s1, (SORTED lim pivot c).exec sD = some ((), s1) ∧ Within a b sD s1 ∧
          SortedOn a b s1 := by
      intro lim pivot c sD hp1 hp2 hlenD hlowD
      cases c with
      | false =>
        simp only [SORTED, Bool.false_eq_true, if_false]
        exact hCHOOSE lim pivot sD hp1 hp2 hlenD hlowD
      | true =>
        simp only [SORTED, if_true]
        obtain ⟨r, s1, e1, w1, o1⟩ := partialInsertionSort_spec a b sD (by omega) hlenD hlowD
        rw [exec_bind_eq, e1]
        simp only
        cases r with
        | true =>
          simp only [if_true, exec_pure_eq]
          exact ⟨s1, rfl, w1, o1 rfl⟩
        | false =>
          simp only [Bool.false_eq_true, if_false]
          obtain ⟨s2, e2, w2, o2⟩ := hCHOOSE lim pivot s1 hp1 hp2 (by rw [w1.1]; exact hlenD)
            (hlowD.within w1)
          exact ⟨s2, e2, w1.trans w2, o2⟩
    have hAFTER : ∀ (lim : Nat) (sD : byAlertStateAndNameSorter), b ≤ sD.Len →
        LowerBounded a b sD → 12 < b - a →
        ∃ s1, (AFTER lim).exec sD = some ((), s1) ∧ Within a b sD s1 ∧ SortedOn a b s1 := by
      intro lim sD hlenD hlowD h12
      obtain ⟨pivot, hint, e1, c1, c2, _⟩ := choosePivot_spec a b sD h12 hlenD
      show ∃ s1, (choosePivot a b >>= _).exec sD = _ ∧ _
      rw [exec_bind_eq, e1]
      simp only
      by_cases hd : hint = sortedHint.decreasingHint
      · rw [if_pos hd]
        obtain ⟨s1, e2, w2⟩ := reverseRange_spec a b sD (by omega) hlenD
        obtain ⟨s2, e3, w3, o3⟩ := hSORTED lim (b - 1 - (pivot - a)) (wb && wp && decide True)
          s1 (by omega) (by omega) (by rw [w2.1]; exact hlenD) (hlowD.within w2)
        rw [exec_bind_eq, e2]
        exact ⟨s2, e3, w2.trans w3, o3⟩
      · rw [if_neg hd]
        exact hSORTED lim pivot _ sD c1 c2 hlenD hlowD
    unfold pdqsort
    simp only [pure_bind_eq]
    by_cases h12 : b - a ≤ 12
    · rw [if_pos h12]
      exact insertionSort_spec a b s hlen
    · rw [if_neg h12]
      by_cases hl0 : limit = 0
      · rw [if_pos hl0]
        exact heapSort_spec a b s (by omega) hlen
      · rw [if_neg hl0]
        cases wb with
        | true =>
          simp only [Bool.not_true, Bool.false_eq_true, if_false]
          exact hAFTER limit s hlen hlow (by omega)
        | false =>
          simp only [Bool.not_false, if_true]
          obtain ⟨s1, e1, w1⟩ := breakPatterns_spec rnd a b s (by omega) hlen
          obtain ⟨s2, e2, w2, o2⟩ := hAFTER (limit - 1) s1 (by rw [w1.1]; exact hlen)
            (hlow.within w1) (by omega)
          rw [exec_bind_eq, e1]
          exact ⟨s2, e2, w1.trans w2, o2⟩

/-- The pattern-defeating quicksort that `sort.Sort` runs from Go 1.19 on meets the
contract, whatever its pseudo-random generator yields: on every slice it returns, and
it leaves the slice ordered by `Less`. -/
theorem pdqsortImpl_contract (rnd : Nat → Nat → Nat) : SortContract (pdqsortImpl rnd) := by
  intro data
  have hres : ∃ s1, (pdqsortImpl rnd data.Len).exec data = some ((), s1) ∧
      Within 0 data.Len data s1 ∧ SortedOn 0 data.Len s1 := by
    unfold pdqsortImpl
    by_cases h1 : data.Len ≤ 1
    · rw [if_pos h1, exec_pure_eq]
      exact ⟨data, rfl, Within.refl _ _ _, fun i j _ hij hj => by omega⟩
    · rw [if_neg h1]
      exact pdqsort_spec rnd (data.Len + 1) 0 data.Len (bitsLen data.Len) true true data
        (by omega) (le_refl _) (Or.inl rfl)
  obtain ⟨s1, e, w, o⟩ := hres
  refine ⟨s1, ?_, ?_⟩
  · unfold sortSort
    rw [e]
  · intro i j hij hj
    rw [Less_keyAt s1 j i hj (by omega)]
    simp only [Option.some.injEq, decide_eq_false_iff_not, not_lt]
    exact o i j (Nat.zero_le _) hij (by rw [← w.1]; exact hj)

/-! #### A slice that is already in order -/

theorem insertionInner_sorted (a b : Nat) (s : byAlertStateAndNameSorter) (hb : b ≤ s.Len)
    (hs : SortedOn a b s) (j : Nat) (hj : j < b) :
    (insertionInner a j).exec s = some ((), s) := by
  cases j with
  | zero => rfl
  | succ j =>
    unfold insertionInner
    by_cases haj : a < j + 1
    · rw [if_pos haj, exec_less s (j + 1) j _ (by omega) (by omega)]
      have : ¬ keyAt s (j + 1) < keyAt s j := not_lt.2 (hs j (j + 1) (by omega) (by omega) hj)
      simp only [this, decide_False, Bool.false_eq_true, if_false]
      rfl
    · rw [if_neg haj]
      rfl

theorem insertionOuter_sorted (a b : Nat) (s : byAlertStateAndNameSorter) (hb : b ≤ s.Len)
    (hs : SortedOn a b s) :
    ∀ (n i : Nat), i + n ≤ b → (insertionOuter a i n).exec s = some ((), s)
  | 0, _, _ => rfl
  | n + 1, i, h => by
    unfold insertionOuter
    rw [exec_bind, insertionInner_sorted a b s hb hs i (by omega)]
    exact insertionOuter_sorted a b s hb hs n (i + 1) (by omega)

theorem insertionSort_sorted (a b : Nat) (s : byAlertStateAndNameSorter) (hb : b ≤ s.Len)
    (hs : SortedOn a b s) : (insertionSort a b).exec s = some ((), s) := by
  unfold insertionSort
  by_cases hab : a + 1 < b
  · exact insertionOuter_sorted a b s hb hs _ _ (by omega)
  · rw [show b - (a + 1) = 0 by omega]
    rfl

theorem pdqsort_sorted (rnd : Nat → Nat → Nat) (f a b limit : Nat)
    (s : byAlertStateAndNameSorter) (hl : b - a ≤ 12 ∨ limit ≠ 0) (hb : b ≤ s.Len)
    (hs : SortedOn a b s) :
    (pdqsort rnd (f + 1) a b limit true true).exec s = some ((), s) := by
  unfold pdqsort
  simp only [pure_bind_eq]
  by_cases h12 : b - a ≤ 12
  · rw [if_pos h12]
    exact insertionSort_sorted a b s hb hs
  · rw [if_neg h12, if_neg (by omega)]
    simp only [Bool.not_true, Bool.false_eq_true, if_false]
    obtain ⟨pivot, hint, e1, _, _, c3⟩ := choosePivot_spec a b s (by omega) hb
    have hh := c3 hs
    subst hh
    rw [exec_bind_eq, e1]
    simp only [reduceCtorEq, if_false, Bool.and_self, decide_True, if_true]
    rw [exec_bind_eq, partialInsertionSort_sorted a b s (by omega) hb hs]
    simp only [if_true, exec_pure_eq]

/-- From Go 1.19 on, `sort.Sort` returns a slice that is already ordered by `Less` as it
is: it performs no `Swap`. -/
theorem pdqsortImpl_sorted (rnd : Nat → Nat → Nat) (s : byAlertStateAndNameSorter)
    (hs : SortedOn 0 s.Len s) : (pdqsortImpl rnd s.Len).exec s = some ((), s) := by
  unfold pdqsortImpl
  by_cases h1 : s.Len ≤ 1
  · rw [if_pos h1]
    rfl
  · rw [if_neg h1]
    exact pdqsort_sorted rnd s.Len 0 s.Len (bitsLen s.Len) s
      (Or.inr (bitsLen_ne_zero s.Len (by omega))) (le_refl _) hs

theorem SortedOn_of_pairwise (l : List AlertingRule) (h : l.Pairwise notAfter) :
    SortedOn 0 l.length ⟨l⟩ := by
  intro i j _ hij hj
  have h1 := Less_false_of_pairwise ⟨l⟩ h i j hij hj
  rw [Less_keyAt ⟨l⟩ j i hj (Nat.lt_trans hij hj)] at h1
  simp only [Option.some.injEq, decide_eq_false_iff_not, not_lt] at h1
  exact h1

/-- With the `sort.Sort` of Go 1.19 and later, sorting returns an ordered list, and an
ordered list is returned unchanged. -/
theorem alerts_pdqsort_fixed (rnd : Nat → Nat → Nat) (l : List AlertingRule) :
    ∃ out, alerts (pdqsortImpl rnd) l = some out ∧ out.Perm l ∧ out.Pairwise notAfter ∧
      alerts (pdqsortImpl rnd) out = some out := by
  obtain ⟨out, h1, h2, h3⟩ := alerts_of_contract (pdqsortImpl rnd) (pdqsortImpl_contract rnd) l
  refine ⟨out, h1, h2, h3, ?_⟩
  have := pdqsortImpl_sorted rnd ⟨out⟩ (SortedOn_of_pairwise out h3)
  unfold alerts sortSort
  rw [this]

/-! #### The two routines side by side -/

theorem maxDepthLoop_eq_bitsLenLoop : ∀ (f i : Nat), maxDepthLoop f i = bitsLenLoop f i
  | 0, _ => rfl
  | f + 1, i => by
    unfold maxDepthLoop bitsLenLoop
    by_cases h : i = 0
    · subst h
      simp
    · rw [if_pos (Nat.pos_of_ne_zero h), if_neg h, maxDepthLoop_eq_bitsLenLoop f (i / 2)]

/-- The depth at which `quickSort` turns to `heapSort` is twice the number of binary
digits of `n`; the limit of `pdqsort` is that number. -/
theorem maxDepth_eq_bitsLen (n : Nat) : maxDepth n = bitsLen n * 2 := by
  unfold maxDepth bitsLen
  rw [maxDepthLoop_eq_bitsLenLoop]

/-- The order of the output under the `sort.Sort` of Go 1.19 and later: the states do
not increase along the list, and among equal states the names do not decrease. -/
theorem alerts_ordered_pdqsort (rnd : Nat → Nat → Nat) (rules : List AlertingRule) :
    ∃ out, alerts (pdqsortImpl rnd) rules = some out ∧ out.Perm rules ∧
      ∀ (i j : Nat) (hij : i < j) (hj : j < out.length),
        (out.get ⟨j, hj⟩).state ≤ (out.get ⟨i, Nat.lt_trans hij hj⟩).state ∧
        ((out.get ⟨i, Nat.lt_trans hij hj⟩).state = (out.get ⟨j, hj⟩).state →
          (out.get ⟨i, Nat.lt_trans hij hj⟩).name ≤ (out.get ⟨j, hj⟩).name) := by
  obtain ⟨out, h1, h2, h3⟩ :=
    alerts_of_contract (pdqsortImpl rnd) (pdqsortImpl_contract rnd) rules
  refine ⟨out, h1, h2, ?_⟩
  intro i j hij hj
  have hn := List.pairwise_iff_get.1 h3 ⟨i, Nat.lt_trans hij hj⟩ ⟨j, hj⟩ hij
  rw [notAfter, lessRel_iff] at hn
  push_neg at hn
  exact ⟨hn.1, fun he => hn.2 he.symm⟩
/-- On a slice of at most 6 elements the quicksort is the insertion sort. -/
theorem quickSortImpl_short (n : Nat) (h : n ≤ 6) : quickSortImpl n = insertionImpl n := by
  interval_cases n <;> rfl

/-- On a slice of at most 12 elements the pattern-defeating quicksort is the insertion
sort. -/
theorem pdqsortImpl_short (rnd : Nat → Nat → Nat) (n : Nat) (h : n ≤ 12) :
    pdqsortImpl rnd n = insertionImpl n := by
  interval_cases n <;> rfl

/-- Under the `sort.Sort` of Go 1.19 and later, a list and a permutation of it sort to
lists with the same state and name at every position, and to the same list when rules
with equal state and name are equal. -/
theorem alerts_permutation_pdqsort (rnd : Nat → Nat → Nat) (l l' : List AlertingRule)
    (hp : l.Perm l') :
    ∃ out out', alerts (pdqsortImpl rnd) l = some out ∧
      alerts (pdqsortImpl rnd) l' = some out' ∧
      out.map sortKey = out'.map sortKey ∧
      ((∀ a ∈ l, ∀ b ∈ l, a.state = b.state → a.name = b.name → a = b) → out = out') := by
  obtain ⟨out, h1, h2, h3⟩ :=
    alerts_of_contract (pdqsortImpl rnd) (pdqsortImpl_contract rnd) l
  obtain ⟨out', h1', h2', h3'⟩ :=
    alerts_of_contract (pdqsortImpl rnd) (pdqsortImpl_contract rnd) l'
  have hpp : out.Perm out' := (h2.trans hp).trans h2'.symm
  refine ⟨out, out', h1, h1', sorted_perm_keys out out' hpp h3 h3', ?_⟩
  intro ties
  refine sorted_perm_unique out out' hpp h3 h3' ?_
  intro a ha b hb
  exact ties a (h2.mem_iff.1 ha) b (h2.mem_iff.1 hb)

/-! ### The claims about the sorter -/

/-- The order of the output, for every routine that meets the contract of `sort.Sort`:
the states do not increase along the list, and among equal states the names do not
decrease; the three rules of the example come out as `b`, `c`, `a`. -/
theorem alerts_ordered_of_contract (impl : Nat → SortM Unit) (h : SortContract impl) :
    (∀ rules : List AlertingRule, ∃ out, alerts impl rules = some out ∧
      ∀ (i j : Nat) (hij : i < j) (hj : j < out.length),
        (out.get ⟨j, hj⟩).state ≤ (out.get ⟨i, Nat.lt_trans hij hj⟩).state ∧
        ((out.get ⟨i, Nat.lt_trans hij hj⟩).state = (out.get ⟨j, hj⟩).state →
          (out.get ⟨i, Nat.lt_trans hij hj⟩).name ≤ (out.get ⟨j, hj⟩).name)) ∧
    (∀ hb ha hc : RuleHealth,
      alerts impl [⟨"b", StateFiring, hb⟩, ⟨"a", StatePending, ha⟩, ⟨"c", StateFiring, hc⟩] =
        some [⟨"b", StateFiring, hb⟩, ⟨"c", StateFiring, hc⟩, ⟨"a", StatePending, ha⟩]) := by
  constructor
  · intro rules
    obtain ⟨out, h1, _, h3⟩ := alerts_of_contract impl h rules
    refine ⟨out, h1, ?_⟩
    intro i j hij hj
    have hn := List.pairwise_iff_get.1 h3 ⟨i, Nat.lt_trans hij hj⟩ ⟨j, hj⟩ hij
    rw [notAfter, lessRel_iff] at hn
    push_neg at hn
    refine ⟨hn.1, fun he => ?_⟩
    exact hn.2 he.symm
  · intro hb ha hc
    obtain ⟨out, h1, h2, h3⟩ := alerts_of_contract impl h
      [⟨"b", StateFiring, hb⟩, ⟨"a", StatePending, ha⟩, ⟨"c", StateFiring, hc⟩]
    rw [h1]
    congr 1
    have hperm : out.Perm
        [⟨"b", StateFiring, hb⟩, ⟨"c", StateFiring, hc⟩, ⟨"a", StatePending, ha⟩] :=
      h2.trans ((List.Perm.swap _ _ _).cons _)
    refine List.Perm.eq_of_sorted ?_ h3 ?_ hperm
    · intro a b hma hmb hab hba
      have hk : ordKey a = ordKey b :=
        le_antisymm ((notAfter_iff_ordKey a b).1 hab) ((notAfter_iff_ordKey b a).1 hba)
      have hk2 := (ordKey_eq_iff a b).1 hk
      have hma2 := h2.mem_iff.1 hma
      simp only [List.mem_cons, List.mem_singleton, List.not_mem_nil, or_false] at hma2 hmb
      rcases hma2 with rfl | rfl | rfl <;> rcases hmb with rfl | rfl | rfl <;>
        first
        | rfl
        | (exfalso; revert hk2; simp [StateFiring, StatePending])
    · simp only [List.pairwise_cons, List.mem_cons, List.mem_singleton, List.not_mem_nil,
        forall_eq_or_imp, forall_eq, notAfter, lessRel_iff, IsEmpty.forall_iff, implies_true,
        List.Pairwise.nil, and_true]
      simp [StateFiring, StatePending]
      decide

/-- C1: for every list of rules, the sorting in `Rule.alerts`, with the library's
quicksort as `sort.Sort`, returns a list in which, for positions `i < j`, the state at
`i` is at least the state at `j`, and for equal states the name at `i` is at most the
name at `j`; and sorting `[{b,Firing},{a,Pending},{c,Firing}]` gives
`[{b,Firing},{c,Firing},{a,Pending}]`, whatever the healths. -/
theorem alerts_ordered_by_state_then_name :
    (∀ rules : List AlertingRule, ∃ out, alerts quickSortImpl rules = some out ∧
      ∀ (i j : Nat) (hij : i < j) (hj : j < out.length),
        (out.get ⟨j, hj⟩).state ≤ (out.get ⟨i, Nat.lt_trans hij hj⟩).state ∧
        ((out.get ⟨i, Nat.lt_trans hij hj⟩).state = (out.get ⟨j, hj⟩).state →
          (out.get ⟨i, Nat.lt_trans hij hj⟩).name ≤ (out.get ⟨j, hj⟩).name)) ∧
    (∀ hb ha hc : RuleHealth,
      alerts quickSortImpl
          [⟨"b", StateFiring, hb⟩, ⟨"a", StatePending, ha⟩, ⟨"c", StateFiring, hc⟩] =
        some [⟨"b", StateFiring, hb⟩, ⟨"c", StateFiring, hc⟩, ⟨"a", StatePending, ha⟩]) :=
  alerts_ordered_of_contract quickSortImpl quickSortImpl_contract

/-- C2: for in-range indices `i` and `j`, `Less(i, j)` returns; when the two states
differ it is true exactly when the state at `i` is the greater one, and when the states
are equal it is true exactly when the name at `i` is strictly smaller than the name at
`j`. -/
theorem Less_spec (s : byAlertStateAndNameSorter) (i j : Nat)
    (hi : i < s.Len) (hj : j < s.Len) :
    ∃ b, s.Less i j = some b ∧
      ((s.alerts.get ⟨i, hi⟩).state ≠ (s.alerts.get ⟨j, hj⟩).state →
        (b = true ↔ (s.alerts.get ⟨j, hj⟩).state < (s.alerts.get ⟨i, hi⟩).state)) ∧
      ((s.alerts.get ⟨i, hi⟩).state = (s.alerts.get ⟨j, hj⟩).state →
        (b = true ↔ (s.alerts.get ⟨i, hi⟩).name < (s.alerts.get ⟨j, hj⟩).name)) := by
  refine ⟨_, Less_eq s i j (s.alerts.get ⟨i, hi⟩) (s.alerts.get ⟨j, hj⟩) ?_ ?_, ?_, ?_⟩
  · exact List.getElem?_eq_getElem hi
  · exact List.getElem?_eq_getElem hj
  · intro hne
    rw [decide_eq_true_iff, lessRel_iff]
    constructor
    · rintro (h | h)
      · exact h
      · exact absurd h.1 hne
    · exact Or.inl
  · intro he
    rw [decide_eq_true_iff, lessRel_iff]
    constructor
    · rintro (h | h)
      · exact absurd h (by rw [he]; exact lt_irrefl _)
      · exact h.2
    · exact fun h => Or.inr ⟨he, h⟩

/-- Witness for C2: two firing rules named `b` and `a`, compared in that order. -/
theorem Less_spec_witness :
    ∃ b, byAlertStateAndNameSorter.Less
        ⟨[⟨"b", StateFiring, HealthGood⟩, ⟨"a", StateFiring, HealthGood⟩,
          ⟨"c", StatePending, HealthGood⟩]⟩ 1 0 = some b ∧
      ((2 : Int) ≠ 2 → (b = true ↔ (2 : Int) < 2)) ∧
      ((2 : Int) = 2 → (b = true ↔ "a" < "b")) :=
  Less_spec ⟨[⟨"b", StateFiring, HealthGood⟩, ⟨"a", StateFiring, HealthGood⟩,
    ⟨"c", StatePending, HealthGood⟩]⟩ 1 0 (by decide) (by decide)

/-- C3: the relation computed by `Less` is a strict weak ordering of the rules: it is
irreflexive, asymmetric and transitive, incomparability is transitive, and two rules are
incomparable exactly when they have the same state and the same name. -/
theorem lessRel_strict_weak_order :
    (∀ a, ¬ lessRel a a) ∧
    (∀ a b, lessRel a b → ¬ lessRel b a) ∧
    (∀ a b c, lessRel a b → lessRel b c → lessRel a c) ∧
    (∀ a b c, (¬ lessRel a b ∧ ¬ lessRel b a) → (¬ lessRel b c ∧ ¬ lessRel c b) →
      (¬ lessRel a c ∧ ¬ lessRel c a)) ∧
    (∀ a b, (¬ lessRel a b ∧ ¬ lessRel b a) ↔ (a.state = b.state ∧ a.name = b.name)) := by
  have hinc : ∀ a b, (¬ lessRel a b ∧ ¬ lessRel b a) ↔ ordKey a = ordKey b := by
    intro a b
    simp only [lessRel_iff_ordKey, not_lt]
    constructor
    · exact fun h => le_antisymm h.2 h.1
    · exact fun h => ⟨h.ge, h.le⟩
  refine ⟨?_, ?_, ?_, ?_, ?_⟩
  · intro a
    rw [lessRel_iff_ordKey]
    exact lt_irrefl _
  · intro a b
    simp only [lessRel_iff_ordKey]
    exact fun h => lt_asymm h
  · intro a b c
    simp only [lessRel_iff_ordKey]
    exact fun h1 h2 => lt_trans h1 h2
  · intro a b c h1 h2
    rw [hinc] at h1 h2 ⊢
    exact h1.trans h2
  · intro a b
    rw [hinc, ordKey_eq_iff]

/-- Counterexample to C4: two firing rules named `a` that differ in health only. The
lists `[x, y]` and `[y, x]` are permutations of each other, and every routine over the
interface that meets the contract of `sort.Sort` returns different lists for them; the
library's insertion sort and its quicksort both return each list as it was given. -/
theorem alerts_permutation_counterexample :
    [(⟨"a", StateFiring, HealthGood⟩ : AlertingRule), ⟨"a", StateFiring, HealthBad⟩].Perm
      [⟨"a", StateFiring, HealthBad⟩, ⟨"a", StateFiring, HealthGood⟩] ∧
    (∀ impl : Nat → SortM Unit, SortContract impl →
      alerts impl [⟨"a", StateFiring, HealthGood⟩, ⟨"a", StateFiring, HealthBad⟩] ≠
        alerts impl [⟨"a", StateFiring, HealthBad⟩, ⟨"a", StateFiring, HealthGood⟩]) ∧
    alerts insertionImpl [⟨"a", StateFiring, HealthGood⟩, ⟨"a", StateFiring, HealthBad⟩] =
      some [⟨"a", StateFiring, HealthGood⟩, ⟨"a", StateFiring, HealthBad⟩] ∧
    alerts insertionImpl [⟨"a", StateFiring, HealthBad⟩, ⟨"a", StateFiring, HealthGood⟩] =
      some [⟨"a", StateFiring, HealthBad⟩, ⟨"a", StateFiring, HealthGood⟩] ∧
    alerts quickSortImpl [⟨"a", StateFiring, HealthGood⟩, ⟨"a", StateFiring, HealthBad⟩] =
      some [⟨"a", StateFiring, HealthGood⟩, ⟨"a", StateFiring, HealthBad⟩] ∧
    alerts quickSortImpl [⟨"a", StateFiring, HealthBad⟩, ⟨"a", StateFiring, HealthGood⟩] =
      some [⟨"a", StateFiring, HealthBad⟩, ⟨"a", StateFiring, HealthGood⟩] := by
  refine ⟨List.Perm.swap _ _ _, ?_, by decide, by decide, by decide, by decide⟩
  intro impl h heq
  let x : AlertingRule := ⟨"a", StateFiring, HealthGood⟩
  let y : AlertingRule := ⟨"a", StateFiring, HealthBad⟩
  let σ : AlertingRule → AlertingRule := fun r => if r = x then y else if r = y then x else r
  have hσ : ∀ r, (σ r).state = r.state ∧ (σ r).name = r.name := by
    intro r
    by_cases h1 : r = x
    · simp [σ, h1, x, y]
    · by_cases h2 : r = y
      · simp only [σ, h2]
        split
        · exact ⟨rfl, rfl⟩
        · simp [x, y]
      · simp only [σ, h1, h2, if_false, and_self]
  have hm := alerts_map σ hσ impl [x, y]
  have hxy : [x, y].map σ = [y, x] := by decide
  rw [hxy] at hm
  obtain ⟨out, h1, h2, _⟩ := alerts_of_contract impl h [x, y]
  have heq2 : alerts impl [x, y] = alerts impl [y, x] := heq
  rw [hm, h1] at heq2
  simp only [Option.map_some', Option.some.injEq] at heq2
  have hlen := h2.length_eq
  match out, hlen, h2, heq2 with
  | [a, b], _, h2, heq2 =>
    have ha : a = x ∨ a = y := by
      have := h2.mem_iff.1 (List.mem_cons_self a [b])
      simpa using this
    simp only [List.map_cons, List.map_nil, List.cons.injEq, and_true] at heq2
    rcases ha with rfl | rfl
    · exact absurd heq2.1 (by decide)
    · exact absurd heq2.1 (by decide)

/-- Two sorted permutations of one list: the same state and name at every position,
and the same list when rules with equal state and name are equal. -/
theorem sorted_perm_same (l out out' : List AlertingRule) (h2 : out.Perm l)
    (h3 : out.Pairwise notAfter) (h2' : out'.Perm l) (h3' : out'.Pairwise notAfter) :
    out.map sortKey = out'.map sortKey ∧
      ((∀ a ∈ l, ∀ b ∈ l, a.state = b.state → a.name = b.name → a = b) → out = out') := by
  have hpp : out.Perm out' := h2.trans h2'.symm
  refine ⟨sorted_perm_keys out out' hpp h3 h3', ?_⟩
  intro ties
  refine sorted_perm_unique out out' hpp h3 h3' ?_
  intro a ha b hb
  exact ties a (h2.mem_iff.1 ha) b (h2.mem_iff.1 hb)

/-- C4, amended: for every list of rules and every permutation of it, both sorts (the
library's quicksort as `sort.Sort`) return, the two outputs carry the same state and
name at every position, and they are the same list whenever any two rules of the list
with equal state and equal name are equal. -/
theorem alerts_permutation_same_keys (l l' : List AlertingRule) (hp : l.Perm l') :
    ∃ out out', alerts quickSortImpl l = some out ∧ alerts quickSortImpl l' = some out' ∧
      out.map sortKey = out'.map sortKey ∧
      ((∀ a ∈ l, ∀ b ∈ l, a.state = b.state → a.name = b.name → a = b) → out = out') := by
  obtain ⟨out, h1, h2, h3⟩ := alerts_of_contract quickSortImpl quickSortImpl_contract l
  obtain ⟨out', h1', h2', h3'⟩ := alerts_of_contract quickSortImpl quickSortImpl_contract l'
  have hs := sorted_perm_same l out out' h2 h3 (h2'.trans hp.symm) h3'
  exact ⟨out, out', h1, h1', hs.1, hs.2⟩

/-- Witness for C4 as amended: the fourteen rules of `sampleRules` and the same rules in
reverse order. Rules of the list with equal state and name are equal, and both orders
sort to `sampleSorted`. -/
theorem alerts_permutation_same_keys_witness :
    ((∀ a ∈ sampleRules, ∀ b ∈ sampleRules, a.state = b.state → a.name = b.name → a = b) ∧
      alerts quickSortImpl sampleRules = some sampleSorted ∧
      alerts quickSortImpl sampleRules.reverse = some sampleSorted) ∧
    ∃ out out', alerts quickSortImpl sampleRules = some out ∧
      alerts quickSortImpl sampleRules.reverse = some out' ∧
      out.map sortKey = out'.map sortKey ∧
      ((∀ a ∈ sampleRules, ∀ b ∈ sampleRules, a.state = b.state → a.name = b.name → a = b) →
        out = out') :=
  ⟨⟨by decide, by decide, by decide⟩,
    alerts_permutation_same_keys sampleRules sampleRules.reverse
      (List.reverse_perm sampleRules).symm⟩

/-- C5: for every routine meeting the contract of `sort.Sort`, the sorted output is a
permutation of the input (same length, every rule with the same multiplicity, rules
unchanged), and `Swap(i, j)` on in-range indices returns a sorter of the same length that
holds at `i` what was at `j`, at `j` what was at `i`, and everywhere else what was there. -/
theorem alerts_is_permutation (impl : Nat → SortM Unit) (h : SortContract impl) :
    (∀ rules : List AlertingRule, ∃ out, alerts impl rules = some out ∧ out.Perm rules ∧
      out.length = rules.length ∧ ∀ r, out.count r = rules.count r) ∧
    (∀ (s : byAlertStateAndNameSorter) (i j : Nat), i < s.Len → j < s.Len →
      ∃ s1, s.Swap i j = some s1 ∧ s1.Len = s.Len ∧
        s1.alerts[i]? = s.alerts[j]? ∧ s1.alerts[j]? = s.alerts[i]? ∧
        ∀ k, k ≠ i → k ≠ j → s1.alerts[k]? = s.alerts[k]?) := by
  constructor
  · intro rules
    obtain ⟨out, h1, h2, _⟩ := alerts_of_contract impl h rules
    exact ⟨out, h1, h2, h2.length_eq, fun r => h2.count_eq r⟩
  · intro s i j hi hj
    have hi1 : i < s.alerts.length := hi
    have hj1 : j < s.alerts.length := hj
    refine ⟨⟨(s.alerts.set i (s.alerts.get ⟨j, hj1⟩)).set j (s.alerts.get ⟨i, hi1⟩)⟩, ?_, ?_, ?_, ?_, ?_⟩
    · unfold byAlertStateAndNameSorter.Swap
      rw [List.getElem?_eq_getElem hi1, List.getElem?_eq_getElem hj1]
      rfl
    · simp [byAlertStateAndNameSorter.Len]
    · by_cases hij : i = j
      · subst hij
        simp [hi1]
      · rw [List.getElem?_set_ne (Ne.symm hij), List.getElem?_set_self, List.getElem?_eq_getElem hj1]
        · rfl
        · exact hi1
    · rw [List.getElem?_set_self, List.getElem?_eq_getElem hi1]
      · rfl
      · simpa using hj1
    · intro k hki hkj
      rw [List.getElem?_set_ne (Ne.symm hkj), List.getElem?_set_ne (Ne.symm hki)]

/-- Witness for C5: the library's insertion sort meets the contract; three rules. -/
theorem alerts_is_permutation_witness :
    (∃ out, alerts insertionImpl
        [⟨"b", StateFiring, HealthGood⟩, ⟨"a", StatePending, HealthBad⟩,
          ⟨"c", StateFiring, HealthGood⟩] = some out ∧
      out.Perm [⟨"b", StateFiring, HealthGood⟩, ⟨"a", StatePending, HealthBad⟩,
          ⟨"c", StateFiring, HealthGood⟩] ∧
      out.length = 3 ∧
      ∀ r, out.count r = List.count r [⟨"b", StateFiring, HealthGood⟩,
        ⟨"a", StatePending, HealthBad⟩, ⟨"c", StateFiring, HealthGood⟩]) :=
  (alerts_is_permutation insertionImpl insertionImpl_contract).1 _

/-- Counterexample to C6: with the quicksort that `sort.Sort` ran before Go 1.19, the
thirteen rules of `tiedRules` sort to `tiedRulesSorted`, which is ordered by state and
name, and sorting that list again gives `tiedRules` back, a different list. -/
theorem alerts_idempotent_counterexample :
    alerts quickSortImpl tiedRules = some tiedRulesSorted ∧
    tiedRulesSorted.Pairwise notAfter ∧
    alerts quickSortImpl tiedRulesSorted = some tiedRules ∧
    tiedRules ≠ tiedRulesSorted := by
  refine ⟨by decide, ?_, by decide, by decide⟩
  unfold notAfter
  decide

/-- C6, amended: for every list of rules, sorting and sorting the result again both
return, the second output carries the same state and name at every position as the
first, and it is the same list whenever any two rules of the input with equal state and
equal name are equal (the library's quicksort as `sort.Sort`, Go before 1.19). With the
`pdqsort` that is `sort.Sort` from Go 1.19 on, whatever its pseudo-random generator
yields, the second sort returns the first output unchanged for every list. -/
theorem alerts_idempotent_keys (l : List AlertingRule) :
    (∃ out out2, alerts quickSortImpl l = some out ∧ alerts quickSortImpl out = some out2 ∧
      out2.map sortKey = out.map sortKey ∧
      ((∀ a ∈ l, ∀ b ∈ l, a.state = b.state → a.name = b.name → a = b) → out2 = out)) ∧
    (∀ rnd : Nat → Nat → Nat, ∃ out, alerts (pdqsortImpl rnd) l = some out ∧
      alerts (pdqsortImpl rnd) out = some out) := by
  constructor
  · obtain ⟨out, h1, h2, h3⟩ := alerts_of_contract quickSortImpl quickSortImpl_contract l
    obtain ⟨out2, h1', h2', h3'⟩ :=
      alerts_of_contract quickSortImpl quickSortImpl_contract out
    have hs := sorted_perm_same l out2 out (h2'.trans h2) h3' h2 h3
    exact ⟨out, out2, h1, h1', hs.1, hs.2⟩
  · intro rnd
    obtain ⟨out, h1, _, _, h4⟩ := alerts_pdqsort_fixed rnd l
    exact ⟨out, h1, h4⟩

/-- Witness for C6 as amended: the fourteen rules of `sampleRules`, among which rules
with equal state and name are equal, sort to `sampleSorted`, and `sampleSorted` sorts
to itself, under both routines; and the `pdqsort` returns the ordered `tiedRules` of the
counterexample as they are. -/
theorem alerts_idempotent_keys_witness :
    ((∀ a ∈ sampleRules, ∀ b ∈ sampleRules, a.state = b.state → a.name = b.name → a = b) ∧
      alerts quickSortImpl sampleRules = some sampleSorted ∧
      alerts quickSortImpl sampleSorted = some sampleSorted ∧
      alerts (pdqsortImpl (fun _ _ => 0)) sampleRules = some sampleSorted ∧
      alerts (pdqsortImpl (fun _ _ => 0)) sampleSorted = some sampleSorted ∧
      alerts (pdqsortImpl (fun _ _ => 0)) tiedRules = some tiedRules) ∧
    ((∃ out out2, alerts quickSortImpl sampleRules = some out ∧
        alerts quickSortImpl out = some out2 ∧
        out2.map sortKey = out.map sortKey ∧
        ((∀ a ∈ sampleRules, ∀ b ∈ sampleRules,
          a.state = b.state → a.name = b.name → a = b) → out2 = out)) ∧
      (∀ rnd : Nat → Nat → Nat, ∃ out, alerts (pdqsortImpl rnd) sampleRules = some out ∧
        alerts (pdqsortImpl rnd) out = some out)) :=
  ⟨⟨by decide, by decide, by decide, by decide, by decide, by decide⟩,
    alerts_idempotent_keys sampleRules⟩

/-! ## Properties of the duration humanizer -/

/-! ### Rounding to 53 significant bits -/

theorem ilog2Aux_spec : ∀ (k n lo : Nat), 2 ^ lo ≤ n → n < 2 ^ (lo + 2 ^ k) →
    2 ^ ilog2Aux k n lo ≤ n ∧ n < 2 ^ (ilog2Aux k n lo + 1)
  | 0, n, lo, h1, h2 => by
    simp only [ilog2Aux]
    exact ⟨h1, by simpa using h2⟩
  | k + 1, n, lo, h1, h2 => by
    simp only [ilog2Aux]
    by_cases h : 2 ^ (lo + 2 ^ k) ≤ n
    · simp only [h, if_true]
      refine ilog2Aux_spec k n (lo + 2 ^ k) h ?_
      have : lo + 2 ^ k + 2 ^ k = lo + 2 ^ (k + 1) := by rw [pow_succ]; omega
      rw [this]
      exact h2
    · simp only [h, if_false]
      exact ilog2Aux_spec k n lo h1 (not_le.1 h)

theorem ilog2_spec (n : Nat) (h0 : 0 < n) (h1 : n < 2 ^ 8192) :
    2 ^ ilog2 n ≤ n ∧ n < 2 ^ (ilog2 n + 1) := by
  unfold ilog2
  refine ilog2Aux_spec 13 n 0 ?_ ?_
  · simpa using h0
  · simpa using h1

theorem ilog2_zero : ilog2 0 = 0 := by decide

theorem ilog2_mono (a b : Nat) (hab : a ≤ b) (hb : b < 2 ^ 8192) : ilog2 a ≤ ilog2 b := by
  rcases Nat.eq_zero_or_pos a with rfl | ha
  · rw [ilog2_zero]
    exact Nat.zero_le _
  · have h1 := ilog2_spec a ha (lt_of_le_of_lt hab hb)
    have h2 := ilog2_spec b (lt_of_lt_of_le ha hab) hb
    by_contra hc
    have hc2 : ilog2 b + 1 ≤ ilog2 a := by omega
    have : 2 ^ (ilog2 b + 1) ≤ 2 ^ ilog2 a := Nat.pow_le_pow_right (by norm_num) hc2
    omega

theorem roundShift_ge (p s : Nat) : p / 2 ^ s ≤ roundShift p s := by
  unfold roundShift
  simp only
  split <;> omega

theorem roundShift_le (p s : Nat) : roundShift p s ≤ p / 2 ^ s + 1 := by
  unfold roundShift
  simp only
  split <;> omega

theorem roundShift_of_dvd (p s : Nat) (h : p % 2 ^ s = 0) : roundShift p s = p / 2 ^ s := by
  unfold roundShift
  have hp : 0 < 2 ^ s := Nat.two_pow_pos _
  simp only [h]
  rw [if_neg]
  rintro (h1 | h1)
  · omega
  · omega

theorem roundShift_mono (p1 p2 s : Nat) (h : p1 ≤ p2) : roundShift p1 s ≤ roundShift p2 s := by
  have hq : p1 / 2 ^ s ≤ p2 / 2 ^ s := Nat.div_le_div_right h
  rcases Nat.lt_or_eq_of_le hq with hlt | heq
  · exact le_trans (roundShift_le p1 s) (le_trans hlt (roundShift_ge p2 s))
  · have hp : 0 < 2 ^ s := Nat.two_pow_pos _
    have hr : p1 % 2 ^ s ≤ p2 % 2 ^ s := by
      have e1 := Nat.div_add_mod p1 (2 ^ s)
      have e2 := Nat.div_add_mod p2 (2 ^ s)
      rw [heq] at e1
      omega
    unfold roundShift
    simp only [heq]
    split
    · rename_i h1
      rw [if_pos]
      rcases h1 with h1 | h1
      · left; omega
      · rcases Nat.lt_or_eq_of_le hr with h2 | h2
        · left; omega
        · right; rw [← h2]; exact h1
    · split <;> omega

/-- A value that does not exceed a multiple of `2^s` does not round above it. -/
theorem roundShift_le_of_le (p s c : Nat) (h : p ≤ c * 2 ^ s) : roundShift p s ≤ c := by
  have h1 := roundShift_mono p (c * 2 ^ s) s h
  have hp : 0 < 2 ^ s := Nat.two_pow_pos _
  rw [roundShift_of_dvd _ _ (Nat.mul_mod_left _ _), Nat.mul_div_cancel _ hp] at h1
  exact h1

theorem roundMag_mono (p1 p2 drop : Nat) (h : p1 ≤ p2) (hb : p2 < 2 ^ 8192) :
    roundMag p1 drop ≤ roundMag p2 drop := by
  unfold roundMag
  simp only
  have he := ilog2_mono p1 p2 h hb
  set e1 := ilog2 p1
  set e2 := ilog2 p2
  have hs : max (e1 - 52) drop ≤ max (e2 - 52) drop := by omega
  rcases Nat.lt_or_eq_of_le hs with hlt | heq
  · -- the larger value lies in a higher binade
    have h2pos : 0 < p2 := by
      rcases Nat.eq_zero_or_pos p2 with h0 | h0
      · exfalso
        have : p1 = 0 := by omega
        simp only [e1, e2, this, h0] at hlt
        omega
      · exact h0
    have hs2 : max (e2 - 52) drop = e2 - 52 := by omega
    have he2 : 52 < e2 := by omega
    have hsp2 := ilog2_spec p2 h2pos hb
    have he12 : e1 < e2 := by omega
    have hp1 : p1 ≤ 2 ^ e2 := by
      rcases Nat.eq_zero_or_pos p1 with h0 | h0
      · rw [h0]; exact Nat.zero_le _
      · have hsp1 := ilog2_spec p1 h0 (lt_of_le_of_lt h hb)
        have : 2 ^ (ilog2 p1 + 1) ≤ 2 ^ e2 := Nat.pow_le_pow_right (by norm_num) he12
        omega
    set s1 := max (e1 - 52) drop
    set s2 := max (e2 - 52) drop
    have hs1e : s1 ≤ e2 := by omega
    have hs2e : s2 ≤ e2 := by omega
    -- left side
    have hL : roundShift p1 s1 ≤ 2 ^ (e2 - s1) := by
      apply roundShift_le_of_le
      rw [← pow_add, Nat.sub_add_cancel hs1e]
      exact hp1
    have hR : 2 ^ (e2 - s2) ≤ roundShift p2 s2 := by
      refine le_trans ?_ (roundShift_ge p2 s2)
      rw [Nat.le_div_iff_mul_le (Nat.two_pow_pos _), ← pow_add,
        Nat.sub_add_cancel hs2e]
      exact hsp2.1
    calc roundShift p1 s1 * 2 ^ (s1 - drop)
        ≤ 2 ^ (e2 - s1) * 2 ^ (s1 - drop) := Nat.mul_le_mul_right _ hL
      _ = 2 ^ (e2 - drop) := by rw [← pow_add]; congr 1; omega
      _ = 2 ^ (e2 - s2) * 2 ^ (s2 - drop) := by rw [← pow_add]; congr 1; omega
      _ ≤ roundShift p2 s2 * 2 ^ (s2 - drop) := Nat.mul_le_mul_right _ hR
  · rw [heq]
    exact Nat.mul_le_mul_right _ (roundShift_mono p1 p2 _ h)

theorem nextMag_mono (a b : Nat) (h : a ≤ b) (hb : b < 2 ^ 2098) : nextMag a ≤ nextMag b := by
  unfold nextMag
  apply roundMag_mono
  · exact Nat.mul_le_mul_right _ h
  · calc b * (1000 * 2 ^ 1074) < 2 ^ 2098 * (1000 * 2 ^ 1074) :=
        Nat.mul_lt_mul_of_pos_right hb (by positivity)
      _ ≤ 2 ^ 8192 := by norm_num

/-! ### The operations on finite values -/

theorem ge_one_fin (s : Bool) (m : Nat) :
    (mathAbs (Float64.fin s m)).ge f64One = decide (2 ^ 1074 ≤ m) := by
  simp only [mathAbs, Float64.ge, Float64.key, f64One, Float64.ofNat, Bool.false_eq_true,
    if_false, one_mul]
  congr 1
  apply propext
  constructor
  · intro h; exact_mod_cast h
  · intro h; exact_mod_cast h

theorem ge_ofNat_fin (s : Bool) (m c : Nat) :
    (mathAbs (Float64.fin s m)).ge (Float64.ofNat c) = decide (c * 2 ^ 1074 ≤ m) := by
  simp only [mathAbs, Float64.ge, Float64.key, Float64.ofNat, Bool.false_eq_true, if_false]
  congr 1
  apply propext
  constructor
  · intro h; exact_mod_cast h
  · intro h; exact_mod_cast h

theorem lt_ofNat_fin (s : Bool) (m c : Nat) :
    (mathAbs (Float64.fin s m)).lt (Float64.ofNat c) = decide (m < c * 2 ^ 1074) := by
  simp only [mathAbs, Float64.lt, Float64.key, Float64.ofNat, Bool.false_eq_true, if_false]
  congr 1
  apply propext
  constructor
  · intro h; exact_mod_cast h
  · intro h; exact_mod_cast h

theorem lt_zero_fin (s : Bool) (m : Nat) :
    (Float64.fin s m).lt f64Zero = (s && decide (0 < m)) := by
  cases s
  · simp only [Float64.lt, Float64.key, f64Zero, Float64.ofNat, Bool.false_eq_true, if_false,
      zero_mul, Bool.false_and, decide_eq_false_iff_not, not_lt]
    exact_mod_cast Nat.zero_le m
  · simp only [Float64.lt, Float64.key, f64Zero, Float64.ofNat, if_true, zero_mul,
      Bool.true_and, Bool.false_eq_true, if_false]
    congr 1
    apply propext
    constructor
    · intro h
      have : (0 : Int) < (m : Int) := by omega
      exact_mod_cast this
    · intro h
      have : (0 : Int) < (m : Int) := by exact_mod_cast h
      simp only [Nat.cast_zero]
      omega

theorem eq_zero_fin (s : Bool) (m : Nat) :
    (Float64.fin s m).eq f64Zero = decide (m = 0) := by
  cases s
  · simp only [Float64.eq, Float64.key, f64Zero, Float64.ofNat, Bool.false_eq_true, if_false,
      zero_mul]
    congr 1
    apply propext
    constructor
    · intro h; exact_mod_cast h
    · intro h; exact_mod_cast h
  · simp only [Float64.eq, Float64.key, f64Zero, Float64.ofNat, if_true, zero_mul,
      Bool.false_eq_true, if_false]
    congr 1
    apply propext
    constructor
    · intro h
      have : (m : Int) = 0 := by simp only [Nat.cast_zero] at h; omega
      exact_mod_cast this
    · intro h
      subst h
      simp

theorem posPart_fin (s : Bool) (m : Nat) (h : 0 < m) :
    (if (Float64.fin s m).lt f64Zero then (Float64.fin s m).neg else Float64.fin s m) =
      Float64.fin false m := by
  rw [lt_zero_fin]
  cases s
  · simp
  · simp [h, Float64.neg]

theorem toInt64_fin_nonneg (ovf : Int) (m : Nat) (h : m / 2 ^ 1074 < 2 ^ 63) :
    toInt64 ovf (Float64.fin false m) = ((m / 2 ^ 1074 : Nat) : Int) := by
  simp only [toInt64, Bool.false_eq_true, if_false]
  rw [if_pos]
  constructor
  · have : (0 : Int) ≤ ((m / 2 ^ 1074 : Nat) : Int) := Int.ofNat_nonneg _
    omega
  · exact_mod_cast h

theorem durationParts_natCast (n : Nat) :
    durationParts (n : Int) =
      (((n / 86400 : Nat) : Int), ((n / 3600 % 24 : Nat) : Int), ((n / 60 % 60 : Nat) : Int),
        ((n % 60 : Nat) : Int)) := by
  have h0 : (0 : Int) ≤ (n : Int) := Int.ofNat_nonneg n
  have e1 : Int.tdiv (n : Int) 60 = ((n / 60 : Nat) : Int) := by
    rw [Int.tdiv_eq_ediv h0 (by norm_num)]; norm_cast
  have e2 : Int.tdiv ((n / 60 : Nat) : Int) 60 = ((n / 3600 : Nat) : Int) := by
    rw [Int.tdiv_eq_ediv (Int.ofNat_nonneg _) (by norm_num)]
    have : n / 60 / 60 = n / 3600 := by omega
    rw [← this]; norm_cast
  have e3 : Int.tdiv ((n / 3600 : Nat) : Int) 24 = ((n / 86400 : Nat) : Int) := by
    rw [Int.tdiv_eq_ediv (Int.ofNat_nonneg _) (by norm_num)]
    have : n / 3600 / 24 = n / 86400 := by omega
    rw [← this]; norm_cast
  have m1 : Int.tmod (n : Int) 60 = ((n % 60 : Nat) : Int) := by
    rw [Int.tmod_eq_emod h0 (by norm_num)]; norm_cast
  have m2 : Int.tmod ((n / 60 : Nat) : Int) 60 = ((n / 60 % 60 : Nat) : Int) := by
    rw [Int.tmod_eq_emod (Int.ofNat_nonneg _) (by norm_num)]; norm_cast
  have m3 : Int.tmod ((n / 3600 : Nat) : Int) 24 = ((n / 3600 % 24 : Nat) : Int) := by
    rw [Int.tmod_eq_emod (Int.ofNat_nonneg _) (by norm_num)]; norm_cast
  simp only [durationParts, e1, e2, e3, m1, m2, m3]

theorem durationParts_sum (x : Int) :
    (durationParts x).1 * 86400 + (durationParts x).2.1 * 3600 +
      (durationParts x).2.2.1 * 60 + (durationParts x).2.2.2 = x := by
  simp only [durationParts]
  have a := Int.tmod_add_tdiv x 60
  have b := Int.tmod_add_tdiv (Int.tdiv x 60) 60
  have c := Int.tmod_add_tdiv (Int.tdiv (Int.tdiv x 60) 60) 24
  omega

/-! ### The claims about `humanizeDuration` -/

/-- Counterexample to C7: `v = 2^63` is a finite float64 with `|v| ≥ 1` whose truncated
integer part is `2^63`. Whatever `int64` the implementation returns for the conversion,
the four values add up to that `int64` and not to `2^63`; with the result `-2^63` of
amd64 the values are `-106751991167300`, `-15`, `-30` and `-8`. -/
theorem durationOf_overflow_counterexample :
    (Float64.ofNat (2 ^ 63)).Valid ∧
    (mathAbs (Float64.ofNat (2 ^ 63))).ge f64One = true ∧
    truncAbs (Float64.ofNat (2 ^ 63)) = 2 ^ 63 ∧
    (∀ ovf : Int, -(2 ^ 63) ≤ ovf → ovf < 2 ^ 63 →
      (durationOf ovf (Float64.ofNat (2 ^ 63))).1 * 86400 +
        (durationOf ovf (Float64.ofNat (2 ^ 63))).2.1 * 3600 +
        (durationOf ovf (Float64.ofNat (2 ^ 63))).2.2.1 * 60 +
        (durationOf ovf (Float64.ofNat (2 ^ 63))).2.2.2 ≠ 2 ^ 63) ∧
    durationOf (-(2 ^ 63)) (Float64.ofNat (2 ^ 63)) = (-106751991167300, -15, -30, -8) := by
  refine ⟨by decide, by decide, by decide, ?_, by decide⟩
  intro ovf h1 h2
  unfold durationOf
  rw [durationParts_sum]
  have hp : (if (Float64.ofNat (2 ^ 63)).lt f64Zero then (Float64.ofNat (2 ^ 63)).neg
      else Float64.ofNat (2 ^ 63)) = Float64.ofNat (2 ^ 63) := by decide
  rw [hp]
  have hc : toInt64 ovf (Float64.ofNat (2 ^ 63)) = ovf := by
    simp only [toInt64, Float64.ofNat, Bool.false_eq_true, if_false]
    rw [Nat.mul_div_cancel _ (Nat.two_pow_pos _)]
    rw [if_neg]
    intro h
    have := h.2
    norm_num at this
  rw [hc]
  omega

/-- C7, amended: for every finite `v` with `|v| ≥ 1` whose truncated integer part `n` is
below `2^63`, the values computed by `humanizeDuration` satisfy `0 ≤ hours ≤ 23`,
`0 ≤ minutes ≤ 59`, `0 ≤ seconds ≤ 59`, `days ≥ 0` and
`days*86400 + hours*3600 + minutes*60 + seconds = n`. -/
theorem durationOf_in_range (ovf : Int) (s : Bool) (m : Nat)
    (h1 : (mathAbs (Float64.fin s m)).ge f64One = true)
    (h2 : truncAbs (Float64.fin s m) < 2 ^ 63) :
    0 ≤ (durationOf ovf (Float64.fin s m)).2.1 ∧ (durationOf ovf (Float64.fin s m)).2.1 ≤ 23 ∧
    0 ≤ (durationOf ovf (Float64.fin s m)).2.2.1 ∧
      (durationOf ovf (Float64.fin s m)).2.2.1 ≤ 59 ∧
    0 ≤ (durationOf ovf (Float64.fin s m)).2.2.2 ∧
      (durationOf ovf (Float64.fin s m)).2.2.2 ≤ 59 ∧
    0 ≤ (durationOf ovf (Float64.fin s m)).1 ∧
    (durationOf ovf (Float64.fin s m)).1 * 86400 + (durationOf ovf (Float64.fin s m)).2.1 * 3600 +
      (durationOf ovf (Float64.fin s m)).2.2.1 * 60 + (durationOf ovf (Float64.fin s m)).2.2.2 =
      (truncAbs (Float64.fin s m) : Int) := by
  rw [ge_one_fin, decide_eq_true_iff] at h1
  have hm : 0 < m := lt_of_lt_of_le (Nat.two_pow_pos _) h1
  simp only [truncAbs] at h2 ⊢
  have hd : durationOf ovf (Float64.fin s m) = durationParts ((m / 2 ^ 1074 : Nat) : Int) := by
    unfold durationOf
    rw [posPart_fin s m hm, toInt64_fin_nonneg ovf m h2]
  rw [hd, durationParts_sum, durationParts_natCast]
  generalize m / 2 ^ 1074 = n at h2 ⊢
  clear hd h1 hm
  simp only [and_true]
  omega

/-- Witness for C7 as amended: `v = -90061.5`, the float64 `-(180123 * 2^-1)`, whose
integer part is `90061`. -/
theorem durationOf_in_range_witness :
    0 ≤ (durationOf 0 (Float64.fin true (180123 * 2 ^ 1073))).2.1 ∧
    (durationOf 0 (Float64.fin true (180123 * 2 ^ 1073))).2.1 ≤ 23 ∧
    0 ≤ (durationOf 0 (Float64.fin true (180123 * 2 ^ 1073))).2.2.1 ∧
    (durationOf 0 (Float64.fin true (180123 * 2 ^ 1073))).2.2.1 ≤ 59 ∧
    0 ≤ (durationOf 0 (Float64.fin true (180123 * 2 ^ 1073))).2.2.2 ∧
    (durationOf 0 (Float64.fin true (180123 * 2 ^ 1073))).2.2.2 ≤ 59 ∧
    0 ≤ (durationOf 0 (Float64.fin true (180123 * 2 ^ 1073))).1 ∧
    (durationOf 0 (Float64.fin true (180123 * 2 ^ 1073))).1 * 86400 +
      (durationOf 0 (Float64.fin true (180123 * 2 ^ 1073))).2.1 * 3600 +
      (durationOf 0 (Float64.fin true (180123 * 2 ^ 1073))).2.2.1 * 60 +
      (durationOf 0 (Float64.fin true (180123 * 2 ^ 1073))).2.2.2 =
      (truncAbs (Float64.fin true (180123 * 2 ^ 1073)) : Int) :=
  durationOf_in_range 0 true (180123 * 2 ^ 1073) (by decide) (by decide)

theorem fmtInt_natCast (k : Nat) : fmtInt ((k : Nat) : Int) = toString k := rfl

/-- Counterexample to C8: `v = 2^63` is a finite float64 with `|v| ≥ 60`; the
decomposition of its integer part gives `106751991167300d 15h 30m 8s`, while the code
prints `-106751991167300d -15h -30m -8s` where the conversion returns `-2^63` (amd64)
and `106751991167300d 15h 30m 7s` where it returns `2^63 - 1` (arm64). -/
theorem humanizeDuration_overflow_counterexample :
    (Float64.ofNat (2 ^ 63)).Valid ∧
    (mathAbs (Float64.ofNat (2 ^ 63))).ge (Float64.ofNat 60) = true ∧
    durationString "" (truncAbs (Float64.ofNat (2 ^ 63))) = "106751991167300d 15h 30m 8s" ∧
    humanizeDuration (-(2 ^ 63)) (Float64.ofNat (2 ^ 63)) = "-106751991167300d -15h -30m -8s" ∧
    humanizeDuration (2 ^ 63 - 1) (Float64.ofNat (2 ^ 63)) = "106751991167300d 15h 30m 7s" := by
  refine ⟨by decide, by decide, by decide, by decide, by decide⟩

/-- C8, amended: for every finite `v` with `|v| ≥ 60` whose truncated integer part `n`
is below `2^63`, `humanizeDuration(v)` is the sign (`-` if `v < 0`) followed by the
days, hours, minutes and seconds of `n` from the coarsest non-zero unit down, lower
units printed even when zero; so the result depends on the sign and on `n` only. -/
theorem humanizeDuration_large (ovf : Int) (s : Bool) (m : Nat)
    (h1 : (mathAbs (Float64.fin s m)).ge (Float64.ofNat 60) = true)
    (h2 : truncAbs (Float64.fin s m) < 2 ^ 63) :
    humanizeDuration ovf (Float64.fin s m) =
      durationString (if (Float64.fin s m).lt f64Zero then "-" else "")
        (truncAbs (Float64.fin s m)) := by
  rw [ge_ofNat_fin, decide_eq_true_iff] at h1
  have h60 : 60 ≤ m / 2 ^ 1074 := by
    rw [Nat.le_div_iff_mul_le (Nat.two_pow_pos _)]
    exact h1
  have hm : 0 < m := lt_of_lt_of_le (by positivity) h1
  have hone : (mathAbs (Float64.fin s m)).ge f64One = true := by
    rw [ge_one_fin, decide_eq_true_iff]
    exact le_trans (by norm_num) h1
  have hz : (Float64.fin s m).eq f64Zero = false := by
    rw [eq_zero_fin, decide_eq_false_iff_not]
    omega
  simp only [truncAbs] at h2 h60 ⊢
  unfold humanizeDuration
  simp only [mathIsNaN, mathIsInf, Bool.or_self, Bool.false_eq_true, if_false, hz, hone,
    if_true, posPart_fin s m hm, toInt64_fin_nonneg ovf m h2, durationParts_natCast,
    fmtInt_natCast, durationString]
  generalize m / 2 ^ 1074 = n at h2 h60 ⊢
  have c1 : (((n / 86400 : Nat) : Int) ≠ 0) ↔ (n / 86400 ≠ 0) := by
    simp only [ne_eq, Nat.cast_eq_zero]
  have c2 : (((n / 3600 % 24 : Nat) : Int) ≠ 0) ↔ (n / 3600 % 24 ≠ 0) := by
    simp only [ne_eq, Nat.cast_eq_zero]
  have c3 : (((n / 60 % 60 : Nat) : Int) ≠ 0) ↔ (n / 60 % 60 ≠ 0) := by
    simp only [ne_eq, Nat.cast_eq_zero]
  simp only [c1, c2, c3]
  by_cases hd : n / 86400 ≠ 0
  · rw [if_pos hd, if_pos hd]
  · rw [if_neg hd, if_neg hd]
    by_cases hh : n / 3600 % 24 ≠ 0
    · rw [if_pos hh, if_pos hh]
    · have hmin : n / 60 % 60 ≠ 0 := by omega
      rw [if_neg hh, if_neg hh, if_pos hmin]

/-- Witness for C8 as amended: `humanizeDuration(90061) = "1d 1h 1m 1s"` and
`humanizeDuration(-65) = "-1m 5s"`. -/
theorem humanizeDuration_large_witness :
    humanizeDuration 0 (Float64.fin false (90061 * 2 ^ 1074)) = "1d 1h 1m 1s" ∧
    humanizeDuration 0 (Float64.fin true (65 * 2 ^ 1074)) = "-1m 5s" :=
  ⟨(humanizeDuration_large 0 false (90061 * 2 ^ 1074) (by decide) (by decide)).trans
      (by decide),
    (humanizeDuration_large 0 true (65 * 2 ^ 1074) (by decide) (by decide)).trans
      (by decide)⟩

/-- Counterexample to C10: negative zero is a float64 that compares equal to zero, and
`humanizeDuration` prints it as `-0s`. -/
theorem humanizeDuration_negative_zero_counterexample :
    (Float64.fin true 0).Valid ∧
    (Float64.fin true 0).eq f64Zero = true ∧
    (∀ ovf : Int, humanizeDuration ovf (Float64.fin true 0) = "-0s") ∧
    "-0s" ≠ "0s" := by
  refine ⟨by decide, by decide, ?_, by decide⟩
  intro ovf
  rfl

/-- C10, amended: an input that compares equal to zero is positive zero or negative
zero; `humanizeDuration` formats it with `%.4g` and appends `s`, which gives `0s` for
positive zero and `-0s` for negative zero. -/
theorem humanizeDuration_zero (ovf : Int) (v : Float64) (h : v.eq f64Zero = true) :
    humanizeDuration ovf v = sprintfG4 v ++ "s" ∧
    ((v = Float64.fin false 0 ∧ humanizeDuration ovf v = "0s") ∨
      (v = Float64.fin true 0 ∧ humanizeDuration ovf v = "-0s")) := by
  cases v with
  | nan => exact absurd h (by decide)
  | inf s =>
    exfalso
    cases s <;>
      simp only [Float64.eq, Float64.key, f64Zero, Float64.ofNat, zero_mul, Nat.cast_zero,
        Bool.false_eq_true, if_false, if_true, decide_eq_true_iff] at h <;>
      norm_num at h
  | fin s m =>
    rw [eq_zero_fin, decide_eq_true_iff] at h
    subst h
    cases s
    · exact ⟨rfl, Or.inl ⟨rfl, rfl⟩⟩
    · exact ⟨rfl, Or.inr ⟨rfl, rfl⟩⟩

/-- Witness for C10 as amended: positive zero. -/
theorem humanizeDuration_zero_witness :
    humanizeDuration 0 (Float64.fin false 0) = sprintfG4 (Float64.fin false 0) ++ "s" ∧
    ((Float64.fin false 0 = Float64.fin false 0 ∧
        humanizeDuration 0 (Float64.fin false 0) = "0s") ∨
      (Float64.fin false 0 = Float64.fin true 0 ∧
        humanizeDuration 0 (Float64.fin false 0) = "-0s")) :=
  humanizeDuration_zero 0 (Float64.fin false 0) (by decide)

/-! ### The scaling loop -/

theorem nextMag_one : nextMag (2 ^ 1074) = 1000 * 2 ^ 1074 := by decide

theorem nextMag_magBelowOne : nextMag magBelowOne = 1000 * 2 ^ 1074 - 2 ^ 1031 := by decide

theorem nextMag_magToOne : 2 ^ 1074 ≤ nextMag magToOne := by decide

theorem nextMag_pred_magToOne : nextMag (magToOne - 1) = magBelowOne := by decide

set_option maxRecDepth 20000 in
theorem nextMag_iterate_magYocto : 2 ^ 1074 ≤ nextMag^[8] magYocto := by decide

theorem mul_thousand_fin (s : Bool) (m : Nat) (h : m ≤ 2 ^ 1074) :
    (Float64.fin s m).mul f64Thousand = Float64.fin s (nextMag m) := by
  have hb : nextMag m ≤ 1000 * 2 ^ 1074 := by
    rw [← nextMag_one]
    exact nextMag_mono m (2 ^ 1074) h (by norm_num)
  have hlt : nextMag m < 2 ^ 2098 := lt_of_le_of_lt hb (by norm_num)
  simp only [f64Thousand, Float64.ofNat, Float64.mul, Bool.xor_false, Float64.ofMag]
  rw [if_pos]
  · rfl
  · exact hlt

theorem nextMag_gap (x : Nat) (hx : x < 2 ^ 1074) :
    nextMag x ≤ magBelowOne ∨ 2 ^ 1074 ≤ nextMag x := by
  by_cases h : x < magToOne
  · left
    rw [← nextMag_pred_magToOne]
    exact nextMag_mono x (magToOne - 1) (by omega) (by decide)
  · right
    exact le_trans nextMag_magToOne
      (nextMag_mono magToOne x (not_lt.1 h) (lt_trans hx (by norm_num)))

theorem valid_below_one (s : Bool) (m : Nat) (hv : (Float64.fin s m).Valid)
    (hm : m < 2 ^ 1074) : m ≤ magBelowOne := by
  rcases Nat.eq_zero_or_pos m with rfl | hpos
  · exact Nat.zero_le _
  · have hsp := ilog2_spec m hpos (lt_trans hm (by norm_num))
    have he : ilog2 m < 1074 := by
      by_contra hc
      have : 2 ^ 1074 ≤ 2 ^ ilog2 m := Nat.pow_le_pow_right (by norm_num) (not_lt.1 hc)
      omega
    by_cases h73 : ilog2 m = 1073
    · have hd := hv.1
      rw [h73] at hd
      have hd2 : m % 2 ^ 1021 = 0 := hd
      obtain ⟨q, hq⟩ := Nat.dvd_of_mod_eq_zero hd2
      have hq2 : q < 2 ^ 53 := by
        by_contra hc
        have h1 : 2 ^ 1021 * 2 ^ 53 ≤ 2 ^ 1021 * q := Nat.mul_le_mul_left _ (not_lt.1 hc)
        have h2 : (2 : Nat) ^ 1021 * 2 ^ 53 = 2 ^ 1074 := by rw [← pow_add]
        omega
      rw [hq, magBelowOne, Nat.mul_comm]
      exact Nat.mul_le_mul_right _ (by omega)
    · have h1 : 2 ^ (ilog2 m + 1) ≤ 2 ^ 1073 :=
        Nat.pow_le_pow_right (by norm_num) (by omega)
      have h2 : 2 ^ 1073 ≤ magBelowOne := by decide
      omega

theorem scaled_succ (j : Nat) (v : Float64) :
    scaled (j + 1) v = scaled j (v.mul f64Thousand) := by
  unfold scaled
  rw [Function.iterate_succ_apply]

theorem scaled_succ_outer (j : Nat) (v : Float64) :
    scaled (j + 1) v = (scaled j v).mul f64Thousand := by
  unfold scaled
  rw [Function.iterate_succ_apply']

theorem scaleLoop_spec : ∀ (ps : List String) (v : Float64) (pfx : String),
    ∃ j, j ≤ ps.length ∧
      scaleLoop v pfx ps = (scaled j v, if j = 0 then pfx else ps.getD (j - 1) "") ∧
      (∀ i, i < j → (mathAbs (scaled i v)).ge f64One = false) ∧
      (j < ps.length → (mathAbs (scaled j v)).ge f64One = true)
  | [], v, pfx => ⟨0, le_refl _, rfl, fun i hi => absurd hi (Nat.not_lt_zero i),
      fun h => absurd h (Nat.lt_irrefl _)⟩
  | p :: ps, v, pfx => by
    by_cases hge : (mathAbs v).ge f64One = true
    · refine ⟨0, Nat.zero_le _, ?_, fun i hi => absurd hi (Nat.not_lt_zero i), fun _ => hge⟩
      simp only [scaleLoop, hge, if_true]
      rfl
    · obtain ⟨j, hj1, hj2, hj3, hj4⟩ := scaleLoop_spec ps (v.mul f64Thousand) p
      refine ⟨j + 1, Nat.succ_le_succ hj1, ?_, ?_, ?_⟩
      · simp only [scaleLoop, hge, if_false, hj2, scaled_succ, Bool.false_eq_true]
        congr 1
        cases j with
        | zero => simp
        | succ j => simp
      · intro i hi
        cases i with
        | zero => simpa [scaled] using hge
        | succ i =>
          rw [scaled_succ]
          exact hj3 i (by omega)
      · intro h
        rw [scaled_succ]
        exact hj4 (by simpa using h)

theorem scaled_chain (s : Bool) (m k : Nat)
    (hlt : ∀ i, i < k → (mathAbs (scaled i (Float64.fin s m))).ge f64One = false) :
    ∀ i, i ≤ k → scaled i (Float64.fin s m) = Float64.fin s (nextMag^[i] m)
  | 0, _ => rfl
  | i + 1, hi => by
    have ih := scaled_chain s m k hlt i (by omega)
    have h1 := hlt i (by omega)
    rw [ih, ge_one_fin, decide_eq_false_iff_not, not_le] at h1
    rw [scaled_succ_outer, ih, mul_thousand_fin s _ (le_of_lt h1),
      Function.iterate_succ_apply']

theorem one_us_not_nano (t : String) : ("1us" : String) ≠ t ++ "n" ++ "s" := by
  intro h
  have h1 := congrArg String.data h
  simp only [String.data_append] at h1
  have h2 := congrArg List.length h1
  simp at h2
  match t, h1, h2 with
  | ⟨[c]⟩, h1, _ => simp at h1

/-- Counterexample to C9 as stated. The float64 nearest to `0.000001` lies below
`10^-6`: `|v| * 1000^2 < 1 ≤ |v| * 1000^3`, so the least `k` with `|v| * 1000^k ≥ 1`
is 3 and the claim gives a text that ends in the prefix `n` and `s`; the code
multiplies in float64, has a product of magnitude at least `1` after two steps and
returns `1us`, which is no text followed by `n` and `s`. The float64 nearest to
`0.99999` has `|v| ≥ 1000^-8` and `1 ≤ |v| * 1000 < 1000`, and the code returns
`1000ms`: the printed scaled value is `1000`, not a number below `1000`. -/
theorem humanizeDuration_small_counterexample :
    ((f64OfRatio false 1 1000000).Valid ∧
      mathIsNaN (f64OfRatio false 1 1000000) = false ∧
      mathIsInf (f64OfRatio false 1 1000000) = false ∧
      (f64OfRatio false 1 1000000).eq f64Zero = false ∧
      (mathAbs (f64OfRatio false 1 1000000)).ge f64One = false ∧
      (f64OfRatio false 1 1000000).mag * 1000 ^ 2 < 2 ^ 1074 ∧
      2 ^ 1074 ≤ (f64OfRatio false 1 1000000).mag * 1000 ^ 3 ∧
      humanizeDuration 0 (f64OfRatio false 1 1000000) = "1us" ∧
      ∀ t : String, humanizeDuration 0 (f64OfRatio false 1 1000000) ≠ t ++ "n" ++ "s") ∧
    ((f64OfRatio false 99999 100000).Valid ∧
      (mathAbs (f64OfRatio false 99999 100000)).ge f64One = false ∧
      2 ^ 1074 ≤ (f64OfRatio false 99999 100000).mag * 1000 ^ 8 ∧
      2 ^ 1074 ≤ (f64OfRatio false 99999 100000).mag * 1000 ∧
      (f64OfRatio false 99999 100000).mag * 1000 < 1000 * 2 ^ 1074 ∧
      sprintfG4 (scaled 1 (f64OfRatio false 99999 100000)) = "1000" ∧
      humanizeDuration 0 (f64OfRatio false 99999 100000) = "1000ms") := by
  have h : humanizeDuration 0 (f64OfRatio false 1 1000000) = "1us" := by decide
  refine ⟨⟨by decide, by decide, by decide, by decide, by decide, by decide, by decide, h, ?_⟩,
    by decide⟩
  intro t
  rw [h]
  exact one_us_not_nano t

/-- C9, amended: for every finite nonzero `v` with `|v| < 1` there is `k` in `1..8` such
that `humanizeDuration(v)` is `%.4g` of the float64 value of `v` after `k` executions of
`v *= 1000` (each product rounded to float64, as the code computes it), followed by the
`k`-th of the prefixes m, u, n, p, f, a, z, y and `s`; no smaller number of executions
brings the magnitude of that value to `1` or more, and `k = 8` or `k` executions do.
When `v` is a float64 with `|v| ≥ 1000^-8`, the value given to `%.4g` has magnitude at
least `1` and below `1000` (its text can still read `1000`). -/
theorem humanizeDuration_small (ovf : Int) (v : Float64)
    (hn : mathIsNaN v = false) (hi : mathIsInf v = false)
    (hz : v.eq f64Zero = false) (h1 : (mathAbs v).ge f64One = false) :
    ∃ k, 1 ≤ k ∧ k ≤ 8 ∧
      humanizeDuration ovf v = sprintfG4 (scaled k v) ++ metricUnits.getD (k - 1) "" ++ "s" ∧
      (∀ j, 1 ≤ j → j < k → (mathAbs (scaled j v)).ge f64One = false) ∧
      (k < 8 → (mathAbs (scaled k v)).ge f64One = true) ∧
      (v.Valid → 2 ^ 1074 ≤ v.mag * 1000 ^ 8 →
        (mathAbs (scaled k v)).ge f64One = true ∧
        (mathAbs (scaled k v)).lt f64Thousand = true) := by
  cases v with
  | nan => simp [mathIsNaN] at hn
  | inf s => simp [mathIsInf] at hi
  | fin s m =>
    obtain ⟨j, hj1, hj2, hj3, hj4⟩ := scaleLoop_spec metricUnits (Float64.fin s m) ""
    have hlen : metricUnits.length = 8 := rfl
    rw [hlen] at hj1 hj4
    have hj0 : j ≠ 0 := by
      intro h0
      subst h0
      have := hj4 (by norm_num)
      rw [show scaled 0 (Float64.fin s m) = Float64.fin s m from rfl, h1] at this
      exact Bool.false_ne_true this
    have hm1 : m < 2 ^ 1074 := by
      rw [ge_one_fin, decide_eq_false_iff_not, not_le] at h1
      exact h1
    have hchain := scaled_chain s m j hj3
    have hbelow : ∀ i, i < j → nextMag^[i] m < 2 ^ 1074 := by
      intro i hij
      have := hj3 i hij
      rw [hchain i (le_of_lt hij), ge_one_fin, decide_eq_false_iff_not, not_le] at this
      exact this
    refine ⟨j, Nat.pos_of_ne_zero hj0, hj1, ?_, fun i _ hi2 => hj3 i hi2, hj4, ?_⟩
    · unfold humanizeDuration
      simp only [hn, hi, hz, h1, Bool.or_self, Bool.false_eq_true, if_false, hj2, hj0]
    · intro hv hy
      simp only [Float64.mag] at hy
      rw [hchain j (le_refl _), ge_one_fin, f64Thousand, lt_ofNat_fin, decide_eq_true_iff,
        decide_eq_true_iff]
      obtain ⟨i, rfl⟩ : ∃ i, j = i + 1 := ⟨j - 1, by omega⟩
      rw [Function.iterate_succ_apply']
      have hprev : nextMag^[i] m ≤ magBelowOne := by
        cases i with
        | zero => exact valid_below_one s m hv hm1
        | succ i0 =>
          have hb := hbelow (i0 + 1) (by omega)
          rw [Function.iterate_succ_apply'] at hb ⊢
          rcases nextMag_gap (nextMag^[i0] m) (hbelow i0 (by omega)) with hg | hg
          · exact hg
          · omega
      constructor
      · by_cases h8 : i + 1 < 8
        · have := hj4 h8
          rw [hchain (i + 1) (le_refl _), ge_one_fin, decide_eq_true_iff,
            Function.iterate_succ_apply'] at this
          exact this
        · have hi7 : i = 7 := by omega
          subst hi7
          have hC : magYocto ≤ m := by
            unfold magYocto
            rw [Nat.div_le_iff_le_mul_add_pred (by positivity)]
            have : (1000 : Nat) ^ 8 = 10 ^ 24 := by norm_num
            rw [this] at hy
            omega
          have hmono : ∀ i, i ≤ 8 → nextMag^[i] magYocto ≤ nextMag^[i] m := by
            intro i
            induction i with
            | zero => intro _; exact hC
            | succ i ih =>
              intro hi8
              rw [Function.iterate_succ_apply', Function.iterate_succ_apply']
              exact nextMag_mono _ _ (ih (by omega))
                (lt_trans (hbelow i (by omega)) (by norm_num))
          rw [← Function.iterate_succ_apply' nextMag 7 m]
          exact le_trans nextMag_iterate_magYocto (hmono 8 (le_refl _))
      · have h1 := nextMag_mono _ _ hprev (by decide)
        rw [nextMag_magBelowOne] at h1
        have : 1000 * 2 ^ 1074 - 2 ^ 1031 < 1000 * 2 ^ 1074 := by norm_num
        omega

/-- Witness for the amended C9: `humanizeDuration(0.0001) = "100us"`. -/
theorem humanizeDuration_small_witness :
    (∃ k, 1 ≤ k ∧ k ≤ 8 ∧
      humanizeDuration 0 (f64OfRatio false 1 10000) =
        sprintfG4 (scaled k (f64OfRatio false 1 10000)) ++ metricUnits.getD (k - 1) "" ++ "s" ∧
      (∀ j, 1 ≤ j → j < k →
        (mathAbs (scaled j (f64OfRatio false 1 10000))).ge f64One = false) ∧
      (k < 8 → (mathAbs (scaled k (f64OfRatio false 1 10000))).ge f64One = true) ∧
      ((f64OfRatio false 1 10000).Valid → 2 ^ 1074 ≤ (f64OfRatio false 1 10000).mag * 1000 ^ 8 →
        (mathAbs (scaled k (f64OfRatio false 1 10000))).ge f64One = true ∧
        (mathAbs (scaled k (f64OfRatio false 1 10000))).lt f64Thousand = true)) ∧
    humanizeDuration 0 (f64OfRatio false 1 10000) = "100us" :=
  ⟨humanizeDuration_small 0 (f64OfRatio false 1 10000) (by decide) (by decide) (by decide)
    (by decide), by decide⟩

/-! ### The remaining branches -/

/-- C11: for every finite `v` with `1 ≤ |v| < 60`, `humanizeDuration(v)` is the sign
(`-` exactly when `v < 0`), then `%.4g` of the absolute value of `v`, not truncated,
then `s`. -/
theorem humanizeDuration_seconds (ovf : Int) (s : Bool) (m : Nat)
    (h1 : (mathAbs (Float64.fin s m)).ge f64One = true)
    (h2 : (mathAbs (Float64.fin s m)).lt (Float64.ofNat 60) = true) :
    humanizeDuration ovf (Float64.fin s m) =
      (if (Float64.fin s m).lt f64Zero then "-" else "") ++
        sprintfG4 (mathAbs (Float64.fin s m)) ++ "s" ∧
    ((Float64.fin s m).lt f64Zero = true ↔ s = true) := by
  have hone := h1
  rw [ge_one_fin, decide_eq_true_iff] at h1
  rw [lt_ofNat_fin, decide_eq_true_iff] at h2
  have hm : 0 < m := lt_of_lt_of_le (Nat.two_pow_pos _) h1
  have hn60 : m / 2 ^ 1074 < 60 := by
    rw [Nat.div_lt_iff_lt_mul (Nat.two_pow_pos _)]
    exact h2
  have hn63 : m / 2 ^ 1074 < 2 ^ 63 := lt_trans hn60 (by norm_num)
  have hz : (Float64.fin s m).eq f64Zero = false := by
    rw [eq_zero_fin, decide_eq_false_iff_not]
    omega
  constructor
  · unfold humanizeDuration
    simp only [mathIsNaN, mathIsInf, Bool.or_self, Bool.false_eq_true, if_false, hz, hone,
      if_true, posPart_fin s m hm, toInt64_fin_nonneg ovf m hn63, durationParts_natCast]
    generalize m / 2 ^ 1074 = n at hn60
    have c1 : ¬ (((n / 86400 : Nat) : Int) ≠ 0) := by
      have : n / 86400 = 0 := by omega
      simp [this]
    have c2 : ¬ (((n / 3600 % 24 : Nat) : Int) ≠ 0) := by
      have : n / 3600 % 24 = 0 := by omega
      simp [this]
    have c3 : ¬ (((n / 60 % 60 : Nat) : Int) ≠ 0) := by
      have : n / 60 % 60 = 0 := by omega
      simp [this]
    rw [if_neg c1, if_neg c2, if_neg c3]
    rfl
  · rw [lt_zero_fin]
    simp [hm]

/-- Witness for C11: `humanizeDuration(3.5) = "3.5s"`. -/
theorem humanizeDuration_seconds_witness :
    humanizeDuration 0 (Float64.fin false (7 * 2 ^ 1073)) = "3.5s" ∧
    humanizeDuration 0 (Float64.fin true (7 * 2 ^ 1073)) = "-3.5s" :=
  ⟨(humanizeDuration_seconds 0 false (7 * 2 ^ 1073) (by decide) (by decide)).1.trans
      (by decide),
    (humanizeDuration_seconds 0 true (7 * 2 ^ 1073) (by decide) (by decide)).1.trans
      (by decide)⟩

/-- C12: for NaN, `+Inf` and `-Inf`, `humanizeDuration(v)` is the `%.4g` formatting of
`v`, namely `NaN`, `+Inf` and `-Inf`, with no unit appended; the first test of the
function holds for these values and for no other, so no later branch is reached. -/
theorem humanizeDuration_special :
    (∀ ovf : Int, humanizeDuration ovf Float64.nan = sprintfG4 Float64.nan) ∧
    (∀ ovf : Int, humanizeDuration ovf (Float64.inf false) = sprintfG4 (Float64.inf false)) ∧
    (∀ ovf : Int, humanizeDuration ovf (Float64.inf true) = sprintfG4 (Float64.inf true)) ∧
    sprintfG4 Float64.nan = "NaN" ∧
    sprintfG4 (Float64.inf false) = "+Inf" ∧
    sprintfG4 (Float64.inf true) = "-Inf" ∧
    (∀ v : Float64, (mathIsNaN v || mathIsInf v) = true ↔
      (v = Float64.nan ∨ v = Float64.inf false ∨ v = Float64.inf true)) ∧
    (∀ (ovf : Int) (v : Float64), (mathIsNaN v || mathIsInf v) = true →
      humanizeDurationRun ovf v = some (sprintfG4 v, 0)) := by
  have first : ∀ (ovf : Int) (v : Float64), (mathIsNaN v || mathIsInf v) = true →
      humanizeDuration ovf v = sprintfG4 v := by
    intro ovf v h
    unfold humanizeDuration
    rw [if_pos h]
  refine ⟨fun ovf => first ovf _ rfl, fun ovf => first ovf _ rfl, fun ovf => first ovf _ rfl,
    rfl, rfl, rfl, ?_, ?_⟩
  · intro v
    cases v with
    | nan => simp [mathIsNaN]
    | inf s => cases s <;> simp [mathIsNaN, mathIsInf]
    | fin s m => simp [mathIsNaN, mathIsInf]
  · intro ovf v h
    unfold humanizeDurationRun
    rw [if_pos h]

theorem nextMag_iterate_magSubYocto_lt :
    ∀ i, i < 8 → nextMag^[i] magSubYocto < 2 ^ 1074 := by
  intro i hi
  have h0 : nextMag^[0] magSubYocto < 2 ^ 1074 := by decide
  have h1 : nextMag^[1] magSubYocto < 2 ^ 1074 := by decide
  have h2 : nextMag^[2] magSubYocto < 2 ^ 1074 := by decide
  have h3 : nextMag^[3] magSubYocto < 2 ^ 1074 := by decide
  have h4 : nextMag^[4] magSubYocto < 2 ^ 1074 := by decide
  have h5 : nextMag^[5] magSubYocto < 2 ^ 1074 := by decide
  have h6 : nextMag^[6] magSubYocto < 2 ^ 1074 := by decide
  have h7 : nextMag^[7] magSubYocto < 2 ^ 1074 := by decide
  interval_cases i <;> assumption

set_option maxRecDepth 20000 in
theorem nextMag_iterate_magSubYocto :
    nextMag^[8] magSubYocto = 2 ^ 1074 + 2 ^ 1022 := by decide

/-- Below `1000^-8` the loop multiplies eight times: the values stay finite, with
magnitudes bounded by those reached from the greatest magnitude below `1000^-8`. -/
theorem scaled_tiny (s : Bool) (m : Nat) (hlt : m * 1000 ^ 8 < 2 ^ 1074) :
    ∀ i, i ≤ 8 → scaled i (Float64.fin s m) = Float64.fin s (nextMag^[i] m) ∧
      nextMag^[i] m ≤ nextMag^[i] magSubYocto
  | 0, _ => by
    refine ⟨rfl, ?_⟩
    simp only [Function.iterate_zero, id_eq]
    unfold magSubYocto
    rw [Nat.le_div_iff_mul_le (by positivity)]
    have : (1000 : Nat) ^ 8 = 10 ^ 24 := by norm_num
    rw [this] at hlt
    omega
  | i + 1, hi => by
    obtain ⟨ih1, ih2⟩ := scaled_tiny s m hlt i (by omega)
    have hb := nextMag_iterate_magSubYocto_lt i (by omega)
    have hlt1 : nextMag^[i] m < 2 ^ 1074 := lt_of_le_of_lt ih2 hb
    constructor
    · rw [scaled_succ_outer, ih1, mul_thousand_fin s _ (le_of_lt hlt1),
        Function.iterate_succ_apply']
    · rw [Function.iterate_succ_apply', Function.iterate_succ_apply']
      exact nextMag_mono _ _ ih2 (lt_trans hb (by norm_num))

theorem scaled_tiny_below_one (s : Bool) (m : Nat) (hlt : m * 1000 ^ 8 < 2 ^ 1074)
    (i : Nat) (hi : i < 8) : (mathAbs (scaled i (Float64.fin s m))).ge f64One = false := by
  obtain ⟨h1, h2⟩ := scaled_tiny s m hlt i (le_of_lt hi)
  rw [h1, ge_one_fin, decide_eq_false_iff_not, not_le]
  exact lt_of_le_of_lt h2 (nextMag_iterate_magSubYocto_lt i hi)

theorem scaled_tiny_bound (s : Bool) (m : Nat) (hlt : m * 1000 ^ 8 < 2 ^ 1074) :
    ∃ x, scaled 8 (Float64.fin s m) = Float64.fin s x ∧ x ≤ 2 ^ 1074 + 2 ^ 1022 :=
  ⟨_, (scaled_tiny s m hlt 8 (le_refl _)).1,
    le_trans (scaled_tiny s m hlt 8 (le_refl _)).2 (le_of_eq nextMag_iterate_magSubYocto)⟩

/-- Counterexample to C13: no finite nonzero `v` with `|v| < 1000^-8` is printed with a
scaled value of magnitude `1000` or more; the magnitude of `v * 1000^8` never exceeds
`1 + 2^-52`. -/
theorem humanizeDuration_tiny_counterexample :
    ¬ ∃ v : Float64, mathIsNaN v = false ∧ mathIsInf v = false ∧ v.eq f64Zero = false ∧
      v.mag * 1000 ^ 8 < 2 ^ 1074 ∧ (mathAbs (scaled 8 v)).ge f64Thousand = true := by
  rintro ⟨v, hn, hi, _, hlt, hge⟩
  cases v with
  | nan => simp [mathIsNaN] at hn
  | inf s => simp [mathIsInf] at hi
  | fin s m =>
    simp only [Float64.mag] at hlt
    obtain ⟨x, hx, hb⟩ := scaled_tiny_bound s m hlt
    rw [hx, f64Thousand, ge_ofNat_fin, decide_eq_true_iff] at hge
    have : (2 : Nat) ^ 1074 + 2 ^ 1022 < 1000 * 2 ^ 1074 := by norm_num
    omega

/-- C13, amended: for every finite nonzero `v` with `|v| < 1000^-8`, `humanizeDuration`
goes through the whole list of prefixes: no number of multiplications below eight
brings the magnitude to `1`, the last prefix `y` is used, and the value printed is `v`
after eight multiplications by `1000`, of magnitude at most `1 + 2^-52`. -/
theorem humanizeDuration_tiny (ovf : Int) (v : Float64)
    (hn : mathIsNaN v = false) (hi : mathIsInf v = false)
    (hz : v.eq f64Zero = false) (hlt : v.mag * 1000 ^ 8 < 2 ^ 1074) :
    humanizeDuration ovf v = sprintfG4 (scaled 8 v) ++ "y" ++ "s" ∧
    (∀ j, j < 8 → (mathAbs (scaled j v)).ge f64One = false) ∧
    (scaled 8 v).mag ≤ 2 ^ 1074 + 2 ^ 1022 := by
  cases v with
  | nan => simp [mathIsNaN] at hn
  | inf s => simp [mathIsInf] at hi
  | fin s m =>
    simp only [Float64.mag] at hlt
    have hbelow := scaled_tiny_below_one s m hlt
    obtain ⟨x, hx, hb⟩ := scaled_tiny_bound s m hlt
    refine ⟨?_, hbelow, by rw [hx]; exact hb⟩
    obtain ⟨j, hj1, hj2, _, hj4⟩ := scaleLoop_spec metricUnits (Float64.fin s m) ""
    have hlen : metricUnits.length = 8 := rfl
    rw [hlen] at hj1 hj4
    have hj8 : j = 8 := by
      by_contra hne
      have hj : j < 8 := by omega
      have := hj4 hj
      rw [hbelow j hj] at this
      exact Bool.false_ne_true this
    have hj0 : j ≠ 0 := by omega
    have h1 : (mathAbs (Float64.fin s m)).ge f64One = false := hbelow 0 (by norm_num)
    have hy : metricUnits.getD (8 - 1) "" = "y" := by decide
    unfold humanizeDuration
    simp only [hn, hi, hz, h1, Bool.or_self, Bool.false_eq_true, if_false, hj2, hj0]
    rw [hj8, hy]

set_option maxRecDepth 20000 in
/-- Witness for C13 as amended: the smallest positive float64, `5e-324`, is printed
as `4.941e-300ys`. -/
theorem humanizeDuration_tiny_witness :
    humanizeDuration 0 (Float64.fin false 1) = "4.941e-300ys" :=
  (humanizeDuration_tiny 0 (Float64.fin false 1) (by decide) (by decide) (by decide)
    (by decide)).1.trans (by decide)

/-! ### Totality and negation -/

theorem scaleLoopCount_spec : ∀ (ps : List String) (v : Float64) (pfx : String) (n : Nat),
    ∃ c, c ≤ ps.length ∧
      scaleLoopCount v pfx n ps = ((scaleLoop v pfx ps).1, (scaleLoop v pfx ps).2, n + c)
  | [], v, pfx, n => ⟨0, le_refl _, rfl⟩
  | p :: ps, v, pfx, n => by
    by_cases hge : (mathAbs v).ge f64One = true
    · refine ⟨0, Nat.zero_le _, ?_⟩
      simp only [scaleLoopCount, scaleLoop, hge, if_true, Nat.add_zero]
    · obtain ⟨c, hc1, hc2⟩ := scaleLoopCount_spec ps (v.mul f64Thousand) p (n + 1)
      refine ⟨c + 1, Nat.succ_le_succ hc1, ?_⟩
      simp only [scaleLoopCount, scaleLoop, hge, if_false, hc2, Bool.false_eq_true]
      have : n + 1 + c = n + (c + 1) := by omega
      rw [this]

theorem goDiv_of_ne_zero (a b : Int) (hb : b ≠ 0) : goDiv a b = some (Int.tdiv a b) := by
  unfold goDiv
  rw [if_neg hb]

theorem goMod_of_ne_zero (a b : Int) (hb : b ≠ 0) : goMod a b = some (Int.tmod a b) := by
  unfold goMod
  rw [if_neg hb]

/-- C15: for every float input, NaN, the infinities and zero included, the run of
`humanizeDuration` ends without a panic and returns the string of `humanizeDuration`;
it performs at most 8 multiplications by `1000`, and the divisions and remainders by
the constants 60 and 24 never fail. -/
theorem humanizeDuration_total :
    (∀ (ovf : Int) (v : Float64), ∃ n, humanizeDurationRun ovf v =
      some (humanizeDuration ovf v, n) ∧ n ≤ 8) ∧
    (∀ x : Int, goDiv x 60 = some (Int.tdiv x 60) ∧ goMod x 60 = some (Int.tmod x 60) ∧
      goDiv x 24 = some (Int.tdiv x 24) ∧ goMod x 24 = some (Int.tmod x 24)) := by
  have h60 : (60 : Int) ≠ 0 := by norm_num
  have h24 : (24 : Int) ≠ 0 := by norm_num
  refine ⟨?_, fun x => ⟨goDiv_of_ne_zero x 60 h60, goMod_of_ne_zero x 60 h60,
    goDiv_of_ne_zero x 24 h24, goMod_of_ne_zero x 24 h24⟩⟩
  intro ovf v
  unfold humanizeDurationRun humanizeDuration
  by_cases hs : (mathIsNaN v || mathIsInf v) = true
  · exact ⟨0, by rw [if_pos hs, if_pos hs], Nat.zero_le _⟩
  · rw [if_neg hs, if_neg hs]
    by_cases hz : v.eq f64Zero = true
    · exact ⟨0, by rw [if_pos hz, if_pos hz], Nat.zero_le _⟩
    · rw [if_neg hz, if_neg hz]
      by_cases hge : (mathAbs v).ge f64One = true
      · refine ⟨0, ?_, Nat.zero_le _⟩
        rw [if_pos hge, if_pos hge]
        simp only [goDiv_of_ne_zero _ 60 h60, goMod_of_ne_zero _ 60 h60,
          goDiv_of_ne_zero _ 24 h24, goMod_of_ne_zero _ 24 h24, durationParts]
        split_ifs <;> rfl
      · rw [if_neg hge, if_neg hge]
        obtain ⟨c, hc1, hc2⟩ := scaleLoopCount_spec metricUnits v "" 0
        refine ⟨c, ?_, hc1⟩
        simp only [hc2, Nat.zero_add]

theorem empty_append_data (s : String) : "" ++ s = s := by
  cases s
  exact String.ext (List.nil_append _)

/-- C17: for every finite `v ≥ 1`, `humanizeDuration(-v)` is a minus sign followed by
`humanizeDuration(v)`. -/
theorem humanizeDuration_neg (ovf : Int) (v : Float64)
    (hn : mathIsNaN v = false) (hi : mathIsInf v = false) (h1 : v.ge f64One = true) :
    humanizeDuration ovf v.neg = "-" ++ humanizeDuration ovf v := by
  cases v with
  | nan => simp [mathIsNaN] at hn
  | inf s => simp [mathIsInf] at hi
  | fin s m =>
    have hs : s = false := by
      cases s
      · rfl
      · exfalso
        simp only [Float64.ge, Float64.key, f64One, Float64.ofNat, if_true, one_mul,
          decide_eq_true_iff, Bool.false_eq_true, if_false] at h1
        have h2 : (0 : Int) ≤ (m : Int) := Int.ofNat_nonneg m
        have h3 : (0 : Int) < ((2 ^ 1074 : Nat) : Int) := by positivity
        generalize ((2 ^ 1074 : Nat) : Int) = c at h1 h3
        omega
    subst hs
    have hm : 2 ^ 1074 ≤ m := by
      simp only [Float64.ge, Float64.key, f64One, Float64.ofNat, one_mul,
        decide_eq_true_iff, Bool.false_eq_true, if_false] at h1
      exact_mod_cast h1
    have hge : (mathAbs (Float64.fin false m)).ge f64One = true := by
      rw [ge_one_fin, decide_eq_true_iff]
      exact hm
    have hge' : (mathAbs (Float64.fin true m)).ge f64One = true := by
      rw [ge_one_fin, decide_eq_true_iff]
      exact hm
    have hpos : 0 < m := lt_of_lt_of_le (Nat.two_pow_pos _) hm
    have hz : (Float64.fin false m).eq f64Zero = false := by
      rw [eq_zero_fin, decide_eq_false_iff_not]
      omega
    have hz' : (Float64.fin true m).eq f64Zero = false := by
      rw [eq_zero_fin, decide_eq_false_iff_not]
      omega
    have hl : (Float64.fin false m).lt f64Zero = false := by
      rw [lt_zero_fin]
      rfl
    have hl' : (Float64.fin true m).lt f64Zero = true := by
      rw [lt_zero_fin]
      simp [hpos]
    have hneg : (Float64.fin false m).neg = Float64.fin true m := rfl
    have hneg' : (Float64.fin true m).neg = Float64.fin false m := rfl
    have hs1 : (mathIsNaN (Float64.fin true m) || mathIsInf (Float64.fin true m)) = false := rfl
    have hs2 : (mathIsNaN (Float64.fin false m) || mathIsInf (Float64.fin false m)) = false := rfl
    rw [hneg]
    unfold humanizeDuration
    rw [hs1, hs2, hz, hz', hge, hge', hl, hl', hneg']
    generalize toInt64 ovf = conv
    generalize sprintfG4 = fmt
    simp only [durationParts, Bool.false_eq_true, if_false, if_true]
    split_ifs <;> simp only [String.append_assoc, empty_append_data]

/-- Witness for C17: `humanizeDuration(-3.5) = "-" ++ humanizeDuration(3.5)`. -/
theorem humanizeDuration_neg_witness :
    humanizeDuration 0 (Float64.fin false (7 * 2 ^ 1073)).neg =
      "-" ++ humanizeDuration 0 (Float64.fin false (7 * 2 ^ 1073)) :=
  humanizeDuration_neg 0 (Float64.fin false (7 * 2 ^ 1073)) (by decide) (by decide)
    (by decide)

/-! ## Properties of the other template functions -/

/-- C14: `alertStateToClass` returns `success` for Inactive, `warning` for Pending and
`danger` for Firing; it panics, with the message `unknown alert state`, exactly when the
state is none of the three, and then returns no string. -/
theorem alertStateToClass_spec :
    alertStateToClass StateInactive = Except.ok "success" ∧
    alertStateToClass StatePending = Except.ok "warning" ∧
    alertStateToClass StateFiring = Except.ok "danger" ∧
    (∀ as : AlertState, alertStateToClass as = Except.error "unknown alert state" ↔
      (as ≠ StateInactive ∧ as ≠ StatePending ∧ as ≠ StateFiring)) ∧
    (∀ as : AlertState, (∃ c, alertStateToClass as = Except.ok c) ↔
      (as = StateInactive ∨ as = StatePending ∨ as = StateFiring)) ∧
    (∀ (as : AlertState) (msg : String), alertStateToClass as = Except.error msg →
      msg = "unknown alert state") := by
  have d01 : StatePending ≠ StateInactive := by decide
  have d02 : StateFiring ≠ StateInactive := by decide
  have d12 : StateFiring ≠ StatePending := by decide
  refine ⟨rfl, rfl, rfl, ?_, ?_, ?_⟩
  · intro as
    unfold alertStateToClass
    split_ifs with h0 h1 h2
    · simp [h0]
    · simp [h1]
    · simp [h2]
    · simp [h0, h1, h2]
  · intro as
    unfold alertStateToClass
    split_ifs with h0 h1 h2
    · simp [h0]
    · simp [h1]
    · simp [h2]
    · simp [h0, h1, h2]
  · intro as msg
    unfold alertStateToClass
    split_ifs with h0 h1 h2
    · simp
    · simp
    · simp
    · simp only [Except.error.injEq]
      exact fun h => h.symm

/-- C16: `ruleHealthToClass` returns a string for every health value: `warning` for
Unknown, `success` for Good, and `danger` for every other value, Bad included. -/
theorem ruleHealthToClass_spec :
    ruleHealthToClass HealthUnknown = "warning" ∧
    ruleHealthToClass HealthGood = "success" ∧
    ruleHealthToClass HealthBad = "danger" ∧
    (∀ rh : RuleHealth, rh ≠ HealthUnknown → rh ≠ HealthGood →
      ruleHealthToClass rh = "danger") ∧
    (∀ rh : RuleHealth, ruleHealthToClass rh = "warning" ∨ ruleHealthToClass rh = "success" ∨
      ruleHealthToClass rh = "danger") := by
  refine ⟨by decide, by decide, by decide, ?_, ?_⟩
  · intro rh h1 h2
    simp only [ruleHealthToClass, h1, h2, if_false]
  · intro rh
    unfold ruleHealthToClass
    split_ifs with h1 h2
    · exact Or.inl rfl
    · exact Or.inr (Or.inl rfl)
    · exact Or.inr (Or.inr rfl)

/-- C18: the map `AlertStateToRowClass` built in `Rule.alerts` has an entry for a state
exactly when the state is Inactive, Pending or Firing, and its entry is the string that
`alertStateToClass` returns for that state. -/
theorem alertStateToRowClass_agrees :
    (∀ (impl : Nat → SortM Unit) (rules : List AlertingRule) (st : AlertStatus),
      alertStatusOf impl rules = some st → st.AlertStateToRowClass = alertStateToRowClass) ∧
    (∀ (as : AlertState) (c : String),
      alertStateToRowClass.lookup as = some c ↔ alertStateToClass as = Except.ok c) ∧
    (∀ as : AlertState, (alertStateToRowClass.lookup as).isSome = true ↔
      (as = StateInactive ∨ as = StatePending ∨ as = StateFiring)) ∧
    alertStateToRowClass.map Prod.fst = [StateInactive, StatePending, StateFiring] ∧
    alertStateToRowClass.lookup StateInactive = some "success" ∧
    alertStateToRowClass.lookup StatePending = some "warning" ∧
    alertStateToRowClass.lookup StateFiring = some "danger" := by
  have d01 : StatePending ≠ StateInactive := by decide
  have d02 : StateFiring ≠ StateInactive := by decide
  have d12 : StateFiring ≠ StatePending := by decide
  have key : ∀ as : AlertState, alertStateToRowClass.lookup as =
      if as = StateInactive then some "success"
      else if as = StatePending then some "warning"
      else if as = StateFiring then some "danger"
      else none := by
    intro as
    simp only [alertStateToRowClass, List.lookup]
    split_ifs with h0 h1 h2
    · have e0 : (as == StateInactive) = true := by simpa using h0
      simp only [e0]
    · have e0 : (as == StateInactive) = false := by simpa using h0
      have e1 : (as == StatePending) = true := by simpa using h1
      simp only [e0, e1]
    · have e0 : (as == StateInactive) = false := by simpa using h0
      have e1 : (as == StatePending) = false := by simpa using h1
      have e2 : (as == StateFiring) = true := by simpa using h2
      simp only [e0, e1, e2]
    · have e0 : (as == StateInactive) = false := by simpa using h0
      have e1 : (as == StatePending) = false := by simpa using h1
      have e2 : (as == StateFiring) = false := by simpa using h2
      simp only [e0, e1, e2]
  refine ⟨?_, ?_, ?_, rfl, by decide, by decide, by decide⟩
  · intro impl rules st h
    unfold alertStatusOf at h
    cases ha : alerts impl rules with
    | none => simp [ha] at h
    | some sorted =>
      simp only [ha, Option.some.injEq] at h
      rw [← h]
  · intro as c
    rw [key]
    unfold alertStateToClass
    split_ifs with h0 h1 h2
    · simp
    · simp
    · simp
    · simp
  · intro as
    rw [key]
    split_ifs with h0 h1 h2
    · simp [h0]
    · simp [h1]
    · simp [h2]
    · simp [h0, h1, h2]

theorem wrapInt64_of_range (x : Int) (h1 : -(2 ^ 63) ≤ x) (h2 : x < 2 ^ 63) :
    wrapInt64 x = x := by
  unfold wrapInt64
  omega

/-- C19: for an elapsed duration `d` (an `int64` of nanoseconds), the result `r` of
`since` is `d / 1000000 * 1000000` with the division truncated toward zero and no
wrap-around; `r` is a multiple of one millisecond, `|r| ≤ |d|`, `|d - r| < 1000000`,
`r` is zero or has the sign of `d`, and `r = d` when `d` is a multiple of one
millisecond. -/
theorem since_truncates (d : Int) (h1 : -(2 ^ 63) ≤ d) (h2 : d < 2 ^ 63) :
    since d = Int.tdiv d 1000000 * 1000000 ∧
    since d % 1000000 = 0 ∧
    |since d| ≤ |d| ∧
    |d - since d| < 1000000 ∧
    (since d = 0 ∨ (0 < since d ∧ 0 < d) ∨ (since d < 0 ∧ d < 0)) ∧
    (d % 1000000 = 0 → since d = d) := by
  have hq := Int.tmod_add_tdiv d 1000000
  have hq2 : Int.tdiv d 1000000 * 1000000 = d - Int.tmod d 1000000 := by omega
  have hm : 0 ≤ d → (0 ≤ Int.tmod d 1000000 ∧ Int.tmod d 1000000 < 1000000) := by
    intro h
    rw [Int.tmod_eq_emod h (by norm_num)]
    omega
  have hm' : d < 0 → (-1000000 < Int.tmod d 1000000 ∧ Int.tmod d 1000000 ≤ 0) := by
    intro h
    have e : Int.tmod d 1000000 = -Int.tmod (-d) 1000000 := by
      rw [Int.tmod_def, Int.tmod_def, Int.neg_tdiv]
      ring
    rw [e, Int.tmod_eq_emod (by omega) (by norm_num)]
    omega
  have hz : d % 1000000 = 0 → Int.tmod d 1000000 = 0 := by
    intro h
    rcases le_or_lt 0 d with hd | hd
    · rw [Int.tmod_eq_emod hd (by norm_num)]
      exact h
    · have e : Int.tmod d 1000000 = -Int.tmod (-d) 1000000 := by
        rw [Int.tmod_def, Int.tmod_def, Int.neg_tdiv]
        ring
      rw [e, Int.tmod_eq_emod (by omega) (by norm_num)]
      omega
  have hs : since d = d - Int.tmod d 1000000 := by
    unfold since Millisecond
    rw [hq2]
    apply wrapInt64_of_range
    · rcases le_or_lt 0 d with hd | hd
      · have := hm hd; omega
      · have := hm' hd; omega
    · rcases le_or_lt 0 d with hd | hd
      · have := hm hd; omega
      · have := hm' hd; omega
  refine ⟨by rw [hs, hq2], ?_, ?_, ?_, ?_, ?_⟩
  · rw [hs, ← hq2]
    exact Int.mul_emod_left _ _
  · rw [hs]
    rcases le_or_lt 0 d with hd | hd
    · have := hm hd
      rw [abs_of_nonneg (by omega), abs_of_nonneg hd]
      omega
    · have := hm' hd
      rw [abs_of_nonpos (by omega), abs_of_neg hd]
      omega
  · rw [hs]
    rcases le_or_lt 0 d with hd | hd
    · have := hm hd
      rw [abs_of_nonneg (by omega)]
      omega
    · have := hm' hd
      rw [abs_of_nonpos (by omega)]
      omega
  · rw [hs]
    rcases le_or_lt 0 d with hd | hd
    · have := hm hd
      omega
    · have := hm' hd
      omega
  · intro h
    rw [hs, hz h]
    omega

/-- Witness for C19: one and a half milliseconds before and after a time `t`. -/
theorem since_truncates_witness :
    (since 1500000 = Int.tdiv 1500000 1000000 * 1000000 ∧
      since 1500000 % 1000000 = 0 ∧
      |since 1500000| ≤ |(1500000 : Int)| ∧
      |1500000 - since 1500000| < 1000000 ∧
      (since 1500000 = 0 ∨ (0 < since 1500000 ∧ (0 : Int) < 1500000) ∨
        (since 1500000 < 0 ∧ (1500000 : Int) < 0)) ∧
      ((1500000 : Int) % 1000000 = 0 → since 1500000 = 1500000)) ∧
    since 1500000 = 1000000 ∧ since (-1500000) = -1000000 :=
  ⟨since_truncates 1500000 (by decide) (by decide), by decide, by decide⟩

end ThanosUI
